import Mathlib

/-!
# log.go: levels, label sets and template compilation

A shallow embedding of `level.go`, `format.go` and `label.go`.

Go strings are modelled as lists of Unicode code points (`Str`), i.e. as valid
UTF-8 text.  The standard-library functions the package calls
(`strings.ReplaceAll`, `strings.Contains`, `strings.TrimSpace`, `strings.Join`,
`fmt.Sprintf`) are modelled from their documented behaviour.  `Level` is Go's
`int`; no arithmetic is performed on it, so it is modelled by `Int`.
-/

namespace LogGo

/-- A Go string, as the list of its code points. -/
abbrev Str := List Char

/-! ## Standard library: package `strings` -/

/-- Scan of `strings.ReplaceAll` for a non-empty `old`: the first argument counts
the characters of a match that are still to be skipped. -/
def replaceFrom (old new : Str) : Nat → Str → Str
  | _, [] => []
  | k + 1, _ :: cs => replaceFrom old new k cs
  | 0, c :: cs =>
    if old <+: c :: cs then new ++ replaceFrom old new (old.length - 1) cs
    else c :: replaceFrom old new 0 cs

/-- The function `strings.ReplaceAll(s, old, new)`: all non-overlapping instances of `old`,
found from the left, are replaced by `new`; an empty `old` matches before every
character and at the end. -/
def ReplaceAll (s old new : Str) : Str :=
  if old = [] then new ++ s.flatMap (fun c => c :: new) else replaceFrom old new 0 s

/-- The function `strings.Contains(s, substr)`. -/
def Contains : Str → Str → Bool
  | [], substr => substr.isEmpty
  | c :: cs, substr => decide (substr <+: c :: cs) || Contains cs substr

/-- The function `unicode.IsSpace`: the code points with the White_Space property. -/
def isSpace (c : Char) : Bool :=
  let n := c.toNat
  (0x09 ≤ n && n ≤ 0x0D) || n == 0x20 || n == 0x85 || n == 0xA0 || n == 0x1680 ||
  (0x2000 ≤ n && n ≤ 0x200A) || n == 0x2028 || n == 0x2029 || n == 0x202F ||
  n == 0x205F || n == 0x3000

/-- The function `strings.TrimSpace(s)`: leading and trailing white space removed. -/
def TrimSpace (s : Str) : Str :=
  (s.dropWhile isSpace).rdropWhile isSpace

/-- The function `strings.Join(elems, sep)`. -/
def Join (elems : List Str) (sep : Str) : Str :=
  sep.intercalate elems

/-! ## Standard library: `fmt.Sprintf` on string operands

The model covers literal text and the directives `%%`, `%s` and `%[n]s` applied to
operands that are all strings.  What `fmt` prints from a directive outside this
fragment (flags, widths, other verbs, bad indices, missing operands) is not
modelled: it is the parameter `FmtRest`, applied to the format from the `%` of
that directive on, the operands, and the printer state at that point.
-/

/-- The behaviour of `fmt` from a directive outside the modelled fragment on:
remaining format, operands, operand counter, `reordered` flag. -/
abbrev FmtRest := Str → List Str → Nat → Bool → Str

/-- Where the scan of the format string stands. -/
inductive Scan where
  /-- Copying literal text. -/
  | text
  /-- Just after a `%`; `dir` is the format from that `%` on. -/
  | percent (dir : Str) (reordered0 : Bool)
  /-- Inside `%[`, with the digits read so far. -/
  | index (dir : Str) (reordered0 : Bool) (n : Nat) (digits : Bool)
  /-- After `%[n]`, the operand `k = n - 1` selected. -/
  | indexed (dir : Str) (reordered0 : Bool) (k : Nat)

/-- The text `%!(EXTRA string=a, string=b)` that `fmt` appends for operands left
unused by a format without explicit indices. -/
def extraArgs (a : List Str) (argNum : Nat) (reordered : Bool) : Str :=
  if !reordered && argNum < a.length then
    "%!(EXTRA ".toList ++
      ", ".toList.intercalate ((a.drop argNum).map (fun s => "string=".toList ++ s)) ++ [')']
  else []

/-- The loop of `fmt`'s `doPrintf`, one character at a time. -/
def doPrintf (rest : FmtRest) (a : List Str) : Scan → Nat → Bool → Str → Str
  | .text, argNum, reordered, [] => extraArgs a argNum reordered
  | .text, argNum, reordered, c :: cs =>
    if c = '%' then doPrintf rest a (.percent (c :: cs) reordered) argNum reordered cs
    else c :: doPrintf rest a .text argNum reordered cs
  | .percent dir r0, argNum, _, [] => rest dir a argNum r0
  | .percent dir r0, argNum, reordered, c :: cs =>
    if c = '%' then '%' :: doPrintf rest a .text argNum reordered cs
    else if c = 's' then
      match a.get? argNum with
      | some v => v ++ doPrintf rest a .text (argNum + 1) reordered cs
      | none => rest dir a argNum r0
    else if c = '[' then doPrintf rest a (.index dir r0 0 false) argNum true cs
    else rest dir a argNum r0
  | .index dir r0 _ _, argNum, _, [] => rest dir a argNum r0
  | .index dir r0 n digits, argNum, reordered, c :: cs =>
    if c.isDigit then
      if n ≤ 1000000 then
        doPrintf rest a (.index dir r0 (10 * n + (c.toNat - '0'.toNat)) true) argNum reordered cs
      else rest dir a argNum r0
    else if c = ']' then
      if digits ∧ 1 ≤ n ∧ n ≤ a.length then
        doPrintf rest a (.indexed dir r0 (n - 1)) argNum reordered cs
      else rest dir a argNum r0
    else rest dir a argNum r0
  | .indexed dir r0 _, argNum, _, [] => rest dir a argNum r0
  | .indexed dir r0 k, argNum, reordered, c :: cs =>
    if c = 's' then
      match a.get? k with
      | some v => v ++ doPrintf rest a .text (k + 1) reordered cs
      | none => rest dir a argNum r0
    else rest dir a argNum r0

/-- The function `fmt.Sprintf(format, a...)` for string operands. -/
def Sprintf (rest : FmtRest) (format : Str) (a : List Str) : Str :=
  doPrintf rest a .text 0 false format

/-! ## level.go -/

/-- Go's `type Level int`. -/
abbrev Level := Int

def LevelFatal : Level := 1
def LevelPanic : Level := 2
def LevelError : Level := 3
def LevelWarn : Level := 4
def LevelInfo : Level := 5
def LevelDebug : Level := 6
def LevelTrace : Level := 7

def normalizeLevel (level : Level) : Level :=
  if level < LevelFatal then LevelFatal
  else if level > LevelTrace then LevelTrace
  else level

/-! ## format.go -/

def defaultFormat : Str := "[${level}] ${labels} ${msg}\n".toList
def LevelPlaceholder : Str := "${level}".toList
def levelFormat : Str := "%[1]s".toList
def LabelsPlaceholder : Str := "${labels}".toList
def labelsFormat : Str := "%[2]s".toList
def MessagePlaceholder : Str := "${msg}".toList
def messageFormat : Str := "%[3]s".toList
def newLine : Str := "\n".toList

/-- The struct `format`. -/
structure format where
  original : Str
  value : Str
  hasLabels : Bool
  deriving DecidableEq, Repr

def escapeFormats (format : Str) : Str :=
  ReplaceAll format "%".toList "%%".toList

/-- The function `buildFormat`; `none` is the run-time panic of the byte index
`newFormat[len(newFormat)-1]` on an empty string. -/
def buildFormat (newFormat : Str) (hasLabels : Bool) : Option format :=
  let original := newFormat
  let newFormat := escapeFormats newFormat
  let newFormat := ReplaceAll newFormat LevelPlaceholder levelFormat
  let newFormat :=
    if hasLabels then ReplaceAll newFormat LabelsPlaceholder labelsFormat
    else ReplaceAll (ReplaceAll newFormat " ${labels} ".toList " ".toList) LabelsPlaceholder []
  let newFormat :=
    if Contains newFormat MessagePlaceholder then
      ReplaceAll newFormat MessagePlaceholder messageFormat
    else
      (match newFormat.getLast? with
        | none => newFormat
        | some lastLetter =>
          if lastLetter ≠ ' ' ∧ lastLetter ≠ '\n' then newFormat ++ " ".toList else newFormat)
        ++ (messageFormat ++ newLine)
  let newFormat := TrimSpace newFormat
  match newFormat.getLast? with
  | none => none
  | some last =>
    some
      { original := original
        value := if last ≠ '\n' then newFormat ++ newLine else newFormat
        hasLabels := hasLabels }

/-- The method `format.withLabels`. -/
def format.withLabels (f : format) (hasLabels : Bool) : Option format :=
  if f.hasLabels = hasLabels then some f else buildFormat f.original hasLabels

/-- The method `format.clearLabels`. -/
def format.clearLabels (f : format) : Option format :=
  f.withLabels false

/-! ## label.go -/

/-- The struct `labels`. -/
structure labels where
  values : List Str
  separator : Str
  format : Str
  formatted : Str
  deriving DecidableEq, Repr

def labels.notEmpty (l : labels) : Bool := decide (l.formatted.length > 0)

def labels.isEmpty (l : labels) : Bool := decide (l.formatted.length = 0)

def labels.clear (l : labels) : labels :=
  if l.isEmpty then l
  else { values := [], separator := l.separator, format := l.format, formatted := [] }

def buildLabels (rest : FmtRest) (format : Str) (values : List Str) (sep : Str) : labels :=
  let formatted : Str :=
    if values.length > 0 then
      if Contains format "%[1]s".toList then Sprintf rest format [Join values sep]
      else format
    else []
  { values := values, separator := sep, format := format, formatted := formatted }

def joinLabels (labels : List Str) (newLabels : List Str) : List Str :=
  labels ++ newLabels.filter (fun label => label ≠ [])

def labels.add (rest : FmtRest) (l : labels) (newValues : List Str) : labels :=
  let values := joinLabels l.values newValues
  if values.length = l.values.length then l
  else buildLabels rest l.format values l.separator

def labels.setSeparator (rest : FmtRest) (l : labels) (sep : Str) : labels :=
  if l.separator = sep then l else buildLabels rest l.format l.values sep

def labels.setFormat (rest : FmtRest) (l : labels) (newFormat : Str) : labels :=
  if l.format = newFormat then l else buildLabels rest newFormat l.values l.separator

def copyLabels (labels : List Str) : List Str :=
  (labels.filter (fun label => label ≠ [])).map escapeFormats

def parseLabelsFormat (format : Str) : Str :=
  ReplaceAll (escapeFormats format) LabelsPlaceholder "%[1]s".toList

/-- A directive printer used where a concrete `FmtRest` is needed. -/
def noRest : FmtRest := fun _ _ _ _ => []

/-! ## Standard library: `fmt.Sprint`, `strings.ToUpper`, `*log.Logger`

An operand of type `any` is given by whether its kind is string and by the text the
verb `%v` prints for it.  `fmt.Sprintf` on a caller's format with operands of any
type and `strings.ToUpper` are not modelled: they are fields of `Lib`.
-/

/-- An operand of `fmt.Sprint`: `isString` is `reflect.Kind == String`, `text` is what
`%v` prints. -/
structure Operand where
  isString : Bool
  text : Str
  deriving DecidableEq, Repr

/-- The loop of `fmt`'s `doPrint`: a space is added between two operands when neither
is a string. -/
def doPrint : Bool → Bool → List Operand → Str
  | _, _, [] => []
  | prevString, first, arg :: a =>
    (if !first && !arg.isString && !prevString then [' '] else [])
      ++ arg.text ++ doPrint arg.isString false a

/-- The function `fmt.Sprint(a...)`. -/
def Sprint (a : List Operand) : Str := doPrint false true a

/-- The library functions that are parameters of the model. -/
structure Lib where
  /-- What `fmt` prints from a directive outside the modelled fragment. -/
  rest : FmtRest
  /-- The function `fmt.Sprintf(f, v...)` on a caller's format and operands of any type. -/
  sprintf : Str → List Operand → Str
  /-- The function `strings.ToUpper`. -/
  toUpper : Str → Str

/-- A `Lib` used where a concrete one is needed. -/
def noLib : Lib := { rest := noRest, sprintf := fun _ _ => [], toUpper := fun s => s }

/-- The `*log.Logger` a logger writes to, as `buildLogger` makes it. -/
inductive Sink where
  /-- The logger given by `CustomLogger`. -/
  | custom (logger : Nat)
  /-- The result of `log.New(opts.Writer, "", opts.Flags)`. -/
  | writer (w : Nat) (flags : Int)
  /-- The result of `log.New(os.Stderr, "", opts.Flags)`. -/
  | stderr (flags : Int)
  deriving DecidableEq, Repr

/-! ## level.go: level names -/

/-- A Go `map[Level]string`, as the list of its entries; a key is looked up with
`List.lookup`. -/
abbrev LevelMap := List (Level × Str)

/-- The assignment `m[k] = v`. -/
def LevelMap.set (m : LevelMap) (k : Level) (v : Str) : LevelMap :=
  if (m.lookup k).isSome then m.map (fun e => if e.1 = k then (k, v) else e)
  else m ++ [(k, v)]

/-- The statement `if _, ok := m[k]; ok { m[k] = v }`. -/
def LevelMap.setPresent (m : LevelMap) (k : Level) (v : Str) : LevelMap :=
  if (m.lookup k).isSome then m.set k v else m

def LevelNameFatal : Str := "fatal".toList
def LevelNamePanic : Str := "panic".toList
def LevelNameError : Str := "error".toList
def LevelNameWarn : Str := "warn".toList
def LevelNameInfo : Str := "info".toList
def LevelNameDebug : Str := "debug".toList
def LevelNameTrace : Str := "trace".toList

def defaultLevelName (level : Level) : Str :=
  if level = LevelTrace then LevelNameTrace
  else if level = LevelDebug then LevelNameDebug
  else if level = LevelInfo then LevelNameInfo
  else if level = LevelWarn then LevelNameWarn
  else if level = LevelError then LevelNameError
  else if level = LevelPanic then LevelNamePanic
  else if level = LevelFatal then LevelNameFatal
  else []

/-- The levels the loop `for level := LevelFatal; level <= LevelTrace; level++` visits. -/
def allLevels : List Level :=
  [LevelFatal, LevelPanic, LevelError, LevelWarn, LevelInfo, LevelDebug, LevelTrace]

def copyLevelNames (m : LevelMap) : LevelMap :=
  allLevels.foldl
    (fun levelNames level =>
      levelNames.set level
        (match m.lookup level with
          | some levelName => levelName
          | none => defaultLevelName level))
    []

/-! ## opt.go -/

/-- The struct `Opts`; `Writer` and `Logger` hold the identity of the `io.Writer` and of
the `*log.Logger`, `none` for `nil`. -/
structure Opts where
  Flags : Int
  Format : Str
  LevelNames : LevelMap
  Labels : List Str
  LabelsFormat : Str
  LabelsSeparator : Str
  MinLevel : Level
  Writer : Option Nat
  Logger : Option Nat
  UpperCase : Bool
  deriving DecidableEq, Repr

/-- Go's `type Opt func(*Opts)`, as a state transformer. -/
abbrev Opt := Opts → Opts

def Lshortfile : Int := 16
def LUTC : Int := 32

def Flags (flags : Int) : Opt := fun opts => { opts with Flags := flags }

def FileAndLine : Opt := fun opts => { opts with Flags := Int.lor opts.Flags Lshortfile }

def UTC : Opt := fun opts => { opts with Flags := Int.lor opts.Flags LUTC }

def Format (newFormat : Str) : Opt := fun opts => { opts with Format := newFormat }

def LevelName (level : Level) (newName : Str) : Opt := fun opts =>
  { opts with LevelNames := opts.LevelNames.setPresent level newName }

/-- The option `LevelNames`; the entries of `update` are visited in list order. -/
def LevelNames (update : LevelMap) : Opt := fun opts =>
  { opts with
    LevelNames := update.foldl (fun names e => names.setPresent e.1 e.2) opts.LevelNames }

def UpperCaseNames : Opt := fun opts => { opts with UpperCase := true }

def MinLevel (level : Level) : Opt := fun opts => { opts with MinLevel := normalizeLevel level }

def TraceLevel : Opt := fun opts => { opts with MinLevel := LevelTrace }

def DebugLevel : Opt := fun opts => { opts with MinLevel := LevelDebug }

def InfoLevel : Opt := fun opts => { opts with MinLevel := LevelInfo }

def WarnLevel : Opt := fun opts => { opts with MinLevel := LevelWarn }

def ErrorLevel : Opt := fun opts => { opts with MinLevel := LevelError }

def PanicLevel : Opt := fun opts => { opts with MinLevel := LevelPanic }

def FatalLevel : Opt := fun opts => { opts with MinLevel := LevelError }

def Writer (writer : Nat) : Opt := fun opts => { opts with Writer := some writer }

def CustomLogger (logger : Nat) : Opt := fun opts => { opts with Logger := some logger }

def Labels (labels : List Str) : Opt := fun opts => { opts with Labels := labels }

def LabelsFormat (newFormat : Str) : Opt := fun opts => { opts with LabelsFormat := newFormat }

def LabelsSeparator (sep : Str) : Opt := fun opts => { opts with LabelsSeparator := sep }

def defaultOpts : Opts :=
  { Flags := 7
    Format := defaultFormat
    LevelNames :=
      [(LevelFatal, LevelNameFatal), (LevelPanic, LevelNamePanic), (LevelError, LevelNameError),
       (LevelWarn, LevelNameWarn), (LevelInfo, LevelNameInfo), (LevelDebug, LevelNameDebug),
       (LevelTrace, LevelNameTrace)]
    Labels := []
    LabelsFormat := LabelsPlaceholder
    LabelsSeparator := " ".toList
    MinLevel := LevelInfo
    Writer := none
    Logger := none
    UpperCase := false }

def mergeOpts (base update : Opts) : Opts :=
  let base := if update.Flags ≠ 0 then { base with Flags := update.Flags } else base
  let base := if update.Format ≠ [] then { base with Format := update.Format } else base
  let base := if update.Labels.length > 0 then { base with Labels := update.Labels } else base
  let base :=
    if update.LabelsFormat ≠ [] then { base with LabelsFormat := update.LabelsFormat } else base
  let base :=
    if update.LabelsSeparator ≠ [] then { base with LabelsSeparator := update.LabelsSeparator }
    else base
  let base :=
    if update.LevelNames.length > 0 then
      { base with
        LevelNames :=
          update.LevelNames.foldl (fun names e => names.setPresent e.1 e.2) base.LevelNames }
    else base
  let base :=
    if update.MinLevel ≠ 0 then { base with MinLevel := normalizeLevel update.MinLevel } else base
  let base := if update.Writer.isSome then { base with Writer := update.Writer } else base
  let base := if update.Logger.isSome then { base with Logger := update.Logger } else base
  { base with UpperCase := update.UpperCase }

def buildLevelNames (lib : Lib) (opts : Opts) : LevelMap :=
  let levelNames := copyLevelNames opts.LevelNames
  if opts.UpperCase then levelNames.map (fun e => (e.1, lib.toUpper e.2)) else levelNames

/-! ## logger.go

The derivations `WithLevel`, `WithFormat`, `ClearLabels`, `WithLabels`,
`WithLabelSeparator` and `WithLabelsFormat` are modelled on the package's own
`*logger`, the case in which their type assertion `l.(*logger)` succeeds.
-/

set_option linter.dupNamespace false in
/-- The struct `logger`. -/
structure logger where
  level : Level
  format : format
  levelNames : LevelMap
  labels : labels
  logger : Sink
  deriving DecidableEq, Repr

def buildLogger (opts : Opts) : Sink :=
  match opts.Logger with
  | some l => Sink.custom l
  | none =>
    match opts.Writer with
    | some w => Sink.writer w opts.Flags
    | none => Sink.stderr opts.Flags

/-- The function `New`; `none` is a panic of `buildFormat`. -/
def New (lib : Lib) (opts : List Opt) : Option logger :=
  let options := opts.foldl (fun options opt => opt options) defaultOpts
  let labels :=
    buildLabels lib.rest (parseLabelsFormat options.LabelsFormat) (copyLabels options.Labels)
      options.LabelsSeparator
  (buildFormat options.Format labels.notEmpty).map fun format =>
    { level := options.MinLevel
      format := format
      levelNames := buildLevelNames lib options
      logger := buildLogger options
      labels := labels }

/-- The function `ByOptions`; `none` is a panic of `buildFormat`. -/
def ByOptions (lib : Lib) (opts : Opts) : Option logger :=
  let options := mergeOpts defaultOpts opts
  let labels :=
    buildLabels lib.rest (parseLabelsFormat options.LabelsFormat) (copyLabels options.Labels)
      options.LabelsSeparator
  (buildFormat options.Format labels.notEmpty).map fun format =>
    { level := options.MinLevel
      format := format
      levelNames := buildLevelNames lib options
      logger := buildLogger options
      labels := labels }

/-- The function `ByLevelName`; `order` lists the keys of the level-name table in the
order in which the `range` loop of this call visits them, which Go leaves unspecified;
`none` is a panic of `buildFormat`. -/
def ByLevelName (lib : Lib) (order : List Level) (levelName : Str) (opts : List Opt) :
    Option logger :=
  let options := opts.foldl (fun options opt => opt options) defaultOpts
  let levelNames := buildLevelNames lib options
  let levelName := if options.UpperCase then lib.toUpper levelName else levelName
  let level :=
    match order.find? (fun lvl => levelNames.lookup lvl == some levelName) with
    | some lvl => lvl
    | none => options.MinLevel
  let labels :=
    buildLabels lib.rest (parseLabelsFormat options.LabelsFormat) (copyLabels options.Labels)
      options.LabelsSeparator
  (buildFormat options.Format labels.notEmpty).map fun format =>
    { level := level
      format := format
      levelNames := levelNames
      logger := buildLogger options
      labels := labels }

/-- The function `WithLevel` of level.go. -/
def WithLevel (log : logger) (newLevel : Level) : logger :=
  let newLevel := normalizeLevel newLevel
  if log.level = newLevel then log
  else
    { level := newLevel
      format := log.format
      levelNames := log.levelNames
      labels := log.labels
      logger := log.logger }

/-- The function `WithFormat` of format.go; `none` is a panic of `buildFormat`. -/
def WithFormat (log : logger) (newFormat : Str) : Option logger :=
  (buildFormat newFormat log.labels.notEmpty).map fun format =>
    { level := log.level
      format := format
      levelNames := log.levelNames
      labels := log.labels
      logger := log.logger }

/-- The function `ClearLabels` of label.go; `none` is a panic of `buildFormat`. -/
def ClearLabels (log : logger) : Option logger :=
  log.format.clearLabels.map fun format =>
    { level := log.level
      format := format
      levelNames := log.levelNames
      labels := log.labels.clear
      logger := log.logger }

/-- The function `WithLabels` of label.go; `none` is a panic of `buildFormat`. -/
def WithLabels (lib : Lib) (log : logger) (labels : List Str) : Option logger :=
  let newLabels := log.labels.add lib.rest labels
  (log.format.withLabels newLabels.notEmpty).map fun format =>
    { level := log.level
      format := format
      levelNames := log.levelNames
      labels := newLabels
      logger := log.logger }

/-- The function `WithLabelSeparator` of label.go. -/
def WithLabelSeparator (lib : Lib) (log : logger) (sep : Str) : logger :=
  { level := log.level
    format := log.format
    levelNames := log.levelNames
    labels := log.labels.setSeparator lib.rest sep
    logger := log.logger }

/-- The function `WithLabelsFormat` of label.go. -/
def WithLabelsFormat (lib : Lib) (log : logger) (newFormat : Str) : logger :=
  { level := log.level
    format := log.format
    levelNames := log.levelNames
    labels := log.labels.setFormat lib.rest (parseLabelsFormat newFormat)
    logger := log.logger }

/-! ### Emitting -/

/-- One call `l.logger.Output(calldepth, line)`. -/
structure Write where
  sink : Sink
  calldepth : Nat
  line : Str
  deriving DecidableEq, Repr

/-- How an emit operation ends. -/
inductive Control where
  /-- The call returns. -/
  | returned
  /-- The call raises `panic(payload)`. -/
  | panicked (payload : Str)
  /-- The call ends the process with `os.Exit(code)`. -/
  | exited (code : Int)
  deriving DecidableEq, Repr

/-- The effect of an emit operation: the calls of `Output`, in order, and how it ends. -/
structure Effect where
  written : List Write
  control : Control
  deriving DecidableEq, Repr

/-- The entry `l.levelNames[level]`, the empty string for a missing key. -/
def logger.levelName (l : LogGo.logger) (level : Level) : Str :=
  (l.levelNames.lookup level).getD []

/-- The line `fmt.Sprintf(l.format.value, l.levelNames[level], l.labels.formatted, msg)`. -/
def logger.render (lib : Lib) (l : LogGo.logger) (level : Level) (msg : Str) : Str :=
  Sprintf lib.rest l.format.value [l.levelName level, l.labels.formatted, msg]

def logger.log (lib : Lib) (l : LogGo.logger) (level : Level) (v : List Operand) : Effect :=
  if l.level < level ∨ v.length = 0 then { written := [], control := .returned }
  else { written := [⟨l.logger, 3, l.render lib level (Sprint v)⟩], control := .returned }

def logger.logf (lib : Lib) (l : LogGo.logger) (level : Level) (f : Str) (v : List Operand) : Effect :=
  if l.level < level then { written := [], control := .returned }
  else { written := [⟨l.logger, 3, l.render lib level (lib.sprintf f v)⟩], control := .returned }

def logger.panic (lib : Lib) (l : LogGo.logger) (v : List Operand) : Effect :=
  if l.level < LevelPanic then { written := [], control := .returned }
  else
    let msg := l.render lib LevelFatal (Sprint v)
    { written := [⟨l.logger, 3, msg⟩], control := .panicked msg }

def logger.panicf (lib : Lib) (l : LogGo.logger) (f : Str) (v : List Operand) : Effect :=
  if l.level < LevelPanic then { written := [], control := .returned }
  else
    let msg := l.render lib LevelFatal (lib.sprintf f v)
    { written := [⟨l.logger, 3, msg⟩], control := .panicked msg }

def logger.fatal (lib : Lib) (l : LogGo.logger) (v : List Operand) : Effect :=
  if l.level < LevelFatal then { written := [], control := .returned }
  else
    { written := [⟨l.logger, 3, l.render lib LevelFatal (Sprint v)⟩], control := .exited 1 }

def logger.fatalf (lib : Lib) (l : LogGo.logger) (f : Str) (v : List Operand) : Effect :=
  if l.level < LevelFatal then { written := [], control := .returned }
  else
    { written := [⟨l.logger, 3, l.render lib LevelFatal (lib.sprintf f v)⟩],
      control := .exited 1 }

def logger.Log (lib : Lib) (l : LogGo.logger) (lvl : Level) (v : List Operand) : Effect :=
  l.log lib (normalizeLevel lvl) v

def logger.Logf (lib : Lib) (l : LogGo.logger) (lvl : Level) (f : Str) (v : List Operand) : Effect :=
  l.logf lib (normalizeLevel lvl) f v

def logger.Trace (lib : Lib) (l : LogGo.logger) (v : List Operand) : Effect := l.log lib LevelTrace v

def logger.Tracef (lib : Lib) (l : LogGo.logger) (f : Str) (v : List Operand) : Effect :=
  l.logf lib LevelTrace f v

def logger.Debug (lib : Lib) (l : LogGo.logger) (v : List Operand) : Effect := l.log lib LevelDebug v

def logger.Debugf (lib : Lib) (l : LogGo.logger) (f : Str) (v : List Operand) : Effect :=
  l.logf lib LevelDebug f v

def logger.Info (lib : Lib) (l : LogGo.logger) (v : List Operand) : Effect := l.log lib LevelInfo v

def logger.Infof (lib : Lib) (l : LogGo.logger) (f : Str) (v : List Operand) : Effect :=
  l.logf lib LevelInfo f v

def logger.Notice (lib : Lib) (l : LogGo.logger) (v : List Operand) : Effect := l.log lib LevelInfo v

def logger.Noticef (lib : Lib) (l : LogGo.logger) (f : Str) (v : List Operand) : Effect :=
  l.logf lib LevelInfo f v

def logger.Warn (lib : Lib) (l : LogGo.logger) (v : List Operand) : Effect := l.log lib LevelWarn v

def logger.Warnf (lib : Lib) (l : LogGo.logger) (f : Str) (v : List Operand) : Effect :=
  l.logf lib LevelWarn f v

def logger.Error (lib : Lib) (l : LogGo.logger) (v : List Operand) : Effect := l.log lib LevelError v

def logger.Errorf (lib : Lib) (l : LogGo.logger) (f : Str) (v : List Operand) : Effect :=
  l.logf lib LevelError f v

def logger.Panic (lib : Lib) (l : LogGo.logger) (v : List Operand) : Effect := l.panic lib v

def logger.Panicf (lib : Lib) (l : LogGo.logger) (f : Str) (v : List Operand) : Effect :=
  l.panicf lib f v

def logger.Fatal (lib : Lib) (l : LogGo.logger) (v : List Operand) : Effect := l.fatal lib v

def logger.Fatalf (lib : Lib) (l : LogGo.logger) (f : Str) (v : List Operand) : Effect :=
  l.fatalf lib f v

/-- A string operand. -/
def Operand.str (s : Str) : Operand := { isString := true, text := s }

/-! ## Label sets the package can build -/

/-- The label sets made by `buildLabels` and by the methods `add`, `clear`,
`setSeparator` and `setFormat` from such sets. -/
inductive labels.Built (rest : FmtRest) : labels → Prop where
  | build (format : Str) (values : List Str) (sep : Str) :
    labels.Built rest (buildLabels rest format values sep)
  | add (L : labels) (xs : List Str) : labels.Built rest L → labels.Built rest (L.add rest xs)
  | clear (L : labels) : labels.Built rest L → labels.Built rest L.clear
  | setSeparator (L : labels) (sep : Str) :
    labels.Built rest L → labels.Built rest (L.setSeparator rest sep)
  | setFormat (L : labels) (f : Str) :
    labels.Built rest L → labels.Built rest (L.setFormat rest f)

/-- The options `New` and `ByLevelName` work with: the option functions applied, in
order, to the defaults. -/
def applyOpts (opts : List Opt) : Opts :=
  opts.foldl (fun options opt => opt options) defaultOpts

/-- The level `ByLevelName` finds: the first level, in the order of the `range` loop,
whose name is `levelName`, and `fallback` when there is none. -/
def resolveLevel (order : List Level) (levelNames : LevelMap) (levelName : Str)
    (fallback : Level) : Level :=
  match order.find? (fun lvl => levelNames.lookup lvl == some levelName) with
  | some lvl => lvl
  | none => fallback

/-! ## Loggers and label sets the package can build -/

/-- The options the package provides. -/
inductive PackageOpt : Opt → Prop where
  | flags (flags : Int) : PackageOpt (Flags flags)
  | fileAndLine : PackageOpt FileAndLine
  | utc : PackageOpt UTC
  | format (newFormat : Str) : PackageOpt (Format newFormat)
  | levelName (level : Level) (newName : Str) : PackageOpt (LevelName level newName)
  | levelNames (update : LevelMap) : PackageOpt (LevelNames update)
  | upperCaseNames : PackageOpt UpperCaseNames
  | minLevel (level : Level) : PackageOpt (MinLevel level)
  | traceLevel : PackageOpt TraceLevel
  | debugLevel : PackageOpt DebugLevel
  | infoLevel : PackageOpt InfoLevel
  | warnLevel : PackageOpt WarnLevel
  | errorLevel : PackageOpt ErrorLevel
  | panicLevel : PackageOpt PanicLevel
  | fatalLevel : PackageOpt FatalLevel
  | writer (w : Nat) : PackageOpt (Writer w)
  | customLogger (l : Nat) : PackageOpt (CustomLogger l)
  | labels (ls : List Str) : PackageOpt (Labels ls)
  | labelsFormat (newFormat : Str) : PackageOpt (LabelsFormat newFormat)
  | labelsSeparator (sep : Str) : PackageOpt (LabelsSeparator sep)

/-- The loggers built by `New` and `ByLevelName` from the package's options, by
`ByOptions` from any `Opts` value, and by the derivations from such loggers. -/
inductive Reachable (lib : Lib) : logger → Prop where
  | new (opts : List Opt) (l : logger) :
    (∀ o ∈ opts, PackageOpt o) → New lib opts = some l → Reachable lib l
  | byLevelName (order : List Level) (name : Str) (opts : List Opt) (l : logger) :
    (∀ o ∈ opts, PackageOpt o) → ByLevelName lib order name opts = some l → Reachable lib l
  | byOptions (o : Opts) (l : logger) : ByOptions lib o = some l → Reachable lib l
  | withLevel (l : logger) (v : Level) : Reachable lib l → Reachable lib (WithLevel l v)
  | withFormat (l : logger) (f : Str) (l' : logger) :
    Reachable lib l → WithFormat l f = some l' → Reachable lib l'
  | clearLabels (l l' : logger) : Reachable lib l → ClearLabels l = some l' → Reachable lib l'
  | withLabels (l : logger) (vs : List Str) (l' : logger) :
    Reachable lib l → WithLabels lib l vs = some l' → Reachable lib l'
  | withLabelSeparator (l : logger) (sep : Str) :
    Reachable lib l → Reachable lib (WithLabelSeparator lib l sep)
  | withLabelsFormat (l : logger) (f : Str) :
    Reachable lib l → Reachable lib (WithLabelsFormat lib l f)

/-- The label sets reachable from a constructor, which applies `buildLabels` to
`copyLabels` of the configured labels, by `add`, `clear`, `setSeparator` and
`setFormat`. -/
inductive labels.Configured (rest : FmtRest) : labels → Prop where
  | build (format : Str) (configured : List Str) (sep : Str) :
    labels.Configured rest (buildLabels rest format (copyLabels configured) sep)
  | add (L : labels) (xs : List Str) :
    labels.Configured rest L → labels.Configured rest (L.add rest xs)
  | clear (L : labels) : labels.Configured rest L → labels.Configured rest L.clear
  | setSeparator (L : labels) (sep : Str) :
    labels.Configured rest L → labels.Configured rest (L.setSeparator rest sep)
  | setFormat (L : labels) (f : Str) :
    labels.Configured rest L → labels.Configured rest (L.setFormat rest f)

/-! ## Intermediate strings of `buildFormat` -/

/-- The value of `newFormat` in `buildFormat` after the labels placeholder is handled. -/
def labelsStep (newFormat : Str) (hasLabels : Bool) : Str :=
  let newFormat := ReplaceAll (escapeFormats newFormat) LevelPlaceholder levelFormat
  if hasLabels then ReplaceAll newFormat LabelsPlaceholder labelsFormat
  else ReplaceAll (ReplaceAll newFormat " ${labels} ".toList " ".toList) LabelsPlaceholder []

/-- The value of `newFormat` in `buildFormat` after the message slot is placed, before
`strings.TrimSpace`. -/
def messageStep (newFormat : Str) (hasLabels : Bool) : Str :=
  let newFormat := labelsStep newFormat hasLabels
  if Contains newFormat MessagePlaceholder then
    ReplaceAll newFormat MessagePlaceholder messageFormat
  else
    (match newFormat.getLast? with
      | none => newFormat
      | some lastLetter =>
        if lastLetter ≠ ' ' ∧ lastLetter ≠ '\n' then newFormat ++ " ".toList else newFormat)
      ++ (messageFormat ++ newLine)

/-! ## Direct placeholder substitution -/

/-- One left-to-right pass over a format string in which each `${level}` is replaced by
`n`, each `${labels}` by `l` and each `${msg}` by `m`; the first argument counts the
characters of a placeholder that are still to be skipped. -/
def substituteFrom (n l m : Str) : Nat → Str → Str
  | _, [] => []
  | k + 1, _ :: cs => substituteFrom n l m k cs
  | 0, c :: cs =>
    if LevelPlaceholder <+: c :: cs then
      n ++ substituteFrom n l m (LevelPlaceholder.length - 1) cs
    else if LabelsPlaceholder <+: c :: cs then
      l ++ substituteFrom n l m (LabelsPlaceholder.length - 1) cs
    else if MessagePlaceholder <+: c :: cs then
      m ++ substituteFrom n l m (MessagePlaceholder.length - 1) cs
    else c :: substituteFrom n l m 0 cs

/-- The format string `s` with its placeholders replaced, simultaneously, by the level
name `n`, the label string `l` and the message `m`. -/
def substitute (s n l m : Str) : Str := substituteFrom n l m 0 s

/-- The value of `newFormat` in `buildFormat` after the level placeholder is replaced. -/
def levelStep (newFormat : Str) : Str :=
  ReplaceAll (escapeFormats newFormat) LevelPlaceholder levelFormat

/-- The value of `newFormat` in `buildFormat`, compiled with labels, after the message
placeholder is replaced. -/
def slotted (newFormat : Str) : Str :=
  ReplaceAll (labelsStep newFormat true) MessagePlaceholder messageFormat

/-! ## Proof vocabulary -/

/-- A string transformation that copies every character other than `$` and `%`, and maps
a string starting with `$` or `%` to a string starting with `$` or `%`. -/
structure Transparent (T : Str → Str) : Prop where
  nil : T [] = []
  plain : ∀ c X, c ≠ '$' → c ≠ '%' → T (c :: X) = c :: T X
  special : ∀ c X, c = '$' ∨ c = '%' → ∃ h Y, T (c :: X) = h :: Y ∧ (h = '$' ∨ h = '%')

/-- Strings in which every `$` is the first character of a `${labels}` or of a
`${msg}`. -/
inductive DollarsLabelsMsg : Str → Prop where
  | nil : DollarsLabelsMsg []
  | lit (c : Char) (X : Str) : c ≠ '$' → DollarsLabelsMsg X → DollarsLabelsMsg (c :: X)
  | labels (X : Str) : DollarsLabelsMsg X → DollarsLabelsMsg (LabelsPlaceholder ++ X)
  | msg (X : Str) : DollarsLabelsMsg X → DollarsLabelsMsg (MessagePlaceholder ++ X)

/-- Strings in which every `$` is the first character of a `${msg}`. -/
inductive DollarsMsg : Str → Prop where
  | nil : DollarsMsg []
  | lit (c : Char) (X : Str) : c ≠ '$' → DollarsMsg X → DollarsMsg (c :: X)
  | msg (X : Str) : DollarsMsg X → DollarsMsg (MessagePlaceholder ++ X)

/-- The text ` ${labels} ` that `buildFormat` replaces by one space when labels are
absent. -/
def spacedLabels : Str := " ${labels} ".toList

/-- The non-empty proper prefixes `$`, `${`, ..., `${labels` of the labels placeholder. -/
def labelsPrefixes : List Str :=
  (List.range (LabelsPlaceholder.length - 1)).map fun k => LabelsPlaceholder.take (k + 1)

/-- No occurrence of `${labels}` in `s` directly follows a non-empty proper prefix of the
placeholder: `s` contains none of `$${labels}`, `${${labels}`, ..., `${labels${labels}`. -/
def noLabelsJoin (s : Str) : Bool :=
  labelsPrefixes.all fun p => !Contains s (p ++ LabelsPlaceholder)

/-! ## Lemmas on `strings.ReplaceAll` -/

theorem replaceFrom_skip (old new w X : Str) :
    replaceFrom old new w.length (w ++ X) = replaceFrom old new 0 X := by
  induction w with
  | nil => rfl
  | cons c w ih => simpa [replaceFrom] using ih

theorem ReplaceAll_nil (old new : Str) (h : old ≠ []) : ReplaceAll [] old new = [] := by
  simp [ReplaceAll, h, replaceFrom]

theorem replaceFrom_zero_cons (old new cs : Str) (c : Char) :
    replaceFrom old new 0 (c :: cs) =
      if old <+: c :: cs then new ++ replaceFrom old new (old.length - 1) cs
      else c :: replaceFrom old new 0 cs := rfl

theorem ReplaceAll_match (old new X : Str) (h : old ≠ []) :
    ReplaceAll (old ++ X) old new = new ++ ReplaceAll X old new := by
  cases old with
  | nil => exact absurd rfl h
  | cons c o =>
    have hp : c :: o <+: c :: (o ++ X) := List.prefix_append (c :: o) X
    have e : ∀ Y, ReplaceAll Y (c :: o) new = replaceFrom (c :: o) new 0 Y := by
      intro Y; simp [ReplaceAll]
    rw [e, e, List.cons_append, replaceFrom_zero_cons, if_pos hp]
    have : (c :: o).length - 1 = o.length := by simp
    rw [this, replaceFrom_skip]

theorem ReplaceAll_cons_of_not (old new X : Str) (c : Char) (h : old ≠ [])
    (hn : ¬ old <+: c :: X) :
    ReplaceAll (c :: X) old new = c :: ReplaceAll X old new := by
  simp [ReplaceAll, h, replaceFrom, hn]

theorem ReplaceAll_cons_of_ne (h : Char) (o new X : Str) (c : Char) (hc : c ≠ h) :
    ReplaceAll (c :: X) (h :: o) new = c :: ReplaceAll X (h :: o) new := by
  apply ReplaceAll_cons_of_not _ _ _ _ (by simp)
  rw [List.cons_prefix_cons]
  exact fun hh => hc hh.1.symm

theorem ReplaceAll_append_of_not_mem (h : Char) (o new w X : Str) (hw : h ∉ w) :
    ReplaceAll (w ++ X) (h :: o) new = w ++ ReplaceAll X (h :: o) new := by
  induction w with
  | nil => rfl
  | cons c w ih =>
    simp only [List.mem_cons, not_or] at hw
    rw [List.cons_append, ReplaceAll_cons_of_ne _ _ _ _ _ (Ne.symm hw.1), ih hw.2]
    rfl

theorem escapeFormats_nil : escapeFormats [] = [] := rfl

theorem escapeFormats_percent (X : Str) :
    escapeFormats ('%' :: X) = '%' :: '%' :: escapeFormats X :=
  ReplaceAll_match ['%'] ['%', '%'] X (by simp)

theorem escapeFormats_cons_of_ne (c : Char) (X : Str) (hc : c ≠ '%') :
    escapeFormats (c :: X) = c :: escapeFormats X :=
  ReplaceAll_cons_of_ne '%' [] ['%', '%'] X c hc

/-! ## Lemmas on `strings.Contains` and `strings.TrimSpace` -/

theorem Contains_iff (s p : Str) : Contains s p = true ↔ p <:+: s := by
  induction s with
  | nil => simp [Contains, List.isEmpty_iff]
  | cons c cs ih => simp [Contains, ih, List.infix_cons_iff]

theorem mem_ReplaceAll_of_Contains (Y old new : Str) (c : Char) (ho : old ≠ [])
    (hY : Contains Y old = true) (hc : c ∈ new) : c ∈ ReplaceAll Y old new := by
  induction Y with
  | nil =>
    rw [Contains_iff] at hY
    exact absurd (List.infix_nil.mp hY) ho
  | cons d Y ih =>
    by_cases hp : old <+: d :: Y
    · obtain ⟨t, ht⟩ := hp
      rw [← ht, ReplaceAll_match _ _ _ ho]
      exact List.mem_append_left _ hc
    · rw [ReplaceAll_cons_of_not _ _ _ _ ho hp]
      have : Contains Y old = true := by
        simpa [Contains, hp] using hY
      exact List.mem_cons_of_mem _ (ih this)

theorem TrimSpace_ne_nil (X : Str) (c : Char) (hc : c ∈ X) (hs : isSpace c = false) :
    TrimSpace X ≠ [] := by
  unfold TrimSpace
  obtain ⟨l₁, l₂, rfl⟩ := List.append_of_mem hc
  intro h
  rw [List.rdropWhile_eq_nil_iff] at h
  have hne : List.dropWhile isSpace (l₁ ++ c :: l₂) ≠ [] := by
    intro h0
    rw [List.dropWhile_eq_nil_iff] at h0
    have := h0 c (by simp)
    simp [hs] at this
  have hsuf : c :: l₂ <:+ List.dropWhile isSpace (l₁ ++ c :: l₂) := by
    induction l₁ with
    | nil => simp [List.dropWhile, hs]
    | cons d l ih =>
      by_cases hd : isSpace d = true
      · simpa [List.dropWhile, hd] using ih (by simp) (by
          intro x hx; apply h; simpa [List.dropWhile, hd] using hx) (by
          simpa [List.dropWhile, hd] using hne)
      · simp only [Bool.not_eq_true] at hd
        simp only [List.cons_append, List.dropWhile, hd]
        exact ⟨d :: l, rfl⟩
  have := h c (hsuf.subset (by simp))
  simp [hs] at this

theorem TrimSpace_head (X : Str) (c : Char) (h : (TrimSpace X).head? = some c) :
    isSpace c = false := by
  unfold TrimSpace at h
  have hp : (List.dropWhile isSpace X).rdropWhile isSpace <+: List.dropWhile isSpace X :=
    List.rdropWhile_prefix _ _
  obtain ⟨t, ht⟩ := hp
  cases hr : (List.dropWhile isSpace X).rdropWhile isSpace with
  | nil => rw [hr] at h; simp at h
  | cons d r =>
    rw [hr] at h ht
    simp only [List.head?_cons, Option.some.injEq] at h
    subst h
    have hne : List.dropWhile isSpace X ≠ [] := by rw [← ht]; simp
    have := List.head_dropWhile_not isSpace X hne
    simp only [← ht, List.cons_append, List.head_cons] at this
    simpa using this

theorem TrimSpace_getLast (X : Str) (c : Char) (h : (TrimSpace X).getLast? = some c) :
    isSpace c = false := by
  unfold TrimSpace at h
  have hne : (List.dropWhile isSpace X).rdropWhile isSpace ≠ [] := by
    intro h0; rw [h0] at h; simp at h
  have := List.rdropWhile_last_not isSpace (List.dropWhile isSpace X) hne
  rw [List.getLast?_eq_getLast _ hne] at h
  simp only [Option.some.injEq] at h
  rw [h] at this
  simpa using this

theorem escapeFormats_append_of_not_mem (w X : Str) (hw : '%' ∉ w) :
    escapeFormats (w ++ X) = w ++ escapeFormats X :=
  ReplaceAll_append_of_not_mem '%' [] ['%', '%'] w X hw

theorem ReplaceAll_of_not_Contains (Y old new : Str) (ho : old ≠ [])
    (hY : Contains Y old = false) : ReplaceAll Y old new = Y := by
  induction Y with
  | nil => exact ReplaceAll_nil _ _ ho
  | cons d Y ih =>
    simp only [Contains, Bool.or_eq_false_iff, decide_eq_false_iff_not] at hY
    rw [ReplaceAll_cons_of_not _ _ _ _ ho hY.1, ih hY.2]

theorem Contains_append_left (w Y p : Str) (h : Contains Y p = true) :
    Contains (w ++ Y) p = true := by
  rw [Contains_iff] at *
  exact h.trans (List.infix_append' w Y [] |> fun h => by simpa using h)

theorem Contains_of_isPrefix (Y p : Str) (h : p <+: Y) : Contains Y p = true := by
  rw [Contains_iff]
  exact h.isInfix

/-! ## Scanning a string placeholder by placeholder -/

theorem pattern_induction (P : List Str) (hP : ∀ p ∈ P, p ≠ []) (motive : Str → Prop)
    (nil : motive [])
    (tok : ∀ p ∈ P, ∀ X, motive X → motive (p ++ X))
    (lit : ∀ c X, (∀ p ∈ P, ¬ p <+: c :: X) → motive X → motive (c :: X)) :
    ∀ s, motive s := by
  have key : ∀ n : Nat, ∀ s : Str, s.length ≤ n → motive s := by
    intro n
    induction n with
    | zero =>
      intro s hs
      have : s = [] := List.length_eq_zero.mp (Nat.le_zero.mp hs)
      subst this
      exact nil
    | succ n ih =>
      intro s hs
      cases s with
      | nil => exact nil
      | cons c X =>
        by_cases h : ∃ p ∈ P, p <+: c :: X
        · obtain ⟨p, hp, t, ht⟩ := h
          rw [← ht]
          apply tok p hp t
          apply ih
          have h1 : (p ++ t).length = (c :: X).length := by rw [ht]
          have h2 : 0 < p.length := List.length_pos.mpr (hP p hp)
          simp only [List.length_append, List.length_cons] at h1 hs
          omega
        · apply lit c X
          · intro p hp hpre
            exact h ⟨p, hp, hpre⟩
          · apply ih
            simp only [List.length_cons] at hs
            omega
  intro s
  exact key s.length s (Nat.le_refl _)

/-! ## Transparent transformations -/

theorem Transparent.isPrefix_iff {T : Str → Str} (hT : Transparent T) (p : Str)
    (hp : ∀ c ∈ p, c ≠ '$' ∧ c ≠ '%') (X : Str) : p <+: T X ↔ p <+: X := by
  induction p generalizing X with
  | nil => simp
  | cons a p ih =>
    have ha := hp a (by simp)
    have hp2 : ∀ c ∈ p, c ≠ '$' ∧ c ≠ '%' := fun c hc => hp c (List.mem_cons_of_mem _ hc)
    cases X with
    | nil => rw [hT.nil]
    | cons d X =>
      by_cases hd : d = '$' ∨ d = '%'
      · obtain ⟨h, Y, hY, hh⟩ := hT.special d X hd
        rw [hY, List.cons_prefix_cons, List.cons_prefix_cons]
        constructor
        · rintro ⟨rfl, _⟩
          rcases hh with hh | hh
          · exact absurd hh ha.1
          · exact absurd hh ha.2
        · rintro ⟨rfl, _⟩
          rcases hd with hd | hd
          · exact absurd hd ha.1
          · exact absurd hd ha.2
      · simp only [not_or] at hd
        rw [hT.plain d X hd.1 hd.2, List.cons_prefix_cons, List.cons_prefix_cons, ih hp2]

theorem Transparent.not_isPrefix {T : Str → Str} (hT : Transparent T) (o : Str)
    (ho : ∀ c ∈ o, c ≠ '$' ∧ c ≠ '%') (c : Char) (X : Str)
    (h : ¬ ('$' :: o) <+: c :: X) : ¬ ('$' :: o) <+: c :: T X := by
  rw [List.cons_prefix_cons] at h ⊢
  rintro ⟨hc, hpre⟩
  exact h ⟨hc, (hT.isPrefix_iff o ho X).mp hpre⟩

theorem escapeFormats_transparent : Transparent escapeFormats where
  nil := rfl
  plain := fun c X _ h => escapeFormats_cons_of_ne c X h
  special := by
    rintro c X (rfl | rfl)
    · exact ⟨'$', _, escapeFormats_cons_of_ne '$' X (by decide), Or.inl rfl⟩
    · exact ⟨'%', _, escapeFormats_percent X, Or.inr rfl⟩

theorem Transparent.replaceAll {T : Str → Str} (hT : Transparent T) (o n : Str) :
    Transparent (fun s => ReplaceAll (T s) ('$' :: o) ('%' :: n)) where
  nil := by
    show ReplaceAll (T []) _ _ = []
    rw [hT.nil]; rfl
  plain := by
    intro c X h1 h2
    show ReplaceAll (T (c :: X)) _ _ = c :: ReplaceAll (T X) _ _
    rw [hT.plain c X h1 h2, ReplaceAll_cons_of_ne _ _ _ _ _ h1]
  special := by
    intro c X hc
    obtain ⟨h, Y, hY, hh⟩ := hT.special c X hc
    show ∃ h' Y', ReplaceAll (T (c :: X)) _ _ = h' :: Y' ∧ _
    rw [hY]
    by_cases hp : ('$' :: o) <+: h :: Y
    · obtain ⟨t, ht⟩ := hp
      rw [← ht, ReplaceAll_match _ _ _ (by simp)]
      exact ⟨'%', _, rfl, Or.inr rfl⟩
    · rw [ReplaceAll_cons_of_not _ _ _ _ (by simp) hp]
      exact ⟨h, _, rfl, hh⟩

/-! ## `fmt.Sprintf` on the directives of a compiled template -/

theorem doPrintf_lit (rest : FmtRest) (a : List Str) (k : Nat) (r : Bool) (c : Char)
    (Y : Str) (hc : c ≠ '%') :
    doPrintf rest a .text k r (c :: Y) = c :: doPrintf rest a .text k r Y := by
  simp [doPrintf, hc]

theorem doPrintf_percent (rest : FmtRest) (a : List Str) (k : Nat) (r : Bool) (Y : Str) :
    doPrintf rest a .text k r ('%' :: '%' :: Y) = '%' :: doPrintf rest a .text k r Y := by
  simp [doPrintf]

theorem doPrintf_slot1 (rest : FmtRest) (v : Str) (a : List Str) (k : Nat) (r : Bool)
    (Y : Str) :
    doPrintf rest (v :: a) .text k r ('%' :: '[' :: '1' :: ']' :: 's' :: Y)
      = v ++ doPrintf rest (v :: a) .text 1 true Y := by
  simp [doPrintf, Char.isDigit]

theorem doPrintf_slot2 (rest : FmtRest) (u v : Str) (a : List Str) (k : Nat) (r : Bool)
    (Y : Str) :
    doPrintf rest (u :: v :: a) .text k r ('%' :: '[' :: '2' :: ']' :: 's' :: Y)
      = v ++ doPrintf rest (u :: v :: a) .text 2 true Y := by
  simp [doPrintf, Char.isDigit]

theorem doPrintf_slot3 (rest : FmtRest) (u v w : Str) (a : List Str) (k : Nat) (r : Bool)
    (Y : Str) :
    doPrintf rest (u :: v :: w :: a) .text k r ('%' :: '[' :: '3' :: ']' :: 's' :: Y)
      = w ++ doPrintf rest (u :: v :: w :: a) .text 3 true Y := by
  simp [doPrintf, Char.isDigit]

theorem extraArgs_reordered (a : List Str) (k : Nat) : extraArgs a k true = [] := by
  simp [extraArgs]

/-! ## Parsed label templates -/

theorem LabelsPlaceholder_eq :
    LabelsPlaceholder = '$' :: ['{', 'l', 'a', 'b', 'e', 'l', 's', '}'] := rfl

theorem parseLabelsFormat_nil : parseLabelsFormat [] = [] := rfl

theorem parseLabelsFormat_tok (X : Str) :
    parseLabelsFormat (LabelsPlaceholder ++ X)
      = '%' :: '[' :: '1' :: ']' :: 's' :: parseLabelsFormat X := by
  unfold parseLabelsFormat
  rw [escapeFormats_append_of_not_mem _ _ (by decide), ReplaceAll_match _ _ _ (by decide)]
  rfl

theorem parseLabelsFormat_percent (X : Str) :
    parseLabelsFormat ('%' :: X) = '%' :: '%' :: parseLabelsFormat X := by
  unfold parseLabelsFormat
  rw [escapeFormats_percent, LabelsPlaceholder_eq]
  exact ReplaceAll_append_of_not_mem '$' _ _ ['%', '%'] _ (by decide)

theorem parseLabelsFormat_lit (c : Char) (X : Str) (hc : c ≠ '%')
    (hn : ¬ LabelsPlaceholder <+: c :: X) :
    parseLabelsFormat (c :: X) = c :: parseLabelsFormat X := by
  unfold parseLabelsFormat
  rw [escapeFormats_cons_of_ne c X hc]
  apply ReplaceAll_cons_of_not _ _ _ _ (by decide)
  rw [LabelsPlaceholder_eq] at hn ⊢
  exact escapeFormats_transparent.not_isPrefix _ (by decide) c X hn

theorem Contains_cons_of_not (c : Char) (X p : Str) (hn : ¬ p <+: c :: X) :
    Contains (c :: X) p = Contains X p := by
  simp [Contains, hn]

/-- Printing a parsed label template with one operand: every placeholder of the raw
template is replaced by the operand and every other character is copied; a template
without placeholder leaves the operand to the `EXTRA` report. -/
theorem doPrintf_parseLabelsFormat (rest : FmtRest) (j : Str) :
    ∀ (s : Str) (k : Nat) (r : Bool),
      doPrintf rest [j] .text k r (parseLabelsFormat s)
        = ReplaceAll s LabelsPlaceholder j
          ++ (if Contains s LabelsPlaceholder then [] else extraArgs [j] k r) := by
  apply pattern_induction [LabelsPlaceholder] (by decide)
  · intro k r
    rw [parseLabelsFormat_nil, ReplaceAll_nil _ _ (by decide)]
    simp [doPrintf, Contains, LabelsPlaceholder_eq]
  · intro p hp X ih k r
    simp only [List.mem_singleton] at hp
    subst hp
    rw [parseLabelsFormat_tok, doPrintf_slot1, ih, ReplaceAll_match _ _ _ (by decide),
      Contains_of_isPrefix _ _ (List.prefix_append _ _), extraArgs_reordered]
    simp
  · intro c X hn ih k r
    have hn1 : ¬ LabelsPlaceholder <+: c :: X := hn _ (by simp)
    rw [ReplaceAll_cons_of_not _ _ _ _ (by decide) hn1, Contains_cons_of_not _ _ _ hn1]
    by_cases hc : c = '%'
    · subst hc
      rw [parseLabelsFormat_percent, doPrintf_percent, ih]
      rfl
    · rw [parseLabelsFormat_lit c X hc hn1, doPrintf_lit _ _ _ _ _ _ hc, ih]
      rfl

theorem Contains_parseLabelsFormat :
    ∀ s : Str, Contains s LabelsPlaceholder = true →
      Contains (parseLabelsFormat s) ['%', '[', '1', ']', 's'] = true := by
  apply pattern_induction [LabelsPlaceholder] (by decide)
  · intro h
    exact absurd h (by decide)
  · intro p hp X _ _
    simp only [List.mem_singleton] at hp
    subst hp
    rw [parseLabelsFormat_tok]
    exact Contains_of_isPrefix _ _ (List.prefix_append ['%', '[', '1', ']', 's'] _)
  · intro c X hn ih h
    have hn1 : ¬ LabelsPlaceholder <+: c :: X := hn _ (by simp)
    rw [Contains_cons_of_not _ _ _ hn1] at h
    by_cases hc : c = '%'
    · subst hc
      rw [parseLabelsFormat_percent]
      exact Contains_append_left ['%', '%'] _ _ (ih h)
    · rw [parseLabelsFormat_lit c X hc hn1]
      exact Contains_append_left [c] _ _ (ih h)

theorem LabelsPlaceholder_not_straddle (w Y : Str) (hw : w ≠ [])
    (h1 : ¬ LabelsPlaceholder <+: w) : ¬ LabelsPlaceholder <+: w ++ (LabelsPlaceholder ++ Y) := by
  intro h
  by_cases hl : LabelsPlaceholder.length ≤ w.length
  · exact h1 (List.prefix_of_prefix_length_le h (List.prefix_append w _) hl)
  · have hw2 : w <+: LabelsPlaceholder :=
      List.prefix_of_prefix_length_le (List.prefix_append w _) h (by omega)
    obtain ⟨u, hu⟩ := hw2
    have h : w ++ u <+: w ++ (LabelsPlaceholder ++ Y) := by rw [hu]; exact h
    rw [List.prefix_append_right_inj] at h
    cases u with
    | nil =>
      rw [List.append_nil] at hu
      rw [hu] at hl
      exact hl (Nat.le_refl _)
    | cons d u =>
      have hd : d = '$' := by
        rw [LabelsPlaceholder_eq, List.cons_append, List.cons_prefix_cons] at h
        exact h.1
      subst hd
      cases w with
      | nil => exact hw rfl
      | cons c w =>
        rw [LabelsPlaceholder_eq, List.cons_append, List.cons.injEq] at hu
        have hm : '$' ∈ ['{', 'l', 'a', 'b', 'e', 'l', 's', '}'] := by
          rw [← hu.2]; simp
        exact absurd hm (by decide)

theorem ReplaceAll_before_LabelsPlaceholder (p Y j : Str)
    (hp : Contains p LabelsPlaceholder = false) :
    ReplaceAll (p ++ (LabelsPlaceholder ++ Y)) LabelsPlaceholder j
      = p ++ ReplaceAll (LabelsPlaceholder ++ Y) LabelsPlaceholder j := by
  induction p with
  | nil => rfl
  | cons c p ih =>
    simp only [Contains, Bool.or_eq_false_iff, decide_eq_false_iff_not] at hp
    have hn : ¬ LabelsPlaceholder <+: (c :: p) ++ (LabelsPlaceholder ++ Y) :=
      LabelsPlaceholder_not_straddle (c :: p) Y (by simp) hp.1
    rw [List.cons_append] at hn ⊢
    rw [ReplaceAll_cons_of_not _ _ _ _ (by decide) hn, ih hp.2]
    rfl

theorem ReplaceAll_around_LabelsPlaceholder (p q j : Str)
    (hp : Contains p LabelsPlaceholder = false) (hq : Contains q LabelsPlaceholder = false) :
    ReplaceAll (p ++ LabelsPlaceholder ++ q) LabelsPlaceholder j = p ++ j ++ q := by
  rw [List.append_assoc, ReplaceAll_before_LabelsPlaceholder p q j hp,
    ReplaceAll_match _ _ _ (by decide), ReplaceAll_of_not_Contains _ _ _ (by decide) hq,
    List.append_assoc]

theorem parseLabelsFormat_ne_nil (t : Str) (ht : t ≠ []) : parseLabelsFormat t ≠ [] := by
  cases t with
  | nil => exact absurd rfl ht
  | cons c X =>
    by_cases hp : LabelsPlaceholder <+: c :: X
    · obtain ⟨Y, hY⟩ := hp
      rw [← hY, parseLabelsFormat_tok]
      simp
    · by_cases hc : c = '%'
      · subst hc
        rw [parseLabelsFormat_percent]
        simp
      · rw [parseLabelsFormat_lit c X hc hp]
        simp

theorem Join_ne_nil (v : Str) (vs : List Str) (sep : Str) (hv : v ≠ []) :
    Join (v :: vs) sep ≠ [] := by
  cases vs with
  | nil => simpa [Join, List.intercalate, List.intersperse] using hv
  | cons w ws => simp [Join, List.intercalate, List.intersperse, hv]

theorem buildLabels_formatted (rest : FmtRest) (format : Str) (values : List Str) (sep : Str) :
    (buildLabels rest format values sep).formatted =
      if values.length > 0 then
        if Contains format ['%', '[', '1', ']', 's'] then Sprintf rest format [Join values sep]
        else format
      else [] := rfl

/-- The pre-rendered string of a label set built from a raw template, for a non-empty
value list and a raw template that contains the placeholder. -/
theorem buildLabels_formatted_of_Contains (rest : FmtRest) (t sep v : Str) (vs : List Str)
    (ht : Contains t LabelsPlaceholder = true) :
    (buildLabels rest (parseLabelsFormat t) (v :: vs) sep).formatted
      = ReplaceAll t LabelsPlaceholder (Join (v :: vs) sep) := by
  rw [buildLabels_formatted, if_pos (by simp), if_pos (Contains_parseLabelsFormat t ht)]
  unfold Sprintf
  rw [doPrintf_parseLabelsFormat, if_pos ht, List.append_nil]

/-! ## The three placeholders -/

theorem LevelPlaceholder_eq : LevelPlaceholder = '$' :: ['{', 'l', 'e', 'v', 'e', 'l', '}'] := rfl

theorem MessagePlaceholder_eq : MessagePlaceholder = '$' :: ['{', 'm', 's', 'g', '}'] := rfl

theorem levelFormat_eq : levelFormat = '%' :: ['[', '1', ']', 's'] := rfl

theorem labelsFormat_eq : labelsFormat = '%' :: ['[', '2', ']', 's'] := rfl

theorem messageFormat_eq : messageFormat = '%' :: ['[', '3', ']', 's'] := rfl

theorem Level_not_isPrefix_Labels (Y : Str) : ¬ LevelPlaceholder <+: LabelsPlaceholder ++ Y := by
  simp [LevelPlaceholder_eq, LabelsPlaceholder_eq, List.cons_prefix_cons]

theorem Level_not_isPrefix_Message (Y : Str) :
    ¬ LevelPlaceholder <+: MessagePlaceholder ++ Y := by
  simp [LevelPlaceholder_eq, MessagePlaceholder_eq, List.cons_prefix_cons]

theorem Labels_not_isPrefix_Level (Y : Str) : ¬ LabelsPlaceholder <+: LevelPlaceholder ++ Y := by
  simp [LevelPlaceholder_eq, LabelsPlaceholder_eq, List.cons_prefix_cons]

theorem Labels_not_isPrefix_Message (Y : Str) :
    ¬ LabelsPlaceholder <+: MessagePlaceholder ++ Y := by
  simp [LabelsPlaceholder_eq, MessagePlaceholder_eq, List.cons_prefix_cons]

theorem Message_not_isPrefix_Level (Y : Str) :
    ¬ MessagePlaceholder <+: LevelPlaceholder ++ Y := by
  simp [LevelPlaceholder_eq, MessagePlaceholder_eq, List.cons_prefix_cons]

theorem Message_not_isPrefix_Labels (Y : Str) :
    ¬ MessagePlaceholder <+: LabelsPlaceholder ++ Y := by
  simp [LabelsPlaceholder_eq, MessagePlaceholder_eq, List.cons_prefix_cons]

/-- A placeholder that is not the one searched for is copied by `strings.ReplaceAll`. -/
theorem ReplaceAll_other (o t new Y : Str) (ht : '$' ∉ t)
    (hn : ¬ ('$' :: o) <+: ('$' :: t) ++ Y) :
    ReplaceAll (('$' :: t) ++ Y) ('$' :: o) new = ('$' :: t) ++ ReplaceAll Y ('$' :: o) new := by
  rw [List.cons_append] at hn ⊢
  rw [ReplaceAll_cons_of_not _ _ _ _ (by simp) hn, ReplaceAll_append_of_not_mem _ _ _ _ _ ht]
  rfl

/-! ## Direct substitution, placeholder by placeholder -/

theorem substituteFrom_skip (n l m w X : Str) :
    substituteFrom n l m w.length (w ++ X) = substituteFrom n l m 0 X := by
  induction w with
  | nil => rfl
  | cons c w ih => simpa [substituteFrom] using ih

theorem substituteFrom_zero_cons (n l m cs : Str) (c : Char) :
    substituteFrom n l m 0 (c :: cs) =
      if LevelPlaceholder <+: c :: cs then
        n ++ substituteFrom n l m (LevelPlaceholder.length - 1) cs
      else if LabelsPlaceholder <+: c :: cs then
        l ++ substituteFrom n l m (LabelsPlaceholder.length - 1) cs
      else if MessagePlaceholder <+: c :: cs then
        m ++ substituteFrom n l m (MessagePlaceholder.length - 1) cs
      else c :: substituteFrom n l m 0 cs := rfl

theorem substitute_nil (n l m : Str) : substitute [] n l m = [] := rfl

theorem substitute_level (X n l m : Str) :
    substitute (LevelPlaceholder ++ X) n l m = n ++ substitute X n l m := by
  unfold substitute
  rw [LevelPlaceholder_eq, List.cons_append, substituteFrom_zero_cons,
    if_pos (by rw [LevelPlaceholder_eq]; exact List.prefix_append ('$' :: _) X)]
  exact congrArg _ (substituteFrom_skip n l m ['{', 'l', 'e', 'v', 'e', 'l', '}'] X)

theorem substitute_labels (X n l m : Str) :
    substitute (LabelsPlaceholder ++ X) n l m = l ++ substitute X n l m := by
  unfold substitute
  have h1 := Level_not_isPrefix_Labels X
  rw [LabelsPlaceholder_eq, List.cons_append] at h1 ⊢
  rw [substituteFrom_zero_cons, if_neg h1,
    if_pos (by rw [LabelsPlaceholder_eq]; exact List.prefix_append ('$' :: _) X)]
  exact congrArg _ (substituteFrom_skip n l m ['{', 'l', 'a', 'b', 'e', 'l', 's', '}'] X)

theorem substitute_msg (X n l m : Str) :
    substitute (MessagePlaceholder ++ X) n l m = m ++ substitute X n l m := by
  unfold substitute
  have h1 := Level_not_isPrefix_Message X
  have h2 := Labels_not_isPrefix_Message X
  rw [MessagePlaceholder_eq, List.cons_append] at h1 h2 ⊢
  rw [substituteFrom_zero_cons, if_neg h1, if_neg h2,
    if_pos (by rw [MessagePlaceholder_eq]; exact List.prefix_append ('$' :: _) X)]
  exact congrArg _ (substituteFrom_skip n l m ['{', 'm', 's', 'g', '}'] X)

theorem substitute_lit (c : Char) (X n l m : Str)
    (h1 : ¬ LevelPlaceholder <+: c :: X) (h2 : ¬ LabelsPlaceholder <+: c :: X)
    (h3 : ¬ MessagePlaceholder <+: c :: X) :
    substitute (c :: X) n l m = c :: substitute X n l m := by
  unfold substitute
  rw [substituteFrom_zero_cons, if_neg h1, if_neg h2, if_neg h3]

/-! ## Compilation with labels, placeholder by placeholder -/

theorem labelsStep_true (s : Str) :
    labelsStep s true = ReplaceAll (levelStep s) LabelsPlaceholder labelsFormat := rfl

theorem levelStep_transparent : Transparent levelStep :=
  escapeFormats_transparent.replaceAll ['{', 'l', 'e', 'v', 'e', 'l', '}'] ['[', '1', ']', 's']

theorem labelsStep_transparent : Transparent (fun s => labelsStep s true) :=
  levelStep_transparent.replaceAll ['{', 'l', 'a', 'b', 'e', 'l', 's', '}'] ['[', '2', ']', 's']

theorem levelStep_nil : levelStep [] = [] := rfl

theorem levelStep_level (X : Str) : levelStep (LevelPlaceholder ++ X) = levelFormat ++ levelStep X := by
  unfold levelStep
  rw [escapeFormats_append_of_not_mem _ _ (by decide), ReplaceAll_match _ _ _ (by decide)]

theorem levelStep_labels (X : Str) :
    levelStep (LabelsPlaceholder ++ X) = LabelsPlaceholder ++ levelStep X := by
  unfold levelStep
  rw [escapeFormats_append_of_not_mem _ _ (by decide)]
  exact ReplaceAll_other _ _ _ _ (by decide) (Level_not_isPrefix_Labels _)

theorem levelStep_msg (X : Str) :
    levelStep (MessagePlaceholder ++ X) = MessagePlaceholder ++ levelStep X := by
  unfold levelStep
  rw [escapeFormats_append_of_not_mem _ _ (by decide)]
  exact ReplaceAll_other _ _ _ _ (by decide) (Level_not_isPrefix_Message _)

theorem levelStep_percent (X : Str) : levelStep ('%' :: X) = '%' :: '%' :: levelStep X := by
  unfold levelStep
  rw [escapeFormats_percent, LevelPlaceholder_eq]
  exact ReplaceAll_append_of_not_mem '$' _ _ ['%', '%'] _ (by decide)

theorem levelStep_lit (c : Char) (X : Str) (hc : c ≠ '%') (h1 : ¬ LevelPlaceholder <+: c :: X) :
    levelStep (c :: X) = c :: levelStep X := by
  unfold levelStep
  rw [escapeFormats_cons_of_ne c X hc]
  apply ReplaceAll_cons_of_not _ _ _ _ (by decide)
  rw [LevelPlaceholder_eq] at h1 ⊢
  exact escapeFormats_transparent.not_isPrefix _ (by decide) c X h1

theorem labelsStep_nil : labelsStep [] true = [] := rfl

theorem labelsStep_level (X : Str) :
    labelsStep (LevelPlaceholder ++ X) true = levelFormat ++ labelsStep X true := by
  rw [labelsStep_true, levelStep_level, LabelsPlaceholder_eq, levelFormat_eq]
  exact ReplaceAll_append_of_not_mem '$' _ _ _ _ (by decide)

theorem labelsStep_labels (X : Str) :
    labelsStep (LabelsPlaceholder ++ X) true = labelsFormat ++ labelsStep X true := by
  rw [labelsStep_true, levelStep_labels, ReplaceAll_match _ _ _ (by decide)]
  rfl

theorem labelsStep_msg (X : Str) :
    labelsStep (MessagePlaceholder ++ X) true = MessagePlaceholder ++ labelsStep X true := by
  rw [labelsStep_true, levelStep_msg]
  exact ReplaceAll_other _ _ _ _ (by decide) (Labels_not_isPrefix_Message _)

theorem labelsStep_percent (X : Str) :
    labelsStep ('%' :: X) true = '%' :: '%' :: labelsStep X true := by
  rw [labelsStep_true, levelStep_percent, LabelsPlaceholder_eq]
  exact ReplaceAll_append_of_not_mem '$' _ _ ['%', '%'] _ (by decide)

theorem labelsStep_lit (c : Char) (X : Str) (hc : c ≠ '%')
    (h1 : ¬ LevelPlaceholder <+: c :: X) (h2 : ¬ LabelsPlaceholder <+: c :: X) :
    labelsStep (c :: X) true = c :: labelsStep X true := by
  rw [labelsStep_true, levelStep_lit c X hc h1]
  apply ReplaceAll_cons_of_not _ _ _ _ (by decide)
  rw [LabelsPlaceholder_eq] at h2 ⊢
  exact levelStep_transparent.not_isPrefix _ (by decide) c X h2

theorem slotted_nil : slotted [] = [] := rfl

theorem slotted_level (X : Str) : slotted (LevelPlaceholder ++ X) = levelFormat ++ slotted X := by
  unfold slotted
  rw [labelsStep_level, MessagePlaceholder_eq, levelFormat_eq]
  exact ReplaceAll_append_of_not_mem '$' _ _ _ _ (by decide)

theorem slotted_labels (X : Str) : slotted (LabelsPlaceholder ++ X) = labelsFormat ++ slotted X := by
  unfold slotted
  rw [labelsStep_labels, MessagePlaceholder_eq, labelsFormat_eq]
  exact ReplaceAll_append_of_not_mem '$' _ _ _ _ (by decide)

theorem slotted_msg (X : Str) : slotted (MessagePlaceholder ++ X) = messageFormat ++ slotted X := by
  unfold slotted
  rw [labelsStep_msg, ReplaceAll_match _ _ _ (by decide)]

theorem slotted_percent (X : Str) : slotted ('%' :: X) = '%' :: '%' :: slotted X := by
  unfold slotted
  rw [labelsStep_percent, MessagePlaceholder_eq]
  exact ReplaceAll_append_of_not_mem '$' _ _ ['%', '%'] _ (by decide)

theorem slotted_lit (c : Char) (X : Str) (hc : c ≠ '%')
    (h1 : ¬ LevelPlaceholder <+: c :: X) (h2 : ¬ LabelsPlaceholder <+: c :: X)
    (h3 : ¬ MessagePlaceholder <+: c :: X) :
    slotted (c :: X) = c :: slotted X := by
  unfold slotted
  rw [labelsStep_lit c X hc h1 h2]
  apply ReplaceAll_cons_of_not _ _ _ _ (by decide)
  rw [MessagePlaceholder_eq] at h3 ⊢
  exact labelsStep_transparent.not_isPrefix _ (by decide) c X h3

theorem placeholder_induction (motive : Str → Prop) (nil : motive [])
    (level : ∀ X, motive X → motive (LevelPlaceholder ++ X))
    (labels : ∀ X, motive X → motive (LabelsPlaceholder ++ X))
    (msg : ∀ X, motive X → motive (MessagePlaceholder ++ X))
    (lit : ∀ c X, ¬ LevelPlaceholder <+: c :: X → ¬ LabelsPlaceholder <+: c :: X →
      ¬ MessagePlaceholder <+: c :: X → motive X → motive (c :: X)) :
    ∀ s, motive s := by
  apply pattern_induction [LevelPlaceholder, LabelsPlaceholder, MessagePlaceholder] (by decide)
  · exact nil
  · intro p hp X ih
    simp only [List.mem_cons, List.mem_singleton, List.not_mem_nil, or_false] at hp
    rcases hp with rfl | rfl | rfl
    · exact level X ih
    · exact labels X ih
    · exact msg X ih
  · intro c X hn ih
    exact lit c X (hn _ (by simp)) (hn _ (by simp)) (hn _ (by simp)) ih

theorem Contains_Level_append (X : Str) :
    Contains (LevelPlaceholder ++ X) MessagePlaceholder = Contains X MessagePlaceholder := by
  simp [LevelPlaceholder_eq, MessagePlaceholder_eq, Contains, List.cons_prefix_cons]

theorem Contains_Labels_append (X : Str) :
    Contains (LabelsPlaceholder ++ X) MessagePlaceholder = Contains X MessagePlaceholder := by
  simp [LabelsPlaceholder_eq, MessagePlaceholder_eq, Contains, List.cons_prefix_cons]

theorem Contains_labelsStep :
    ∀ s : Str, Contains s MessagePlaceholder = true →
      Contains (labelsStep s true) MessagePlaceholder = true := by
  apply placeholder_induction
  · intro h
    exact absurd h (by decide)
  · intro X ih h
    rw [Contains_Level_append] at h
    rw [labelsStep_level]
    exact Contains_append_left _ _ _ (ih h)
  · intro X ih h
    rw [Contains_Labels_append] at h
    rw [labelsStep_labels]
    exact Contains_append_left _ _ _ (ih h)
  · intro X _ _
    rw [labelsStep_msg]
    exact Contains_of_isPrefix _ _ (List.prefix_append _ _)
  · intro c X h1 h2 h3 ih h
    rw [Contains_cons_of_not _ _ _ h3] at h
    by_cases hc : c = '%'
    · subst hc
      rw [labelsStep_percent]
      exact Contains_append_left ['%', '%'] _ _ (ih h)
    · rw [labelsStep_lit c X hc h1 h2]
      exact Contains_append_left [c] _ _ (ih h)

/-- Printing the compiled format with the three operands: each slot prints its operand
and every other character of the source format is copied. -/
theorem doPrintf_slotted (rest : FmtRest) (n l m T : Str) :
    ∀ (s : Str) (k : Nat) (r : Bool), ∃ (k' : Nat) (r' : Bool),
      doPrintf rest [n, l, m] .text k r (slotted s ++ T)
        = substitute s n l m ++ doPrintf rest [n, l, m] .text k' r' T ∧
      (r = true → r' = true) ∧ (Contains s MessagePlaceholder = true → r' = true) := by
  apply placeholder_induction
  · intro k r
    exact ⟨k, r, rfl, id, fun h => absurd h (by decide)⟩
  · intro X ih k r
    obtain ⟨k', r', h, h1, _⟩ := ih 1 true
    refine ⟨k', r', ?_, fun _ => h1 rfl, fun _ => h1 rfl⟩
    rw [slotted_level, substitute_level, levelFormat_eq, List.cons_append]
    simp only [List.cons_append, List.nil_append]
    rw [doPrintf_slot1, h, List.append_assoc]
  · intro X ih k r
    obtain ⟨k', r', h, h1, _⟩ := ih 2 true
    refine ⟨k', r', ?_, fun _ => h1 rfl, fun _ => h1 rfl⟩
    rw [slotted_labels, substitute_labels, labelsFormat_eq, List.cons_append]
    simp only [List.cons_append, List.nil_append]
    rw [doPrintf_slot2, h, List.append_assoc]
  · intro X ih k r
    obtain ⟨k', r', h, h1, _⟩ := ih 3 true
    refine ⟨k', r', ?_, fun _ => h1 rfl, fun _ => h1 rfl⟩
    rw [slotted_msg, substitute_msg, messageFormat_eq, List.cons_append]
    simp only [List.cons_append, List.nil_append]
    rw [doPrintf_slot3, h, List.append_assoc]
  · intro c X h1 h2 h3 ih k r
    obtain ⟨k', r', h, hr, hm⟩ := ih k r
    refine ⟨k', r', ?_, hr, fun hc => hm (by rwa [Contains_cons_of_not _ _ _ h3] at hc)⟩
    rw [substitute_lit c X n l m h1 h2 h3]
    by_cases hc : c = '%'
    · subst hc
      rw [slotted_percent]
      simp only [List.cons_append]
      rw [doPrintf_percent, h]
    · rw [slotted_lit c X hc h1 h2 h3, List.cons_append, doPrintf_lit _ _ _ _ _ _ hc, h]
      rfl

/-! ## White space around the compiled format -/

theorem TrimSpace_eq_self (X : Str) (hh : ∀ c, X.head? = some c → isSpace c = false)
    (hl : ∀ c, X.getLast? = some c → isSpace c = false) : TrimSpace X = X := by
  unfold TrimSpace
  have h1 : List.dropWhile isSpace X = X := by
    cases X with
    | nil => rfl
    | cons c X =>
      have := hh c rfl
      simp [List.dropWhile, this]
  rw [h1, List.rdropWhile_eq_self_iff]
  intro hne
  have := hl _ (List.getLast?_eq_getLast _ hne)
  simp [this]

theorem slotted_eq_nil (s : Str) (h : slotted s = []) : s = [] := by
  cases s with
  | nil => rfl
  | cons c X =>
    exfalso
    by_cases h1 : LevelPlaceholder <+: c :: X
    · obtain ⟨Y, hY⟩ := h1
      rw [← hY, slotted_level] at h
      exact absurd h (by simp [levelFormat_eq])
    · by_cases h2 : LabelsPlaceholder <+: c :: X
      · obtain ⟨Y, hY⟩ := h2
        rw [← hY, slotted_labels] at h
        exact absurd h (by simp [labelsFormat_eq])
      · by_cases h3 : MessagePlaceholder <+: c :: X
        · obtain ⟨Y, hY⟩ := h3
          rw [← hY, slotted_msg] at h
          exact absurd h (by simp [messageFormat_eq])
        · by_cases hc : c = '%'
          · subst hc
            rw [slotted_percent] at h
            exact absurd h (by simp)
          · rw [slotted_lit c X hc h1 h2 h3] at h
            exact absurd h (by simp)

theorem slotted_head (s : Str) (c d : Char) (hs : s.head? = some c) (hc : isSpace c = false)
    (hd : (slotted s).head? = some d) : isSpace d = false := by
  cases s with
  | nil => simp at hs
  | cons c' X =>
    simp only [List.head?_cons, Option.some.injEq] at hs
    subst hs
    by_cases h1 : LevelPlaceholder <+: c' :: X
    · obtain ⟨Y, hY⟩ := h1
      rw [← hY, slotted_level, levelFormat_eq] at hd
      simp only [List.cons_append, List.head?_cons, Option.some.injEq] at hd
      subst hd; decide
    · by_cases h2 : LabelsPlaceholder <+: c' :: X
      · obtain ⟨Y, hY⟩ := h2
        rw [← hY, slotted_labels, labelsFormat_eq] at hd
        simp only [List.cons_append, List.head?_cons, Option.some.injEq] at hd
        subst hd; decide
      · by_cases h3 : MessagePlaceholder <+: c' :: X
        · obtain ⟨Y, hY⟩ := h3
          rw [← hY, slotted_msg, messageFormat_eq] at hd
          simp only [List.cons_append, List.head?_cons, Option.some.injEq] at hd
          subst hd; decide
        · by_cases hp : c' = '%'
          · subst hp
            rw [slotted_percent] at hd
            simp only [List.head?_cons, Option.some.injEq] at hd
            subst hd; decide
          · rw [slotted_lit c' X hp h1 h2 h3] at hd
            simp only [List.head?_cons, Option.some.injEq] at hd
            subst hd; exact hc

theorem getLast?_append_of_not_space (w Y : Str) (d e : Char) (hw : w.getLast? = some e)
    (he : isSpace e = false) (h : (w ++ Y).getLast? = some d) (hd : isSpace d = true) :
    Y ≠ [] ∧ Y.getLast? = some d := by
  by_cases hY : Y = []
  · subst hY
    rw [List.append_nil, hw] at h
    simp only [Option.some.injEq] at h
    subst h
    rw [he] at hd
    exact absurd hd (by decide)
  · rw [List.getLast?_append_of_ne_nil _ hY] at h
    exact ⟨hY, h⟩

theorem getLast?_append_of_some (w X : Str) (d : Char) (h : X.getLast? = some d) :
    (w ++ X).getLast? = some d := by
  have hX : X ≠ [] := by
    intro h0; rw [h0] at h; simp at h
  rw [List.getLast?_append_of_ne_nil _ hX, h]

theorem slotted_getLast :
    ∀ (s : Str) (d : Char), (slotted s).getLast? = some d → isSpace d = true →
      s.getLast? = some d := by
  apply placeholder_induction
  · intro d h
    rw [slotted_nil] at h
    simp at h
  · intro X ih d h hd
    rw [slotted_level] at h
    obtain ⟨_, h2⟩ := getLast?_append_of_not_space _ _ d 's' (by decide) (by decide) h hd
    exact getLast?_append_of_some _ _ _ (ih d h2 hd)
  · intro X ih d h hd
    rw [slotted_labels] at h
    obtain ⟨_, h2⟩ := getLast?_append_of_not_space _ _ d 's' (by decide) (by decide) h hd
    exact getLast?_append_of_some _ _ _ (ih d h2 hd)
  · intro X ih d h hd
    rw [slotted_msg] at h
    obtain ⟨_, h2⟩ := getLast?_append_of_not_space _ _ d 's' (by decide) (by decide) h hd
    exact getLast?_append_of_some _ _ _ (ih d h2 hd)
  · intro c X h1 h2 h3 ih d h hd
    by_cases hc : c = '%'
    · subst hc
      rw [slotted_percent] at h
      obtain ⟨_, h4⟩ := getLast?_append_of_not_space ['%', '%'] _ d '%' (by decide)
        (by decide) h hd
      exact getLast?_append_of_some ['%'] _ _ (ih d h4 hd)
    · rw [slotted_lit c X hc h1 h2 h3] at h
      by_cases hX : X = []
      · subst hX
        rw [slotted_nil] at h
        exact h
      · have hne : slotted X ≠ [] := fun h0 => hX (slotted_eq_nil X h0)
        have h4 : (slotted X).getLast? = some d := by
          rw [← List.getLast?_append_of_ne_nil [c] hne]
          exact h
        exact getLast?_append_of_some [c] _ _ (ih d h4 hd)

theorem messageStep_true (s : Str) (hm : Contains s MessagePlaceholder = true) :
    messageStep s true = slotted s := by
  unfold messageStep
  simp only []
  rw [if_pos (Contains_labelsStep s hm)]
  rfl

theorem TrimSpace_slotted (s : Str) (hs : TrimSpace s = s) : TrimSpace (slotted s) = slotted s := by
  apply TrimSpace_eq_self
  · intro d hd
    cases hh : s.head? with
    | none =>
      have : s = [] := List.head?_eq_none_iff.mp hh
      subst this
      rw [slotted_nil] at hd
      simp at hd
    | some c =>
      have hc : isSpace c = false := TrimSpace_head s c (by rw [hs]; exact hh)
      exact slotted_head s c d hh hc hd
  · intro d hd
    by_contra hsp
    simp only [Bool.not_eq_false] at hsp
    have h1 := slotted_getLast s d hd hsp
    have h2 := TrimSpace_getLast s d (by rw [hs]; exact h1)
    rw [h2] at hsp
    exact absurd hsp (by decide)

/-! ## Compilation without labels of a format whose `$` all begin placeholders -/

theorem DollarsLabelsMsg_append (w X : Str) (hw : '$' ∉ w) (h : DollarsLabelsMsg X) :
    DollarsLabelsMsg (w ++ X) := by
  induction w with
  | nil => exact h
  | cons c w ih =>
    simp only [List.mem_cons, not_or] at hw
    exact DollarsLabelsMsg.lit c _ (Ne.symm hw.1) (ih hw.2)

theorem DollarsMsg_append (w X : Str) (hw : '$' ∉ w) (h : DollarsMsg X) :
    DollarsMsg (w ++ X) := by
  induction w with
  | nil => exact h
  | cons c w ih =>
    simp only [List.mem_cons, not_or] at hw
    exact DollarsMsg.lit c _ (Ne.symm hw.1) (ih hw.2)

theorem DollarsLabelsMsg_levelStep :
    ∀ s : Str, '$' ∉ substitute s [] [] [] → DollarsLabelsMsg (levelStep s) := by
  apply placeholder_induction
  · intro _
    exact DollarsLabelsMsg.nil
  · intro X ih h
    rw [substitute_level] at h
    rw [levelStep_level]
    exact DollarsLabelsMsg_append _ _ (by decide) (ih h)
  · intro X ih h
    rw [substitute_labels] at h
    rw [levelStep_labels]
    exact DollarsLabelsMsg.labels _ (ih h)
  · intro X ih h
    rw [substitute_msg] at h
    rw [levelStep_msg]
    exact DollarsLabelsMsg.msg _ (ih h)
  · intro c X h1 h2 h3 ih h
    rw [substitute_lit c X _ _ _ h1 h2 h3] at h
    simp only [List.mem_cons, not_or] at h
    by_cases hc : c = '%'
    · subst hc
      rw [levelStep_percent]
      exact DollarsLabelsMsg_append ['%', '%'] _ (by decide) (ih h.2)
    · rw [levelStep_lit c X hc h1]
      exact DollarsLabelsMsg.lit c _ (Ne.symm h.1) (ih h.2)

theorem DollarsLabelsMsg.of_cons (c : Char) (Z : Str) (hc : c ≠ '$')
    (h : DollarsLabelsMsg (c :: Z)) : DollarsLabelsMsg Z := by
  generalize e : c :: Z = W at h
  cases h with
  | nil => simp at e
  | lit d X _ hX =>
    rw [List.cons.injEq] at e
    rw [e.2]; exact hX
  | labels X _ =>
    rw [LabelsPlaceholder_eq, List.cons_append, List.cons.injEq] at e
    exact absurd e.1 hc
  | msg X _ =>
    rw [MessagePlaceholder_eq, List.cons_append, List.cons.injEq] at e
    exact absurd e.1 hc

theorem DollarsLabelsMsg.of_labels (Z : Str) (h : DollarsLabelsMsg (LabelsPlaceholder ++ Z)) :
    DollarsLabelsMsg Z := by
  generalize e : LabelsPlaceholder ++ Z = W at h
  cases h with
  | nil => simp [LabelsPlaceholder_eq] at e
  | lit d X hd _ =>
    rw [LabelsPlaceholder_eq, List.cons_append, List.cons.injEq] at e
    exact absurd e.1.symm hd
  | labels X hX =>
    rw [List.append_cancel_left e]; exact hX
  | msg X _ =>
    simp [LabelsPlaceholder_eq, MessagePlaceholder_eq] at e

theorem spacedLabels_eq : spacedLabels = ' ' :: (LabelsPlaceholder ++ [' ']) := rfl

theorem DollarsLabelsMsg_spaced :
    ∀ (n : Nat) (X : Str), X.length ≤ n → DollarsLabelsMsg X →
      DollarsLabelsMsg (ReplaceAll X spacedLabels [' ']) := by
  intro n
  induction n with
  | zero =>
    intro X hX _
    have : X = [] := List.length_eq_zero.mp (Nat.le_zero.mp hX)
    subst this
    exact DollarsLabelsMsg.nil
  | succ n ih =>
    intro X hX h
    cases h with
    | nil => exact DollarsLabelsMsg.nil
    | lit c X' hc hX' =>
      simp only [List.length_cons] at hX
      by_cases hp : spacedLabels <+: c :: X'
      · obtain ⟨t, ht⟩ := hp
        rw [← ht, ReplaceAll_match _ _ _ (by decide)]
        rw [spacedLabels_eq, List.cons_append, List.cons.injEq, List.append_assoc] at ht
        have h2 : DollarsLabelsMsg (LabelsPlaceholder ++ ([' '] ++ t)) := by
          rw [ht.2]; exact hX'
        have h3 : DollarsLabelsMsg t :=
          DollarsLabelsMsg.of_cons ' ' t (by decide) (DollarsLabelsMsg.of_labels _ h2)
        have hl : t.length ≤ n := by
          have := congrArg List.length ht.2
          simp only [List.length_append, List.length_cons, List.length_nil] at this
          omega
        exact DollarsLabelsMsg.lit ' ' _ (by decide) (ih t hl h3)
      · rw [ReplaceAll_cons_of_not _ _ _ _ (by decide) hp]
        exact DollarsLabelsMsg.lit c _ hc (ih X' (by omega) hX')
    | labels X' hX' =>
      have hl : X'.length ≤ n := by
        simp only [List.length_append] at hX
        have : LabelsPlaceholder.length = 9 := rfl
        omega
      rw [spacedLabels_eq, ReplaceAll_append_of_not_mem ' ' _ _ _ _ (by decide)]
      exact DollarsLabelsMsg.labels _ (ih X' hl hX')
    | msg X' hX' =>
      have hl : X'.length ≤ n := by
        simp only [List.length_append] at hX
        have : MessagePlaceholder.length = 6 := rfl
        omega
      rw [spacedLabels_eq, ReplaceAll_append_of_not_mem ' ' _ _ _ _ (by decide)]
      exact DollarsLabelsMsg.msg _ (ih X' hl hX')

theorem DollarsMsg_removeLabels (X : Str) (h : DollarsLabelsMsg X) :
    DollarsMsg (ReplaceAll X LabelsPlaceholder []) := by
  induction h with
  | nil => exact DollarsMsg.nil
  | lit c X hc _ ih =>
    rw [LabelsPlaceholder_eq, ReplaceAll_cons_of_ne _ _ _ _ _ hc]
    exact DollarsMsg.lit c _ hc ih
  | labels X _ ih =>
    rw [ReplaceAll_match _ _ _ (by decide)]
    exact ih
  | msg X _ ih =>
    have := ReplaceAll_other ['{', 'l', 'a', 'b', 'e', 'l', 's', '}'] ['{', 'm', 's', 'g', '}'] []
      X (by decide) (Labels_not_isPrefix_Message X)
    rw [LabelsPlaceholder_eq, MessagePlaceholder_eq, this]
    exact DollarsMsg.msg _ ih

theorem labelsStep_false (s : Str) :
    labelsStep s false
      = ReplaceAll (ReplaceAll (levelStep s) spacedLabels [' ']) LabelsPlaceholder [] := rfl

theorem DollarsMsg_labelsStep (s : Str) (h : '$' ∉ substitute s [] [] []) :
    DollarsMsg (labelsStep s false) := by
  rw [labelsStep_false]
  exact DollarsMsg_removeLabels _
    (DollarsLabelsMsg_spaced _ _ (Nat.le_refl _) (DollarsLabelsMsg_levelStep s h))

theorem DollarsMsg.not_mem_ReplaceAll (Y : Str) (h : DollarsMsg Y) :
    '$' ∉ ReplaceAll Y MessagePlaceholder messageFormat := by
  induction h with
  | nil =>
    rw [ReplaceAll_nil _ _ (by decide)]
    simp
  | lit c X hc _ ih =>
    rw [MessagePlaceholder_eq, ReplaceAll_cons_of_ne _ _ _ _ _ hc]
    simp only [List.mem_cons, not_or]
    exact ⟨Ne.symm hc, ih⟩
  | msg X _ ih =>
    rw [ReplaceAll_match _ _ _ (by decide)]
    simp only [List.mem_append, not_or]
    exact ⟨by decide, ih⟩

theorem DollarsMsg.not_mem (Y : Str) (h : DollarsMsg Y)
    (hc : Contains Y MessagePlaceholder = false) : '$' ∉ Y := by
  induction h with
  | nil => simp
  | lit c X hd _ ih =>
    simp only [Contains, Bool.or_eq_false_iff] at hc
    simp only [List.mem_cons, not_or]
    exact ⟨Ne.symm hd, ih hc.2⟩
  | msg X _ _ =>
    rw [Contains_of_isPrefix _ _ (List.prefix_append _ _)] at hc
    exact absurd hc (by decide)

theorem dollar_not_mem_messageStep (s : Str) (h : '$' ∉ substitute s [] [] []) :
    '$' ∉ messageStep s false := by
  have hY := DollarsMsg_labelsStep s h
  unfold messageStep
  simp only []
  split_ifs with hc
  · exact hY.not_mem_ReplaceAll
  · simp only [Bool.not_eq_true] at hc
    have hn := hY.not_mem _ hc
    simp only [List.mem_append, not_or]
    refine ⟨?_, by decide⟩
    split
    · exact hn
    · split_ifs
      · simp only [List.mem_append, not_or]
        exact ⟨hn, by decide⟩
      · exact hn

theorem mem_of_mem_TrimSpace (X : Str) (c : Char) (h : c ∈ TrimSpace X) : c ∈ X := by
  unfold TrimSpace at h
  exact (List.dropWhile_suffix isSpace).subset ((List.rdropWhile_prefix isSpace _).subset h)

/-! ## Shape of the compiled template -/

theorem buildFormat_eq (s : Str) (b : Bool) :
    buildFormat s b =
      match (TrimSpace (messageStep s b)).getLast? with
      | none => none
      | some last =>
        some
          { original := s
            value :=
              if last ≠ '\n' then TrimSpace (messageStep s b) ++ newLine
              else TrimSpace (messageStep s b)
            hasLabels := b } := rfl

theorem percent_mem_messageStep (s : Str) (b : Bool) : '%' ∈ messageStep s b := by
  unfold messageStep
  simp only []
  split_ifs with h
  · exact mem_ReplaceAll_of_Contains _ _ _ _ (by decide) h (by decide)
  · apply List.mem_append_right
    decide

theorem TrimSpace_messageStep_ne_nil (s : Str) (b : Bool) :
    TrimSpace (messageStep s b) ≠ [] :=
  TrimSpace_ne_nil _ '%' (percent_mem_messageStep s b) (by decide)

theorem buildFormat_eq_some (s : Str) (b : Bool) :
    buildFormat s b =
      some { original := s, value := TrimSpace (messageStep s b) ++ newLine, hasLabels := b } := by
  rw [buildFormat_eq]
  have hne := TrimSpace_messageStep_ne_nil s b
  cases h : (TrimSpace (messageStep s b)).getLast? with
  | none => exact absurd (List.getLast?_eq_none_iff.mp h) hne
  | some last =>
    have hs := TrimSpace_getLast _ _ h
    have hl : last ≠ '\n' := by
      rintro rfl
      exact absurd hs (by decide)
    simp [hl]

/-! ## Claims -/

theorem clamp_int (v : Int) (f : Int → Int)
    (hf : ∀ x, f x = if x < 1 then 1 else if x > 7 then 7 else x) :
    (v < 1 → f v = 1) ∧ (v > 7 → f v = 7) ∧ (1 ≤ v ∧ v ≤ 7 → f v = v) ∧
    (1 ≤ f v ∧ f v ≤ 7) ∧ f (f v) = f v := by
  have h1 := hf v
  have h2 := hf (f v)
  refine ⟨?_, ?_, ?_, ?_, ?_⟩
  · intro h; rw [h1, if_pos h]
  · intro h; rw [h1, if_neg (by omega), if_pos h]
  · rintro ⟨a, b⟩; rw [h1, if_neg (by omega), if_neg (by omega)]
  · rw [h1]; split_ifs <;> omega
  · rw [h2, h1]; split_ifs <;> omega

/-- C1: `normalizeLevel` maps every level below `LevelFatal` (1) to `LevelFatal`, every
level above `LevelTrace` (7) to `LevelTrace`, and leaves every other level unchanged;
hence its result lies in `[LevelFatal, LevelTrace]` and it is idempotent. -/
theorem normalizeLevel_clamps (v : Level) :
    LevelFatal = 1 ∧ LevelTrace = 7 ∧
    (v < LevelFatal → normalizeLevel v = LevelFatal) ∧
    (v > LevelTrace → normalizeLevel v = LevelTrace) ∧
    (LevelFatal ≤ v ∧ v ≤ LevelTrace → normalizeLevel v = v) ∧
    (LevelFatal ≤ normalizeLevel v ∧ normalizeLevel v ≤ LevelTrace) ∧
    normalizeLevel (normalizeLevel v) = normalizeLevel v :=
  ⟨rfl, rfl, clamp_int v normalizeLevel (fun _ => rfl)⟩

/-- Witness for C1: the levels 0, 100 and 5 of the package's test. -/
theorem normalizeLevel_clamps_witness :
    normalizeLevel 0 = LevelFatal ∧ normalizeLevel 100 = LevelTrace ∧
    normalizeLevel 5 = 5 :=
  ⟨(normalizeLevel_clamps 0).2.2.1 (by decide),
   (normalizeLevel_clamps 100).2.2.2.1 (by decide),
   (normalizeLevel_clamps 5).2.2.2.2.1 (by decide)⟩

/-- C4: the compilation results of the package's tests: the empty format without labels,
the format `${level}: ${labels} ${msg}` with and without labels, and the default format
with and without labels. -/
theorem buildFormat_concrete :
    (buildFormat "".toList false).map (fun f => f.value) = some "%[3]s\n".toList ∧
    (buildFormat "${level}: ${labels} ${msg}".toList true).map (fun f => f.value)
      = some "%[1]s: %[2]s %[3]s\n".toList ∧
    (buildFormat "${level}: ${labels} ${msg}".toList false).map (fun f => f.value)
      = some "%[1]s: %[3]s\n".toList ∧
    defaultFormat = "[${level}] ${labels} ${msg}\n".toList ∧
    (buildFormat defaultFormat true).map (fun f => f.value)
      = some "[%[1]s] %[2]s %[3]s\n".toList ∧
    (buildFormat defaultFormat false).map (fun f => f.value)
      = some "[%[1]s] %[3]s\n".toList := by
  refine ⟨?_, ?_, ?_, ?_, ?_, ?_⟩ <;> decide

/-- C2: compile-then-render equals direct placeholder substitution: for every format
string `s` without leading or trailing white space that contains `${msg}`, rendering
the template compiled with labels on operands `n`, `l`, `m` gives `s` with every
`${level}`, `${labels}`, `${msg}` replaced by `n`, `l`, `m`, followed by one newline;
every other character of `s`, `%` included, is copied. -/
theorem render_compiled_format (rest : FmtRest) (s n l m : Str) (hs : TrimSpace s = s)
    (hm : Contains s MessagePlaceholder = true) :
    ∃ f, buildFormat s true = some f ∧
      Sprintf rest f.value [n, l, m] = substitute s n l m ++ ['\n'] := by
  refine ⟨_, buildFormat_eq_some s true, ?_⟩
  show Sprintf rest (TrimSpace (messageStep s true) ++ newLine) [n, l, m] = _
  rw [messageStep_true s hm, TrimSpace_slotted s hs]
  unfold Sprintf
  obtain ⟨k', r', h, _, h2⟩ := doPrintf_slotted rest n l m newLine s 0 false
  rw [h, h2 hm]
  rfl

/-- Witness for C2: the format of the package's test with printf-like sequences. -/
theorem render_compiled_format_witness :
    TrimSpace "[${level}] %f ${labels} %d ${msg} %s".toList
      = "[${level}] %f ${labels} %d ${msg} %s".toList ∧
    Contains "[${level}] %f ${labels} %d ${msg} %s".toList MessagePlaceholder = true ∧
    substitute "[${level}] %f ${labels} %d ${msg} %s".toList
      "info".toList "a b".toList "%[1]s done".toList = "[info] %f a b %d %[1]s done %s".toList ∧
    ∃ f, buildFormat "[${level}] %f ${labels} %d ${msg} %s".toList true = some f ∧
      Sprintf noRest f.value ["info".toList, "a b".toList, "%[1]s done".toList]
        = substitute "[${level}] %f ${labels} %d ${msg} %s".toList
            "info".toList "a b".toList "%[1]s done".toList ++ ['\n'] :=
  ⟨by decide, by decide, by decide,
    render_compiled_format noRest _ _ _ _ (by decide) (by decide)⟩

/-- C3: for every format string and flag, the compiled template is `t ++ "\n"` where `t`
is non-empty and neither begins nor ends with white space, so it ends with exactly one
line terminator and has no other leading or trailing white space. -/
theorem buildFormat_value_shape (s : Str) (b : Bool) :
    ∃ f t, buildFormat s b = some f ∧ f.value = t ++ ['\n'] ∧ t ≠ [] ∧
      (∀ c, t.head? = some c → isSpace c = false) ∧
      (∀ c, t.getLast? = some c → isSpace c = false ∧ c ≠ '\n') := by
  refine ⟨_, TrimSpace (messageStep s b), buildFormat_eq_some s b, rfl,
    TrimSpace_messageStep_ne_nil s b, fun c h => TrimSpace_head _ c h, fun c h => ?_⟩
  have hs := TrimSpace_getLast _ c h
  refine ⟨hs, ?_⟩
  rintro rfl
  exact absurd hs (by decide)

/-- C5, counterexample: in the format `${lab${labels}els}` the deletion of the inner
placeholder joins the text around it into a new `${labels}`, which the template compiled
with labels absent contains. -/
theorem buildFormat_keeps_labels_counterexample :
    (buildFormat "${lab${labels}els}".toList false).map
      (fun f => (f.value, Contains f.value LabelsPlaceholder))
      = some ("${labels} %[3]s\n".toList, true) := by
  decide

/-- A format string in which every `$` is the first character of one of the three
placeholders (deleting the placeholders in one pass leaves no `$`) compiles with labels
absent to a template without `$`. -/
theorem buildFormat_no_dollar (s : Str) (h : '$' ∉ substitute s [] [] []) :
    ∃ f, buildFormat s false = some f ∧ '$' ∉ f.value ∧
      Contains f.value LabelsPlaceholder = false := by
  refine ⟨_, buildFormat_eq_some s false, ?_⟩
  have hv : '$' ∉ TrimSpace (messageStep s false) ++ newLine := by
    simp only [List.mem_append, not_or]
    exact ⟨fun hm => dollar_not_mem_messageStep s h (mem_of_mem_TrimSpace _ _ hm), by decide⟩
  refine ⟨hv, ?_⟩
  by_contra hc
  simp only [Bool.not_eq_false] at hc
  rw [Contains_iff] at hc
  exact hv (hc.subset (by decide))

/-- C6: re-deriving a template is stateless: `buildFormat(s, b1).withLabels(b2)` is
`buildFormat(s, b2)` in all fields; so `withLabels` with the current flag returns the
receiver, `withLabels(b)` is idempotent, and `clearLabels()` followed by
`withLabels(true)` gives the template compiled with labels present. -/
theorem withLabels_rederives (s : Str) (b1 b2 : Bool) :
    ∃ f g, buildFormat s b1 = some f ∧ buildFormat s b2 = some g ∧
      f.withLabels b2 = some g ∧
      g.original = s ∧ g.hasLabels = b2 ∧
      (∀ h : format, h.withLabels h.hasLabels = some h) ∧
      g.withLabels b2 = some g ∧
      f.clearLabels.bind (fun h => h.withLabels true) = buildFormat s true := by
  refine ⟨_, _, buildFormat_eq_some s b1, buildFormat_eq_some s b2, ?_, rfl, rfl, ?_, ?_, ?_⟩
  · by_cases h : b1 = b2
    · subst h; simp [format.withLabels]
    · simp [format.withLabels, h, buildFormat_eq_some]
  · intro h; simp [format.withLabels]
  · simp [format.withLabels]
  · cases b1
    · simp [format.clearLabels, format.withLabels, buildFormat_eq_some]
    · simp [format.clearLabels, format.withLabels, buildFormat_eq_some]

/-- C7: with a raw label template `p ++ "${labels}" ++ q` whose parts `p` and `q` do not
contain the placeholder, the pre-rendered string is empty for an empty value list and
`p ++ join(vs, sep) ++ q` otherwise, `p` and `q` reproduced literally. -/
theorem buildLabels_with_slot (rest : FmtRest) (p q sep : Str) (vs : List Str)
    (hp : Contains p LabelsPlaceholder = false) (hq : Contains q LabelsPlaceholder = false) :
    (buildLabels rest (parseLabelsFormat (p ++ LabelsPlaceholder ++ q)) vs sep).formatted
      = if vs = [] then [] else p ++ Join vs sep ++ q := by
  cases vs with
  | nil => rfl
  | cons v vs =>
    have ht : Contains (p ++ LabelsPlaceholder ++ q) LabelsPlaceholder = true := by
      rw [List.append_assoc]
      exact Contains_append_left p _ _ (Contains_of_isPrefix _ _ (List.prefix_append _ _))
    rw [buildLabels_formatted_of_Contains rest _ sep v vs ht,
      ReplaceAll_around_LabelsPlaceholder p q _ hp hq]
    simp

/-- Witness for C7: the values A, B, C with separator `, ` in the template `(${labels})`
render `(A, B, C)`, with `%` text around the slot reproduced, and an empty value list
renders the empty string. -/
theorem buildLabels_with_slot_witness :
    (buildLabels noRest (parseLabelsFormat ("(".toList ++ LabelsPlaceholder ++ ")".toList))
        ["A".toList, "B".toList, "C".toList] ", ".toList).formatted = "(A, B, C)".toList ∧
    (buildLabels noRest (parseLabelsFormat ("%s ".toList ++ LabelsPlaceholder ++ " %d".toList))
        ["A".toList, "B".toList, "C".toList] "-".toList).formatted = "%s A-B-C %d".toList ∧
    (buildLabels noRest (parseLabelsFormat ("(".toList ++ LabelsPlaceholder ++ ")".toList))
        [] ", ".toList).formatted = [] :=
  ⟨(buildLabels_with_slot noRest "(".toList ")".toList ", ".toList _
      (by decide) (by decide)).trans (by decide),
   (buildLabels_with_slot noRest "%s ".toList " %d".toList "-".toList _
      (by decide) (by decide)).trans (by decide),
   (buildLabels_with_slot noRest "(".toList ")".toList ", ".toList []
      (by decide) (by decide)).trans (by decide)⟩

/-- C8, counterexample: with the empty raw template the label set holding the value `A`
has an empty pre-rendered string although its value list is not empty. -/
theorem labels_emptiness_counterexample :
    ¬ ((buildLabels noRest (parseLabelsFormat "".toList) ["A".toList] " ".toList).formatted = []
        ↔ ["A".toList] = ([] : List Str)) := by
  decide

/-- C8, amended: for every raw label template `t`, separator and list `vs` of non-empty
strings, the pre-rendered string is empty if and only if `vs` is empty or `t` is the
empty template. -/
theorem labels_formatted_empty_iff (rest : FmtRest) (t sep : Str) (vs : List Str)
    (hvs : ∀ v ∈ vs, v ≠ []) :
    (buildLabels rest (parseLabelsFormat t) vs sep).formatted = [] ↔ (vs = [] ∨ t = []) := by
  cases vs with
  | nil => simp [buildLabels_formatted]
  | cons v vs =>
    have hv : v ≠ [] := hvs v (by simp)
    have hj := Join_ne_nil v vs sep hv
    constructor
    · intro h
      right
      by_contra ht
      by_cases hc : Contains t LabelsPlaceholder = true
      · rw [buildLabels_formatted_of_Contains rest t sep v vs hc] at h
        obtain ⟨d, j, hdj⟩ := List.exists_cons_of_ne_nil hj
        have hm := mem_ReplaceAll_of_Contains t LabelsPlaceholder (Join (v :: vs) sep) d
          (by decide) hc (by rw [hdj]; simp)
        rw [h] at hm
        simp at hm
      · rw [buildLabels_formatted, if_pos (by simp)] at h
        split_ifs at h with hs
        · unfold Sprintf at h
          rw [doPrintf_parseLabelsFormat, if_neg hc] at h
          simp [extraArgs] at h
        · exact parseLabelsFormat_ne_nil t ht h
    · rintro (h | h)
      · exact absurd h (by simp)
      · subst h
        rw [buildLabels_formatted, parseLabelsFormat_nil]
        simp [Contains]

/-- Witness for C8: the value `A` in the template `(${labels})`. -/
theorem labels_formatted_empty_iff_witness :
    (∀ v ∈ ["A".toList], v ≠ []) ∧
    ((buildLabels noRest (parseLabelsFormat "(${labels})".toList) ["A".toList]
        " ".toList).formatted = [] ↔ (["A".toList] = [] ∨ "(${labels})".toList = [])) :=
  ⟨by decide, labels_formatted_empty_iff noRest "(${labels})".toList " ".toList
    ["A".toList] (by decide)⟩

/-- C9, at the failing input: the raw template `100%` has no placeholder, and with the
value `A` the pre-rendered string is `100%%`, the escaped template, not the template
`100%` itself. -/
theorem buildLabels_no_slot_escaped (rest : FmtRest) :
    Contains "100%".toList LabelsPlaceholder = false ∧
    (buildLabels rest (parseLabelsFormat "100%".toList) ["A".toList] " ".toList).formatted
      = "100%%".toList ∧
    (buildLabels rest (parseLabelsFormat "100%".toList) ["A".toList] " ".toList).formatted
      ≠ "100%".toList := by
  refine ⟨by decide, rfl, ?_⟩
  show "100%%".toList ≠ "100%".toList
  decide

/-- What `clear` does on an arbitrary label set: the result renders empty and keeps the
separator and the template; the values are dropped exactly when the receiver does not
render empty, and a receiver that renders empty is returned as it is. -/
theorem labels_clear_spec (L : labels) :
    L.clear.formatted = [] ∧ L.clear.separator = L.separator ∧ L.clear.format = L.format ∧
    (L.formatted ≠ [] → L.clear.values = []) ∧ (L.formatted = [] → L.clear = L) := by
  unfold labels.clear labels.isEmpty
  by_cases h : L.formatted = []
  · simp [h]
  · simp [h]

/-- C10, at the failing input: the label set built from the empty raw template and the
value `A` renders empty, so `clear` returns it unchanged and the value `A` stays. -/
theorem clear_keeps_values (rest : FmtRest) :
    (buildLabels rest (parseLabelsFormat "".toList) ["A".toList] " ".toList).isEmpty = true ∧
    (buildLabels rest (parseLabelsFormat "".toList) ["A".toList] " ".toList).clear
      = buildLabels rest (parseLabelsFormat "".toList) ["A".toList] " ".toList ∧
    (buildLabels rest (parseLabelsFormat "".toList) ["A".toList] " ".toList).clear.values
      = ["A".toList] :=
  ⟨rfl, rfl, rfl⟩

/-! ## Label sets: `add` -/

theorem buildLabels_fields (rest : FmtRest) (format : Str) (values : List Str) (sep : Str) :
    (buildLabels rest format values sep).values = values ∧
    (buildLabels rest format values sep).separator = sep ∧
    (buildLabels rest format values sep).format = format := ⟨rfl, rfl, rfl⟩

/-- Every label set the package builds stores the rendering of its own fields. -/
theorem labels_Built_eq (rest : FmtRest) (L : labels) (h : labels.Built rest L) :
    L = buildLabels rest L.format L.values L.separator := by
  induction h with
  | build format values sep => rfl
  | add L xs _ ih =>
    unfold labels.add
    simp only []
    split_ifs
    · exact ih
    · rfl
  | clear L _ ih =>
    unfold labels.clear
    split_ifs
    · exact ih
    · rfl
  | setSeparator L sep _ ih =>
    unfold labels.setSeparator
    split_ifs
    · exact ih
    · rfl
  | setFormat L f _ ih =>
    unfold labels.setFormat
    split_ifs
    · exact ih
    · rfl

theorem labels_add_of_filter_nil (rest : FmtRest) (L : labels) (xs : List Str)
    (h : xs.filter (fun label => label ≠ []) = []) : L.add rest xs = L := by
  unfold labels.add joinLabels
  simp only []
  rw [h, List.append_nil, if_pos rfl]

theorem labels_add_of_filter_ne_nil (rest : FmtRest) (L : labels) (xs : List Str)
    (h : xs.filter (fun label => label ≠ []) ≠ []) :
    L.add rest xs
      = buildLabels rest L.format (L.values ++ xs.filter (fun label => label ≠ []))
          L.separator := by
  unfold labels.add joinLabels
  have hl : (xs.filter (fun label => label ≠ [])).length ≠ 0 := by
    intro h0
    exact h (List.length_eq_zero.mp h0)
  simp only [List.length_append]
  rw [if_neg (by omega)]

/-- C11: `add` appends the non-empty elements of `xs`, in order, to the values, keeps
the separator and the template, and returns the receiver when `xs` has no non-empty
element; for a label set the package can build, the pre-rendered string of the result
is the rendering of its fields. -/
theorem labels_add_spec (rest : FmtRest) (L : labels) (xs : List Str) :
    (L.add rest xs).values = L.values ++ xs.filter (fun label => label ≠ []) ∧
    (L.add rest xs).separator = L.separator ∧
    (L.add rest xs).format = L.format ∧
    ((∀ x ∈ xs, x = []) → L.add rest xs = L) ∧
    (labels.Built rest L →
      (L.add rest xs).formatted
        = (buildLabels rest L.format (L.values ++ xs.filter (fun label => label ≠ []))
            L.separator).formatted) := by
  by_cases h : xs.filter (fun label => label ≠ []) = []
  · rw [labels_add_of_filter_nil rest L xs h, h, List.append_nil]
    refine ⟨rfl, rfl, rfl, fun _ => rfl, fun hL => ?_⟩
    exact congrArg labels.formatted (labels_Built_eq rest L hL)
  · rw [labels_add_of_filter_ne_nil rest L xs h]
    refine ⟨rfl, rfl, rfl, fun hx => ?_, fun _ => rfl⟩
    exfalso
    apply h
    rw [List.filter_eq_nil_iff]
    intro x hx'
    simp [hx x hx']

/-- Witness for C11: adding `a`, `1` and an empty string to the empty label set with
template `%[1]s` and separator ` ` gives the values `a`, `1` rendered `a 1`, and adding
only empty strings returns the receiver. -/
theorem labels_add_spec_witness :
    ((buildLabels noRest "%[1]s".toList [] " ".toList).add noRest
        ["a".toList, [], "1".toList]).values = ["a".toList, "1".toList] ∧
    ((buildLabels noRest "%[1]s".toList [] " ".toList).add noRest
        ["a".toList, [], "1".toList]).formatted = "a 1".toList ∧
    (buildLabels noRest "%[1]s".toList ["x".toList] " ".toList).add noRest [[], []]
      = buildLabels noRest "%[1]s".toList ["x".toList] " ".toList :=
  ⟨(labels_add_spec noRest _ _).1.trans (by decide),
   ((labels_add_spec noRest _ _).2.2.2.2 (labels.Built.build _ _ _)).trans (by decide),
   (labels_add_spec noRest _ _).2.2.2.1 (by decide)⟩

/-! ## Emitting -/

theorem logger_log_eq (lib : Lib) (l : logger) (level : Level) (v : List Operand) :
    l.log lib level v =
      if l.level < level ∨ v = [] then { written := [], control := .returned }
      else
        { written := [⟨l.logger, 3, l.render lib level (Sprint v)⟩], control := .returned } := by
  unfold logger.log
  simp only [List.length_eq_zero]

/-- C13: the gate of `Log` and `Logf`: with a non-empty argument list `Log(S, v...)`
hands one line to the sink when `l.level >= normalizeLevel(S)` and nothing otherwise,
`Logf` does so for every argument list; a logger at `LevelInfo` writes nothing for
`Debug` and `Trace` and one line for `Info`, `Notice`, `Warn` and `Error`. -/
theorem gate_rule (lib : Lib) (l : logger) (S : Level) (f : Str) (v w : List Operand)
    (hv : v ≠ []) :
    (l.level ≥ normalizeLevel S →
      (l.Log lib S v).written = [⟨l.logger, 3, l.render lib (normalizeLevel S) (Sprint v)⟩] ∧
      (l.Logf lib S f w).written
        = [⟨l.logger, 3, l.render lib (normalizeLevel S) (lib.sprintf f w)⟩]) ∧
    (l.level < normalizeLevel S →
      (l.Log lib S v).written = [] ∧ (l.Logf lib S f w).written = []) ∧
    (l.level = LevelInfo →
      (l.Debug lib v).written = [] ∧ (l.Trace lib v).written = [] ∧
      (l.Info lib v).written.length = 1 ∧ (l.Notice lib v).written.length = 1 ∧
      (l.Warn lib v).written.length = 1 ∧ (l.Error lib v).written.length = 1) := by
  refine ⟨fun h => ?_, fun h => ?_, fun h => ?_⟩
  · have hn : ¬ l.level < normalizeLevel S := not_lt.mpr h
    constructor
    · unfold logger.Log
      rw [logger_log_eq, if_neg (by simp [hn, hv])]
    · unfold logger.Logf logger.logf
      rw [if_neg hn]
  · constructor
    · unfold logger.Log
      rw [logger_log_eq, if_pos (Or.inl h)]
    · unfold logger.Logf logger.logf
      rw [if_pos h]
  · unfold logger.Debug logger.Trace logger.Info logger.Notice logger.Warn logger.Error
    simp only [logger_log_eq, h, hv, or_false]
    refine ⟨?_, ?_, ?_, ?_, ?_, ?_⟩ <;>
      first
      | rw [if_pos (by decide)]
      | (rw [if_neg (by decide)]; rfl)

/-- Witness for C13: the logger of `New()`, at `LevelInfo`, and the argument `x`. -/
theorem gate_rule_witness :
    ((New noLib []).map fun l =>
      ((l.Log noLib LevelDebug [Operand.str "x".toList]).written.length,
       (l.Log noLib LevelWarn [Operand.str "x".toList]).written.length,
       (l.Log noLib 100 [Operand.str "x".toList]).written.length,
       (l.Logf noLib 0 "x".toList []).written.length)) = some (0, 1, 0, 1) ∧
    ∃ l, New noLib [] = some l ∧
      (l.Debug noLib [Operand.str "x".toList]).written = [] ∧
      (l.Info noLib [Operand.str "x".toList]).written.length = 1 := by
  refine ⟨by decide, ?_⟩
  have hex : ∃ l, New noLib [] = some l ∧ l.level = LevelInfo := by
    unfold New
    simp only []
    rw [buildFormat_eq_some]
    exact ⟨_, rfl, rfl⟩
  obtain ⟨l, hl, hlev⟩ := hex
  have := (gate_rule noLib l 0 [] [Operand.str "x".toList] [] (by decide)).2.2 hlev
  exact ⟨l, hl, this.1, this.2.2.1⟩

/-- C14, counterexample: the logger of `New()` writes the line `[fatal] ` on `Panic()`
and on `Fatal()` with no argument. -/
theorem zero_arguments_counterexample :
    ((New noLib []).map fun l =>
      ((l.Panic noLib []).written.map fun w => w.line,
       (l.Fatal noLib []).written.map fun w => w.line))
      = some (["[fatal] \n".toList], ["[fatal] \n".toList]) := by
  decide

/-- C14, amended: for every logger, `Trace`, `Debug`, `Info`, `Notice`, `Warn`, `Error`
and `Log` with any level write nothing when called with zero arguments; `Panic` and
`Fatal` have no such guard: with zero arguments they write nothing exactly when their
level gate fails. -/
theorem zero_arguments (lib : Lib) (l : logger) (S : Level) :
    (l.Trace lib []).written = [] ∧ (l.Debug lib []).written = [] ∧
    (l.Info lib []).written = [] ∧ (l.Notice lib []).written = [] ∧
    (l.Warn lib []).written = [] ∧ (l.Error lib []).written = [] ∧
    (l.Log lib S []).written = [] ∧
    ((l.Panic lib []).written = [] ↔ l.level < LevelPanic) ∧
    ((l.Fatal lib []).written = [] ↔ l.level < LevelFatal) := by
  unfold logger.Trace logger.Debug logger.Info logger.Notice logger.Warn logger.Error
    logger.Log logger.Panic logger.Fatal logger.panic logger.fatal
  simp only [logger_log_eq, or_true, if_true, true_and]
  constructor
  · by_cases h : l.level < LevelPanic
    · simp [h]
    · simp [h]
  · by_cases h : l.level < LevelFatal
    · simp [h]
    · simp [h]

/-- C15: `Panic` and `Panicf` do nothing when `l.level < LevelPanic`; otherwise they
write the line rendered with the name of `LevelFatal` and then panic with that line as
payload; a panic is always preceded by the write of its payload and never happens when
the gate fails. -/
theorem panic_semantics (lib : Lib) (l : logger) (f : Str) (v : List Operand) :
    (l.level < LevelPanic →
      l.Panic lib v = { written := [], control := .returned } ∧
      l.Panicf lib f v = { written := [], control := .returned }) ∧
    (¬ l.level < LevelPanic →
      l.Panic lib v =
        { written :=
            [⟨l.logger, 3,
              Sprintf lib.rest l.format.value
                [l.levelName LevelFatal, l.labels.formatted, Sprint v]⟩]
          control :=
            .panicked
              (Sprintf lib.rest l.format.value
                [l.levelName LevelFatal, l.labels.formatted, Sprint v]) } ∧
      l.Panicf lib f v =
        { written :=
            [⟨l.logger, 3,
              Sprintf lib.rest l.format.value
                [l.levelName LevelFatal, l.labels.formatted, lib.sprintf f v]⟩]
          control :=
            .panicked
              (Sprintf lib.rest l.format.value
                [l.levelName LevelFatal, l.labels.formatted, lib.sprintf f v]) }) ∧
    (∀ payload, (l.Panic lib v).control = .panicked payload →
      ¬ l.level < LevelPanic ∧ (l.Panic lib v).written = [⟨l.logger, 3, payload⟩]) ∧
    (∀ payload, (l.Panicf lib f v).control = .panicked payload →
      ¬ l.level < LevelPanic ∧ (l.Panicf lib f v).written = [⟨l.logger, 3, payload⟩]) := by
  unfold logger.Panic logger.Panicf logger.panic logger.panicf logger.render
  by_cases h : l.level < LevelPanic
  · simp [h]
  · simp only [h, if_false, false_implies, not_false_eq_true, true_implies, true_and, and_self]
    refine ⟨?_, ?_⟩
    · intro payload hp
      rw [Control.panicked.injEq] at hp
      rw [hp]
    · intro payload hp
      rw [Control.panicked.injEq] at hp
      rw [hp]

/-- Witness for C15: the logger of `New()` on `Panic("boom")` writes `[fatal] boom` and
panics with it; at level fatal it does nothing. -/
theorem panic_semantics_witness :
    ((New noLib []).map fun l => l.Panic noLib [Operand.str "boom".toList])
      = some
        { written := [⟨Sink.stderr 7, 3, "[fatal] boom\n".toList⟩]
          control := .panicked "[fatal] boom\n".toList } ∧
    ∃ l, New noLib [MinLevel LevelFatal] = some l ∧
      l.Panic noLib [Operand.str "boom".toList] = { written := [], control := .returned } := by
  refine ⟨by decide, ?_⟩
  have hex : ∃ l, New noLib [MinLevel LevelFatal] = some l ∧ l.level = LevelFatal := by
    unfold New
    simp only []
    rw [buildFormat_eq_some]
    exact ⟨_, rfl, rfl⟩
  obtain ⟨l, hl, hlev⟩ := hex
  have hlt : l.level < LevelPanic := by
    rw [hlev]
    decide
  exact ⟨l, hl, ((panic_semantics noLib l [] [Operand.str "boom".toList]).1 hlt).1⟩

/-! ## End to end -/

theorem New_nil (lib : Lib) :
    New lib [] =
      some
        { level := LevelInfo
          format :=
            { original := defaultFormat, value := "[%[1]s] %[3]s\n".toList, hasLabels := false }
          levelNames := defaultOpts.LevelNames
          labels :=
            { values := [], separator := " ".toList, format := "%[1]s".toList, formatted := [] }
          logger := Sink.stderr 7 } := rfl

/-- C16, counterexample: on `Info("y")` the logger of `New()` hands the sink the line
`[info] y` with one space, not the line `[info]  y` with two. -/
theorem default_logger_line_counterexample :
    ((New noLib []).map fun l =>
      (l.Info noLib [Operand.str "y".toList]).written.map fun w => w.line)
      = some ["[info] y\n".toList] ∧
    "[info] y\n".toList ≠ "[info]  y\n".toList := by
  constructor <;> decide

/-- C16, amended: the logger of `New()` has level info, the default format and no
labels; `Debug("x")` writes nothing and `Info("y")` hands the sink exactly the line
`[info] y` followed by a newline, with one space between `[info]` and `y`. -/
theorem default_logger_line (lib : Lib) :
    ∃ l, New lib [] = some l ∧ l.level = LevelInfo ∧ l.format.original = defaultFormat ∧
      l.labels.values = [] ∧
      l.Debug lib [Operand.str "x".toList] = { written := [], control := .returned } ∧
      l.Info lib [Operand.str "y".toList]
        = { written := [⟨Sink.stderr 7, 3, "[info] y\n".toList⟩], control := .returned } :=
  ⟨_, New_nil lib, rfl, rfl, rfl, rfl, rfl⟩

theorem Sprintf_slot1 (rest : FmtRest) (v : Str) :
    Sprintf rest "%[1]s".toList [v] = v := by
  show doPrintf rest [v] .text 0 false ('%' :: '[' :: '1' :: ']' :: 's' :: []) = v
  rw [doPrintf_slot1]
  simp [doPrintf, extraArgs]

theorem Sprintf_three_slots (rest : FmtRest) (n l m : Str) :
    Sprintf rest "[%[1]s] %[2]s %[3]s\n".toList [n, l, m]
      = '[' :: n ++ ']' :: ' ' :: l ++ ' ' :: m ++ ['\n'] := by
  show doPrintf rest [n, l, m] .text 0 false
    ('[' :: '%' :: '[' :: '1' :: ']' :: 's' :: ']' :: ' ' :: '%' :: '[' :: '2' :: ']' :: 's'
      :: ' ' :: '%' :: '[' :: '3' :: ']' :: 's' :: '\n' :: []) = _
  rw [doPrintf_lit _ _ _ _ _ _ (by decide), doPrintf_slot1,
    doPrintf_lit _ _ _ _ _ _ (by decide), doPrintf_lit _ _ _ _ _ _ (by decide), doPrintf_slot2,
    doPrintf_lit _ _ _ _ _ _ (by decide), doPrintf_slot3, doPrintf_lit _ _ _ _ _ _ (by decide)]
  simp [doPrintf, extraArgs]

theorem Sprintf_two_slots (rest : FmtRest) (n l m : Str) :
    Sprintf rest "[%[1]s] %[3]s\n".toList [n, l, m] = '[' :: n ++ ']' :: ' ' :: m ++ ['\n'] := by
  show doPrintf rest [n, l, m] .text 0 false
    ('[' :: '%' :: '[' :: '1' :: ']' :: 's' :: ']' :: ' ' :: '%' :: '[' :: '3' :: ']' :: 's'
      :: '\n' :: []) = _
  rw [doPrintf_lit _ _ _ _ _ _ (by decide), doPrintf_slot1,
    doPrintf_lit _ _ _ _ _ _ (by decide), doPrintf_lit _ _ _ _ _ _ (by decide), doPrintf_slot3,
    doPrintf_lit _ _ _ _ _ _ (by decide)]
  simp [doPrintf, extraArgs]

theorem buildLabels_single (rest : FmtRest) (v sep : Str) :
    buildLabels rest "%[1]s".toList [v] sep
      = { values := [v], separator := sep, format := "%[1]s".toList, formatted := v } := by
  have h : (buildLabels rest "%[1]s".toList [v] sep).formatted = v := by
    rw [buildLabels_formatted, if_pos (by simp), if_pos (by decide)]
    have : Join [v] sep = v := by simp [Join, List.intercalate, List.intersperse]
    rw [this]
    exact Sprintf_slot1 rest v
  unfold buildLabels at h ⊢
  simp only [] at h ⊢
  rw [h]

theorem logger_Info_line (lib : Lib) (l : logger) (m : Str) (hl : ¬ l.level < LevelInfo) :
    l.Info lib [Operand.str m]
      = { written :=
            [⟨l.logger, 3,
              Sprintf lib.rest l.format.value [l.levelName LevelInfo, l.labels.formatted, m]⟩]
          control := .returned } := by
  unfold logger.Info
  rw [logger_log_eq, if_neg (by simp [hl])]
  unfold logger.render
  have : Sprint [Operand.str m] = m := by simp [Sprint, doPrint, Operand.str]
  rw [this]

/-- C17: for every non-empty label `v` and every message `m`, the logger
`WithLabels(New(), v)` hands the sink the line `[info] v m` on `Info(m)`, and the logger
of `New()` it was derived from hands the sink `[info] m`, as without the derivation. -/
theorem labelled_logger_line (lib : Lib) (v m : Str) (hv : v ≠ []) :
    ∃ l0 l1, New lib [] = some l0 ∧ WithLabels lib l0 [v] = some l1 ∧
      l1.Info lib [Operand.str m]
        = { written :=
              [⟨Sink.stderr 7, 3, "[info] ".toList ++ v ++ " ".toList ++ m ++ "\n".toList⟩]
            control := .returned } ∧
      l0.Info lib [Operand.str m]
        = { written := [⟨Sink.stderr 7, 3, "[info] ".toList ++ m ++ "\n".toList⟩]
            control := .returned } := by
  have hadd : (⟨[], " ".toList, "%[1]s".toList, []⟩ : labels).add lib.rest [v]
      = ⟨[v], " ".toList, "%[1]s".toList, v⟩ := by
    rw [labels_add_of_filter_ne_nil _ _ _ (by simp [hv])]
    have : List.filter (fun label => decide (label ≠ [])) [v] = [v] := by simp [hv]
    rw [this]
    exact buildLabels_single lib.rest v _
  have hne : (⟨[v], " ".toList, "%[1]s".toList, v⟩ : labels).notEmpty = true := by
    unfold labels.notEmpty
    simpa using List.length_pos.mpr hv
  refine ⟨_, ⟨LevelInfo, ⟨defaultFormat, "[%[1]s] %[2]s %[3]s\n".toList, true⟩,
    defaultOpts.LevelNames, ⟨[v], " ".toList, "%[1]s".toList, v⟩, Sink.stderr 7⟩,
    New_nil lib, ?_, ?_, ?_⟩
  · unfold WithLabels
    simp only []
    rw [hadd, hne]
    rfl
  · rw [logger_Info_line lib _ m (by show ¬ LevelInfo < LevelInfo; decide)]
    show Effect.mk [⟨Sink.stderr 7, 3,
      Sprintf lib.rest "[%[1]s] %[2]s %[3]s\n".toList ["info".toList, v, m]⟩] .returned = _
    rw [Sprintf_three_slots]
    show _ = Effect.mk [⟨Sink.stderr 7, 3,
      ['[', 'i', 'n', 'f', 'o', ']', ' '] ++ v ++ [' '] ++ m ++ ['\n']⟩] .returned
    simp
  · rw [logger_Info_line lib _ m (by show ¬ LevelInfo < LevelInfo; decide)]
    show Effect.mk [⟨Sink.stderr 7, 3,
      Sprintf lib.rest "[%[1]s] %[3]s\n".toList ["info".toList, [], m]⟩] .returned = _
    rw [Sprintf_two_slots]
    rfl

/-- Witness for C17: the label `user:1` and the message `z`. -/
theorem labelled_logger_line_witness :
    "user:1".toList ≠ [] ∧
    ∃ l0 l1, New noLib [] = some l0 ∧ WithLabels noLib l0 ["user:1".toList] = some l1 ∧
      l1.Info noLib [Operand.str "z".toList]
        = { written := [⟨Sink.stderr 7, 3, "[info] user:1 z\n".toList⟩]
            control := .returned } ∧
      l0.Info noLib [Operand.str "z".toList]
        = { written := [⟨Sink.stderr 7, 3, "[info] z\n".toList⟩], control := .returned } :=
  ⟨by decide, labelled_logger_line noLib "user:1".toList "z".toList (by decide)⟩

/-! ## Derivations -/

theorem withLabels_eq_some (f : format) (b : Bool) :
    ∃ g, f.withLabels b = some g ∧ g.hasLabels = b := by
  unfold format.withLabels
  by_cases h : f.hasLabels = b
  · exact ⟨f, by rw [if_pos h], h⟩
  · rw [if_neg h, buildFormat_eq_some]
    exact ⟨_, rfl, rfl⟩

/-- C18: `WithLevel` is idempotent, the level of its result is `normalizeLevel(L)`, and
when that is the level of `l` the result is `l`. -/
theorem WithLevel_idempotent (l : logger) (L : Level) :
    WithLevel (WithLevel l L) L = WithLevel l L ∧
    (WithLevel l L).level = normalizeLevel L ∧
    (normalizeLevel L = l.level → WithLevel l L = l) := by
  have hlev : (WithLevel l L).level = normalizeLevel L := by
    unfold WithLevel
    simp only []
    split_ifs with h
    · exact h
    · rfl
  refine ⟨?_, hlev, fun h => ?_⟩
  · have : WithLevel (WithLevel l L) L
        = if (WithLevel l L).level = normalizeLevel L then WithLevel l L
          else
            { level := normalizeLevel L
              format := (WithLevel l L).format
              levelNames := (WithLevel l L).levelNames
              labels := (WithLevel l L).labels
              logger := (WithLevel l L).logger } := rfl
    rw [this, if_pos hlev]
  · unfold WithLevel
    simp only []
    rw [if_pos h.symm]

/-- Witness for C18: the logger of `New()`, of level info, with the levels 100 and 5. -/
theorem WithLevel_idempotent_witness :
    ∃ l, New noLib [] = some l ∧
      WithLevel (WithLevel l 100) 100 = WithLevel l 100 ∧
      (WithLevel l 100).level = LevelTrace ∧ WithLevel l 5 = l := by
  refine ⟨_, New_nil noLib, ?_⟩
  have h := WithLevel_idempotent
    { level := LevelInfo
      format :=
        { original := defaultFormat, value := "[%[1]s] %[3]s\n".toList, hasLabels := false }
      levelNames := defaultOpts.LevelNames
      labels := ⟨[], " ".toList, "%[1]s".toList, []⟩
      logger := Sink.stderr 7 } 100
  have h5 := WithLevel_idempotent
    { level := LevelInfo
      format :=
        { original := defaultFormat, value := "[%[1]s] %[3]s\n".toList, hasLabels := false }
      levelNames := defaultOpts.LevelNames
      labels := ⟨[], " ".toList, "%[1]s".toList, []⟩
      logger := Sink.stderr 7 } 5
  exact ⟨h.1, h.2.1.trans (by decide), h5.2.2 (by decide)⟩

/-- C19: each derivation changes only its own facet: `WithLevel` keeps the template, the
label set, the level names and the sink; `WithLabelSeparator` and `WithLabelsFormat`
keep the level, the template, the level names, the sink and the label values;
`WithFormat` keeps the level, the label set, the level names and the sink, and its
template is `buildFormat(f, l.labels.notEmpty())`. -/
theorem derivations_frame (lib : Lib) (l : logger) (L : Level) (sep f : Str) :
    ((WithLevel l L).format = l.format ∧ (WithLevel l L).labels = l.labels ∧
      (WithLevel l L).levelNames = l.levelNames ∧ (WithLevel l L).logger = l.logger) ∧
    ((WithLabelSeparator lib l sep).level = l.level ∧
      (WithLabelSeparator lib l sep).format = l.format ∧
      (WithLabelSeparator lib l sep).levelNames = l.levelNames ∧
      (WithLabelSeparator lib l sep).logger = l.logger ∧
      (WithLabelSeparator lib l sep).labels.values = l.labels.values) ∧
    ((WithLabelsFormat lib l f).level = l.level ∧
      (WithLabelsFormat lib l f).format = l.format ∧
      (WithLabelsFormat lib l f).levelNames = l.levelNames ∧
      (WithLabelsFormat lib l f).logger = l.logger ∧
      (WithLabelsFormat lib l f).labels.values = l.labels.values) ∧
    (∃ l', WithFormat l f = some l' ∧ l'.level = l.level ∧ l'.labels = l.labels ∧
      l'.levelNames = l.levelNames ∧ l'.logger = l.logger ∧
      buildFormat f l.labels.notEmpty = some l'.format) := by
  refine ⟨?_, ⟨rfl, rfl, rfl, rfl, ?_⟩, ⟨rfl, rfl, rfl, rfl, ?_⟩, ?_⟩
  · unfold WithLevel
    simp only []
    split_ifs
    · exact ⟨rfl, rfl, rfl, rfl⟩
    · exact ⟨rfl, rfl, rfl, rfl⟩
  · show (l.labels.setSeparator lib.rest sep).values = l.labels.values
    unfold labels.setSeparator
    split_ifs
    · rfl
    · rfl
  · show (l.labels.setFormat lib.rest (parseLabelsFormat f)).values = l.labels.values
    unfold labels.setFormat
    split_ifs
    · rfl
    · rfl
  · unfold WithFormat
    rw [buildFormat_eq_some]
    exact ⟨_, rfl, rfl, rfl, rfl, rfl, rfl⟩

/-! ## Template and label presence -/

/-- The template flag agrees with the label set after every constructor and after
`WithLabels`, `ClearLabels` and `WithFormat`, and `WithLevel` keeps both. -/
theorem hasLabels_consistent (lib : Lib) (order : List Level) (name : Str) (opts : List Opt)
    (o : Opts) (l : logger) (vs : List Str) (f : Str) :
    (∃ l', New lib opts = some l' ∧ l'.format.hasLabels = l'.labels.notEmpty) ∧
    (∃ l', ByOptions lib o = some l' ∧ l'.format.hasLabels = l'.labels.notEmpty) ∧
    (∃ l', ByLevelName lib order name opts = some l' ∧
      l'.format.hasLabels = l'.labels.notEmpty) ∧
    (∃ l', WithLabels lib l vs = some l' ∧ l'.format.hasLabels = l'.labels.notEmpty) ∧
    (∃ l', ClearLabels l = some l' ∧ l'.format.hasLabels = l'.labels.notEmpty) ∧
    (∃ l', WithFormat l f = some l' ∧ l'.format.hasLabels = l'.labels.notEmpty) := by
  refine ⟨?_, ?_, ?_, ?_, ?_, ?_⟩
  · unfold New
    simp only []
    rw [buildFormat_eq_some]
    exact ⟨_, rfl, rfl⟩
  · unfold ByOptions
    simp only []
    rw [buildFormat_eq_some]
    exact ⟨_, rfl, rfl⟩
  · unfold ByLevelName
    simp only []
    rw [buildFormat_eq_some]
    exact ⟨_, rfl, rfl⟩
  · unfold WithLabels
    simp only []
    obtain ⟨g, hg, hflag⟩ := withLabels_eq_some l.format (l.labels.add lib.rest vs).notEmpty
    rw [hg]
    exact ⟨_, rfl, hflag⟩
  · unfold ClearLabels format.clearLabels
    obtain ⟨g, hg, hflag⟩ := withLabels_eq_some l.format false
    rw [hg]
    refine ⟨_, rfl, ?_⟩
    show g.hasLabels = l.labels.clear.notEmpty
    rw [hflag]
    unfold labels.notEmpty
    rw [(labels_clear_spec l.labels).1]
    rfl
  · unfold WithFormat
    rw [buildFormat_eq_some]
    exact ⟨_, rfl, rfl⟩

/-- C12, at the failing inputs: after `WithLabelsFormat(New(Labels("A")), "")` the
template still has `hasLabels` set although the label set renders empty, and `Info("m")`
prints the empty label slot; after
`WithLabelsFormat(New(Labels("A"), LabelsFormat("")), "${labels}")` the label set renders
`A` but the template is the one compiled without labels, and `Info("m")` prints no
label. -/
theorem WithLabelsFormat_keeps_flag (lib : Lib) :
    ((New lib [Labels ["A".toList]]).map fun l =>
      ((WithLabelsFormat lib l []).format.hasLabels,
       (WithLabelsFormat lib l []).labels.notEmpty,
       ((WithLabelsFormat lib l []).Info lib [Operand.str "m".toList]).written.map
        fun w => w.line))
      = some (true, false, ["[info]  m\n".toList]) ∧
    ((New lib [Labels ["A".toList], LabelsFormat []]).map fun l =>
      ((WithLabelsFormat lib l LabelsPlaceholder).format.hasLabels,
       (WithLabelsFormat lib l LabelsPlaceholder).labels.notEmpty,
       (WithLabelsFormat lib l LabelsPlaceholder).labels.formatted,
       ((WithLabelsFormat lib l LabelsPlaceholder).Info lib
          [Operand.str "m".toList]).written.map fun w => w.line))
      = some (false, true, "A".toList, ["[info] m\n".toList]) :=
  ⟨rfl, rfl⟩

/-! ## Level resolution by name -/

theorem ByLevelName_eq (lib : Lib) (order : List Level) (name : Str) (opts : List Opt) :
    ∃ l, ByLevelName lib order name opts = some l ∧
      l.levelNames = buildLevelNames lib (applyOpts opts) ∧
      l.level =
        resolveLevel order (buildLevelNames lib (applyOpts opts))
          (if (applyOpts opts).UpperCase then lib.toUpper name else name)
          (applyOpts opts).MinLevel := by
  unfold ByLevelName
  simp only []
  rw [buildFormat_eq_some]
  exact ⟨_, rfl, rfl, rfl⟩

theorem resolveLevel_of_lookup (order : List Level) (table : LevelMap) (name : Str)
    (fallback : Level) (horder : order.Perm allLevels)
    (hinj : ∀ a ∈ allLevels, ∀ b ∈ allLevels, table.lookup a = table.lookup b → a = b)
    (L : Level) (hL : L ∈ allLevels) (h : table.lookup L = some name) :
    resolveLevel order table name fallback = L := by
  unfold resolveLevel
  cases hf : order.find? (fun lvl => table.lookup lvl == some name) with
  | none =>
    rw [List.find?_eq_none] at hf
    have := hf L (horder.mem_iff.mpr hL)
    simp [h] at this
  | some lvl =>
    have hp := List.find?_some hf
    have hm : lvl ∈ allLevels := horder.mem_iff.mp (List.mem_of_find?_eq_some hf)
    simp only [beq_iff_eq] at hp
    exact hinj lvl hm L hL (hp.trans h.symm)

theorem resolveLevel_of_no_lookup (order : List Level) (table : LevelMap) (name : Str)
    (fallback : Level) (horder : order.Perm allLevels)
    (h : ∀ L ∈ allLevels, table.lookup L ≠ some name) :
    resolveLevel order table name fallback = fallback := by
  unfold resolveLevel
  cases hf : order.find? (fun lvl => table.lookup lvl == some name) with
  | none => rfl
  | some lvl =>
    have hp := List.find?_some hf
    have hm : lvl ∈ allLevels := horder.mem_iff.mp (List.mem_of_find?_eq_some hf)
    simp only [beq_iff_eq] at hp
    exact absurd hp (h lvl hm)

/-- C20: whatever the order in which the level-name table is visited, when no two
levels share a name `ByLevelName(name, opts...)` has the level whose table entry is
`name` (upper-cased when the upper-case option is set), and the configured minimum
level when no entry is `name`; with default options the minimum level is `LevelInfo` and
`ByLevelName(defaultLevelName(L))` has level `L` for each of the seven levels. -/
theorem ByLevelName_resolves (lib : Lib) (order : List Level) (name : Str) (opts : List Opt)
    (horder : order.Perm allLevels) :
    ((∀ a ∈ allLevels, ∀ b ∈ allLevels,
        (buildLevelNames lib (applyOpts opts)).lookup a
          = (buildLevelNames lib (applyOpts opts)).lookup b → a = b) →
      ∃ l, ByLevelName lib order name opts = some l ∧
        (∀ L ∈ allLevels,
          (buildLevelNames lib (applyOpts opts)).lookup L
            = some (if (applyOpts opts).UpperCase then lib.toUpper name else name) →
          l.level = L) ∧
        ((∀ L ∈ allLevels,
          (buildLevelNames lib (applyOpts opts)).lookup L
            ≠ some (if (applyOpts opts).UpperCase then lib.toUpper name else name)) →
          l.level = (applyOpts opts).MinLevel)) ∧
    (applyOpts []).MinLevel = LevelInfo ∧
    (∀ L ∈ allLevels, ∃ l, ByLevelName lib order (defaultLevelName L) [] = some l ∧
      l.level = L) := by
  refine ⟨fun hinj => ?_, rfl, fun L hL => ?_⟩
  · obtain ⟨l, hl, _, hlev⟩ := ByLevelName_eq lib order name opts
    refine ⟨l, hl, fun L hL h => ?_, fun h => ?_⟩
    · rw [hlev]
      exact resolveLevel_of_lookup order _ _ _ horder hinj L hL h
    · rw [hlev]
      exact resolveLevel_of_no_lookup order _ _ _ horder h
  · obtain ⟨l, hl, _, hlev⟩ := ByLevelName_eq lib order (defaultLevelName L) []
    refine ⟨l, hl, ?_⟩
    rw [hlev]
    have htab : buildLevelNames lib (applyOpts []) = defaultOpts.LevelNames := rfl
    have hup : (applyOpts []).UpperCase = false := rfl
    have hdef : ∀ L ∈ allLevels, defaultOpts.LevelNames.lookup L = some (defaultLevelName L) := by
      decide
    rw [htab, hup, if_neg (by decide)]
    exact resolveLevel_of_lookup order _ _ _ horder (by decide) L hL (hdef L hL)

/-- Witness for C20: the trace level renamed `trc`, the table visited from trace down
to fatal. -/
theorem ByLevelName_resolves_witness :
    allLevels.reverse.Perm allLevels ∧
    (∃ l, ByLevelName noLib allLevels.reverse "trc".toList
        [LevelNames [(LevelTrace, "trc".toList)]] = some l ∧ l.level = LevelTrace) ∧
    (∃ l, ByLevelName noLib allLevels.reverse "trace".toList
        [LevelNames [(LevelTrace, "trc".toList)], MinLevel LevelWarn] = some l ∧
      l.level = LevelWarn) := by
  refine ⟨List.reverse_perm _, ?_, ?_⟩
  · obtain ⟨l, hl, h1, _⟩ :=
      (ByLevelName_resolves noLib allLevels.reverse "trc".toList
        [LevelNames [(LevelTrace, "trc".toList)]] (List.reverse_perm _)).1 (by decide)
    exact ⟨l, hl, h1 LevelTrace (by decide) (by decide)⟩
  · obtain ⟨l, hl, _, h2⟩ :=
      (ByLevelName_resolves noLib allLevels.reverse "trace".toList
        [LevelNames [(LevelTrace, "trc".toList)], MinLevel LevelWarn]
        (List.reverse_perm _)).1 (by decide)
    exact ⟨l, hl, (h2 (by decide)).trans (by decide)⟩

/-! ## Level options and the level-name table -/

/-- C21, at the failing input: `TraceLevel`, `DebugLevel`, `InfoLevel`, `WarnLevel`,
`ErrorLevel` and `PanicLevel` set the minimum level they are named after, but
`FatalLevel` sets `LevelError`: the logger of `New(FatalLevel())` has level error and
writes on `Error("x")`. -/
theorem FatalLevel_sets_error (lib : Lib) (o : Opts) :
    (TraceLevel o).MinLevel = LevelTrace ∧ (DebugLevel o).MinLevel = LevelDebug ∧
    (InfoLevel o).MinLevel = LevelInfo ∧ (WarnLevel o).MinLevel = LevelWarn ∧
    (ErrorLevel o).MinLevel = LevelError ∧ (PanicLevel o).MinLevel = LevelPanic ∧
    (FatalLevel o).MinLevel = LevelError ∧ LevelError ≠ LevelFatal ∧
    ((New lib [FatalLevel]).map fun l =>
      (l.level, (l.Error lib [Operand.str "x".toList]).written.map fun w => w.line))
      = some (LevelError, ["[error] x\n".toList]) :=
  ⟨rfl, rfl, rfl, rfl, rfl, rfl, rfl, by decide, rfl⟩

theorem copyLevelNames_eq (m : LevelMap) :
    copyLevelNames m
      = allLevels.map fun L =>
          (L, match m.lookup L with
              | some levelName => levelName
              | none => defaultLevelName L) := rfl

theorem mem_allLevels_iff (L : Int) : L ∈ allLevels ↔ 1 ≤ L ∧ L ≤ 7 := by
  have h : allLevels = [(1 : Int), 2, 3, 4, 5, 6, 7] := rfl
  rw [h]
  simp only [List.mem_cons, List.mem_singleton, List.not_mem_nil, or_false]
  omega

theorem normalizeLevel_mem_allLevels (v : Level) : normalizeLevel v ∈ allLevels := by
  rw [mem_allLevels_iff]
  exact (clamp_int v normalizeLevel (fun _ => rfl)).2.2.2.1

theorem lookup_map_key (g : Level → Str) (keys : List Level) (L : Level) :
    (keys.map fun k => (k, g k)).lookup L = if L ∈ keys then some (g L) else none := by
  induction keys with
  | nil => rfl
  | cons k ks ih =>
    simp only [List.map_cons, List.lookup_cons, List.mem_cons]
    by_cases h : L = k
    · subst h
      simp
    · have hb : (L == k) = false := by simpa using h
      rw [hb, ih]
      simp [h]

theorem buildLevelNames_eq (lib : Lib) (opts : Opts) :
    buildLevelNames lib opts
      = allLevels.map fun L =>
          (L, (if opts.UpperCase then lib.toUpper else fun n => n)
                (match opts.LevelNames.lookup L with
                  | some levelName => levelName
                  | none => defaultLevelName L)) := by
  unfold buildLevelNames
  simp only []
  rw [copyLevelNames_eq]
  cases opts.UpperCase
  · simp
  · simp [List.map_map, Function.comp]

/-- C22: for every override map and upper-case flag the table of `buildLevelNames` has
exactly the seven levels as keys; the entry of level `L` is the override of `L` when
there is one and the default name of `L` otherwise, upper-cased when the flag is set;
other keys of the override map are ignored; so the name of every normalized level is
defined. -/
theorem buildLevelNames_total (lib : Lib) (opts : Opts) :
    (buildLevelNames lib opts).map Prod.fst
      = [LevelFatal, LevelPanic, LevelError, LevelWarn, LevelInfo, LevelDebug, LevelTrace] ∧
    (∀ L ∈ allLevels,
      (buildLevelNames lib opts).lookup L
        = some ((if opts.UpperCase then lib.toUpper else fun n => n)
            (match opts.LevelNames.lookup L with
              | some levelName => levelName
              | none => defaultLevelName L))) ∧
    (∀ L, L ∉ allLevels → (buildLevelNames lib opts).lookup L = none) ∧
    (∀ v, ((buildLevelNames lib opts).lookup (normalizeLevel v)).isSome = true) ∧
    allLevels.map defaultLevelName
      = ["fatal".toList, "panic".toList, "error".toList, "warn".toList, "info".toList,
         "debug".toList, "trace".toList] := by
  rw [buildLevelNames_eq]
  refine ⟨?_, fun L hL => ?_, fun L hL => ?_, fun v => ?_, by decide⟩
  · simp only [List.map_map]
    rfl
  · rw [lookup_map_key, if_pos hL]
  · rw [lookup_map_key, if_neg hL]
  · rw [lookup_map_key, if_pos (normalizeLevel_mem_allLevels v)]
    rfl

/-! ## The message slot of the compiled template -/

theorem Contains_ReplaceAll_new (Y old new : Str) (ho : old ≠ [])
    (hY : Contains Y old = true) : Contains (ReplaceAll Y old new) new = true := by
  induction Y with
  | nil =>
    rw [Contains_iff] at hY
    exact absurd (List.infix_nil.mp hY) ho
  | cons d Y ih =>
    by_cases hp : old <+: d :: Y
    · obtain ⟨t, ht⟩ := hp
      rw [← ht, ReplaceAll_match _ _ _ ho]
      exact Contains_of_isPrefix _ _ (List.prefix_append _ _)
    · rw [ReplaceAll_cons_of_not _ _ _ _ ho hp]
      have : Contains Y old = true := by
        simpa [Contains, hp] using hY
      exact Contains_append_left [d] _ _ (ih this)

theorem Contains_messageStep (s : Str) (b : Bool) :
    Contains (messageStep s b) messageFormat = true := by
  unfold messageStep
  simp only []
  split_ifs with h
  · exact Contains_ReplaceAll_new _ _ _ (by decide) h
  · exact Contains_append_left _ _ _ (Contains_of_isPrefix _ _ (List.prefix_append _ _))

theorem isInfix_dropWhile (p : Char → Bool) (w X : Str) (c : Char) (hw : w.head? = some c)
    (hc : p c = false) (h : w <:+: X) : w <:+: X.dropWhile p := by
  induction X with
  | nil => exact h
  | cons d X ih =>
    by_cases hd : p d = true
    · rw [List.dropWhile_cons_of_pos hd]
      rcases List.infix_cons_iff.mp h with h1 | h1
      · exfalso
        cases w with
        | nil => simp at hw
        | cons e w =>
          simp only [List.head?_cons, Option.some.injEq] at hw
          subst hw
          rw [List.cons_prefix_cons] at h1
          rw [h1.1, hd] at hc
          exact absurd hc (by decide)
      · exact ih h1
    · rw [List.dropWhile_cons_of_neg hd]
      exact h

theorem isInfix_rdropWhile (p : Char → Bool) (w X : Str) (c : Char) (hw : w.getLast? = some c)
    (hc : p c = false) (h : w <:+: X) : w <:+: X.rdropWhile p := by
  unfold List.rdropWhile
  rw [← List.reverse_infix, List.reverse_reverse]
  apply isInfix_dropWhile p w.reverse X.reverse c _ hc (List.reverse_infix.mpr h)
  rw [List.head?_reverse, hw]

theorem Contains_TrimSpace (w X : Str) (c d : Char) (hc : w.head? = some c)
    (hd : w.getLast? = some d) (hcs : isSpace c = false) (hds : isSpace d = false)
    (h : Contains X w = true) : Contains (TrimSpace X) w = true := by
  rw [Contains_iff] at h ⊢
  unfold TrimSpace
  exact isInfix_rdropWhile isSpace w _ d hd hds (isInfix_dropWhile isSpace w X c hc hcs h)

/-- C28: `buildFormat` never panics: the string is not empty after `TrimSpace`, so the
index of its last byte is in range, and the compiled value contains the message slot
`%[3]s`. -/
theorem buildFormat_total (s : Str) (b : Bool) :
    TrimSpace (messageStep s b) ≠ [] ∧
    ∃ f, buildFormat s b = some f ∧ Contains f.value messageFormat = true := by
  refine ⟨TrimSpace_messageStep_ne_nil s b, _, buildFormat_eq_some s b, ?_⟩
  show Contains (TrimSpace (messageStep s b) ++ newLine) messageFormat = true
  have h := Contains_TrimSpace messageFormat (messageStep s b) '%' 's' rfl rfl (by decide)
    (by decide) (Contains_messageStep s b)
  rw [Contains_iff] at h ⊢
  exact h.trans (List.infix_append' [] _ newLine |> fun h => by simpa using h)

/-! ## Formats without placeholder, and formats ending in a newline -/

theorem dropWhile_append_of_mem (p : Char → Bool) (X Y : Str) (c : Char) (hc : c ∈ X)
    (hp : p c = false) : (X ++ Y).dropWhile p = X.dropWhile p ++ Y := by
  induction X with
  | nil => simp at hc
  | cons d X ih =>
    by_cases hd : p d = true
    · rw [List.cons_append, List.dropWhile_cons_of_pos hd, List.dropWhile_cons_of_pos hd]
      rcases List.mem_cons.mp hc with h | h
      · rw [h, hd] at hp
        exact absurd hp (by decide)
      · exact ih h
    · rw [List.cons_append, List.dropWhile_cons_of_neg hd, List.dropWhile_cons_of_neg hd]
      rfl

theorem TrimSpace_append_newline (X : Str) (c : Char) (hc : c ∈ X) (hs : isSpace c = false) :
    TrimSpace (X ++ ['\n']) = TrimSpace X := by
  unfold TrimSpace
  rw [dropWhile_append_of_mem isSpace X ['\n'] c hc hs]
  exact List.rdropWhile_concat_pos isSpace _ '\n' (by decide)

theorem escapeFormats_of_not_mem (t : Str) (h : '%' ∉ t) : escapeFormats t = t := by
  have := escapeFormats_append_of_not_mem t [] h
  rwa [List.append_nil, escapeFormats_nil, List.append_nil] at this

theorem ReplaceAll_of_head_not_mem (c : Char) (o new t : Str) (h : c ∉ t) :
    ReplaceAll t (c :: o) new = t := by
  have := ReplaceAll_append_of_not_mem c o new t [] h
  rwa [List.append_nil, ReplaceAll_nil _ _ (by simp), List.append_nil] at this

theorem Contains_false_of_not_mem (t p : Str) (c : Char) (hc : c ∈ p) (h : c ∉ t) :
    Contains t p = false := by
  by_contra hcon
  simp only [Bool.not_eq_false] at hcon
  rw [Contains_iff] at hcon
  exact h (hcon.subset hc)

theorem labelsStep_of_plain (t : Str) (b : Bool) (hd : '$' ∉ t) (hp : '%' ∉ t) :
    labelsStep t b = t := by
  unfold labelsStep
  simp only []
  rw [escapeFormats_of_not_mem t hp, LevelPlaceholder_eq, ReplaceAll_of_head_not_mem _ _ _ _ hd]
  cases b
  · simp only [Bool.false_eq_true, if_false]
    rw [ReplaceAll_of_not_Contains t _ _ (by decide)
      (Contains_false_of_not_mem t _ '$' (by decide) hd), LabelsPlaceholder_eq,
      ReplaceAll_of_head_not_mem _ _ _ _ hd]
  · simp only [if_true]
    rw [LabelsPlaceholder_eq, ReplaceAll_of_head_not_mem _ _ _ _ hd]

theorem messageStep_of_plain (t : Str) (b : Bool) (hd : '$' ∉ t) (hp : '%' ∉ t) :
    messageStep t b
      = (match t.getLast? with
          | none => t
          | some lastLetter =>
            if lastLetter ≠ ' ' ∧ lastLetter ≠ '\n' then t ++ [' '] else t)
        ++ (messageFormat ++ newLine) := by
  unfold messageStep
  simp only []
  rw [labelsStep_of_plain t b hd hp,
    if_neg (by rw [Contains_false_of_not_mem t _ '$' (by decide) hd]; decide)]
  rfl

theorem buildFormat_value_of_trimmed (t W : Str) (b : Bool) (c : Char)
    (hm : messageStep t b = W ++ ['\n']) (hc : c ∈ W) (hcs : isSpace c = false)
    (hW : TrimSpace W = W) :
    buildFormat t b = some { original := t, value := W ++ ['\n'], hasLabels := b } := by
  rw [buildFormat_eq_some, hm, TrimSpace_append_newline W c hc hcs, hW]
  rfl

theorem TrimSpace_append_slot (s sep : Str) (hne : s ≠ []) (hs : TrimSpace s = s) :
    TrimSpace (s ++ sep ++ messageFormat) = s ++ sep ++ messageFormat := by
  apply TrimSpace_eq_self
  · intro c hc
    cases s with
    | nil => exact absurd rfl hne
    | cons d s =>
      simp only [List.cons_append, List.head?_cons, Option.some.injEq] at hc
      subst hc
      exact TrimSpace_head (d :: s) d (by rw [hs]; rfl)
  · intro c hc
    rw [List.getLast?_append_of_ne_nil _ (by decide)] at hc
    have : messageFormat.getLast? = some 's' := rfl
    rw [this, Option.some.injEq] at hc
    subst hc
    decide

/-- C25: for a non-empty format `s` without `$` and `%` and without white space at its
ends, and for either flag, the compiled value is `s`, one space, the message slot and a
newline; the same when `s` is followed by a space; and `s`, a newline, the message slot
and a newline when `s` is followed by a newline. -/
theorem buildFormat_appends_slot (s : Str) (b : Bool) (hne : s ≠ []) (hd : '$' ∉ s)
    (hp : '%' ∉ s) (hs : TrimSpace s = s) :
    (buildFormat s b).map (fun f => f.value) = some (s ++ " %[3]s\n".toList) ∧
    (buildFormat (s ++ " ".toList) b).map (fun f => f.value) = some (s ++ " %[3]s\n".toList) ∧
    (buildFormat (s ++ "\n".toList) b).map (fun f => f.value)
      = some (s ++ "\n%[3]s\n".toList) := by
  obtain ⟨c, hlast⟩ : ∃ c, s.getLast? = some c := by
    cases h : s.getLast? with
    | none => exact absurd (List.getLast?_eq_none_iff.mp h) hne
    | some c => exact ⟨c, rfl⟩
  have hcs : isSpace c = false := TrimSpace_getLast s c (by rw [hs]; exact hlast)
  have hc1 : c ≠ ' ' := by
    rintro rfl
    exact absurd hcs (by decide)
  have hc2 : c ≠ '\n' := by
    rintro rfl
    exact absurd hcs (by decide)
  have hpm : '%' ∈ messageFormat := by decide
  refine ⟨?_, ?_, ?_⟩
  · have hm : messageStep s b = (s ++ [' '] ++ messageFormat) ++ ['\n'] := by
      rw [messageStep_of_plain s b hd hp, hlast]
      simp only [hc1, hc2, ne_eq, not_false_eq_true, and_self, if_true]
      simp [newLine]
    rw [buildFormat_value_of_trimmed s _ b '%' hm (List.mem_append_right _ hpm) (by decide)
      (TrimSpace_append_slot s [' '] hne hs)]
    simp [messageFormat_eq]
  · have hd' : '$' ∉ s ++ " ".toList := by
      simp only [List.mem_append, not_or]
      exact ⟨hd, by decide⟩
    have hp' : '%' ∉ s ++ " ".toList := by
      simp only [List.mem_append, not_or]
      exact ⟨hp, by decide⟩
    have hm : messageStep (s ++ " ".toList) b = (s ++ [' '] ++ messageFormat) ++ ['\n'] := by
      rw [messageStep_of_plain _ b hd' hp']
      have : (s ++ " ".toList).getLast? = some ' ' := by
        rw [List.getLast?_append_of_ne_nil _ (by decide)]
        rfl
      rw [this]
      simp [newLine]
    rw [buildFormat_value_of_trimmed _ _ b '%' hm (List.mem_append_right _ hpm) (by decide)
      (TrimSpace_append_slot s [' '] hne hs)]
    simp [messageFormat_eq]
  · have hd' : '$' ∉ s ++ "\n".toList := by
      simp only [List.mem_append, not_or]
      exact ⟨hd, by decide⟩
    have hp' : '%' ∉ s ++ "\n".toList := by
      simp only [List.mem_append, not_or]
      exact ⟨hp, by decide⟩
    have hm : messageStep (s ++ "\n".toList) b = (s ++ ['\n'] ++ messageFormat) ++ ['\n'] := by
      rw [messageStep_of_plain _ b hd' hp']
      have : (s ++ "\n".toList).getLast? = some '\n' := by
        rw [List.getLast?_append_of_ne_nil _ (by decide)]
        rfl
      rw [this]
      simp [newLine]
    rw [buildFormat_value_of_trimmed _ _ b '%' hm (List.mem_append_right _ hpm) (by decide)
      (TrimSpace_append_slot s ['\n'] hne hs)]
    simp [messageFormat_eq]

/-- Witness for C25: the format `LOG:` of the package's tests. -/
theorem buildFormat_appends_slot_witness :
    "LOG:".toList ≠ [] ∧ '$' ∉ "LOG:".toList ∧ '%' ∉ "LOG:".toList ∧
    TrimSpace "LOG:".toList = "LOG:".toList ∧
    (buildFormat "LOG:".toList true).map (fun f => f.value) = some "LOG: %[3]s\n".toList ∧
    (buildFormat "LOG: ".toList true).map (fun f => f.value) = some "LOG: %[3]s\n".toList ∧
    (buildFormat "LOG:\n".toList true).map (fun f => f.value) = some "LOG:\n%[3]s\n".toList :=
  ⟨by decide, by decide, by decide, by decide,
    buildFormat_appends_slot "LOG:".toList true (by decide) (by decide) (by decide) (by decide)⟩

theorem isPrefix_of_concat (old Y : Str) (a : Char) (ha : a ∉ old) (h : old <+: Y ++ [a]) :
    old <+: Y := by
  rcases List.prefix_concat_iff.mp h with h1 | h1
  · exfalso
    apply ha
    rw [h1]
    simp
  · exact h1

theorem ReplaceAll_append_newline (old new : Str) (ho : old ≠ []) (hn : '\n' ∉ old) :
    ∀ X : Str, ReplaceAll (X ++ ['\n']) old new = ReplaceAll X old new ++ ['\n'] := by
  apply pattern_induction [old] (by simpa using ho)
  · have h1 : ¬ old <+: ['\n'] := by
      intro h
      have := isPrefix_of_concat old [] '\n' hn h
      exact ho (List.prefix_nil.mp this)
    rw [List.nil_append, ReplaceAll_cons_of_not _ _ _ _ ho h1, ReplaceAll_nil _ _ ho]
    rfl
  · intro p hp X ih
    simp only [List.mem_singleton] at hp
    subst hp
    rw [List.append_assoc, ReplaceAll_match _ _ _ ho, ReplaceAll_match _ _ _ ho, ih,
      List.append_assoc]
  · intro c X hnp ih
    have h1 : ¬ old <+: c :: X := hnp old (by simp)
    have h2 : ¬ old <+: c :: (X ++ ['\n']) := by
      intro h
      exact h1 (isPrefix_of_concat old (c :: X) '\n' hn h)
    rw [List.cons_append, ReplaceAll_cons_of_not _ _ _ _ ho h2,
      ReplaceAll_cons_of_not _ _ _ _ ho h1, ih]
    rfl

theorem labelsStep_append_newline (s : Str) (b : Bool) :
    labelsStep (s ++ ['\n']) b = labelsStep s b ++ ['\n'] := by
  unfold labelsStep escapeFormats
  simp only []
  rw [ReplaceAll_append_newline _ _ (by decide) (by decide),
    ReplaceAll_append_newline _ _ (by decide) (by decide)]
  cases b
  · simp only [Bool.false_eq_true, if_false]
    rw [ReplaceAll_append_newline _ _ (by decide) (by decide),
      ReplaceAll_append_newline _ _ (by decide) (by decide)]
  · simp only [if_true]
    rw [ReplaceAll_append_newline _ _ (by decide) (by decide)]

/-- A replacement that cannot overlap an occurrence of `${msg}` keeps it. -/
theorem Contains_Message_ReplaceAll (old new : Str) (ho : old ≠ [])
    (h1 : ∀ Z, Contains (old ++ Z) MessagePlaceholder = true →
      Contains Z MessagePlaceholder = true)
    (h2 : ∀ Z, ReplaceAll (MessagePlaceholder ++ Z) old new
      = MessagePlaceholder ++ ReplaceAll Z old new) :
    ∀ X : Str, Contains X MessagePlaceholder = true →
      Contains (ReplaceAll X old new) MessagePlaceholder = true := by
  apply pattern_induction [old] (by simpa using ho)
  · intro h
    exact absurd h (by decide)
  · intro p hp X ih h
    simp only [List.mem_singleton] at hp
    subst hp
    rw [ReplaceAll_match _ _ _ ho]
    exact Contains_append_left _ _ _ (ih (h1 X h))
  · intro c X hnp ih h
    have hn : ¬ old <+: c :: X := hnp old (by simp)
    by_cases hm : MessagePlaceholder <+: c :: X
    · obtain ⟨Z, hZ⟩ := hm
      rw [← hZ, h2]
      exact Contains_of_isPrefix _ _ (List.prefix_append _ _)
    · rw [Contains_cons_of_not _ _ _ hm] at h
      rw [ReplaceAll_cons_of_not _ _ _ _ ho hn]
      exact Contains_append_left [c] _ _ (ih h)

theorem Contains_spaced_append (Z : Str) :
    Contains (spacedLabels ++ Z) MessagePlaceholder = Contains Z MessagePlaceholder := by
  simp [spacedLabels_eq, LabelsPlaceholder_eq, MessagePlaceholder_eq, Contains,
    List.cons_prefix_cons]

theorem Contains_labelsStep_any (s : Str) (b : Bool)
    (h : Contains s MessagePlaceholder = true) :
    Contains (labelsStep s b) MessagePlaceholder = true := by
  have h0 : Contains (escapeFormats s) MessagePlaceholder = true :=
    Contains_Message_ReplaceAll ['%'] ['%', '%'] (by decide)
      (fun Z hZ => by
        rwa [List.singleton_append, Contains_cons_of_not _ _ _ (by
          rw [MessagePlaceholder_eq, List.cons_prefix_cons]
          exact fun hh => absurd hh.1 (by decide))] at hZ)
      (fun Z => by
        rw [MessagePlaceholder_eq]
        exact ReplaceAll_append_of_not_mem '%' [] _ _ Z (by decide)) s h
  have h1 : Contains (levelStep s) MessagePlaceholder = true :=
    Contains_Message_ReplaceAll LevelPlaceholder levelFormat (by decide)
      (fun Z hZ => by rwa [Contains_Level_append] at hZ)
      (fun Z => ReplaceAll_other _ _ _ Z (by decide) (Level_not_isPrefix_Message Z)) _ h0
  cases b
  · rw [labelsStep_false]
    have h2 : Contains (ReplaceAll (levelStep s) spacedLabels [' ']) MessagePlaceholder = true :=
      Contains_Message_ReplaceAll spacedLabels [' '] (by decide)
        (fun Z hZ => by rwa [Contains_spaced_append] at hZ)
        (fun Z => by
          rw [spacedLabels_eq, MessagePlaceholder_eq]
          exact ReplaceAll_append_of_not_mem ' ' _ _ _ Z (by decide)) _ h1
    exact Contains_Message_ReplaceAll LabelsPlaceholder [] (by decide)
      (fun Z hZ => by rwa [Contains_Labels_append] at hZ)
      (fun Z => ReplaceAll_other _ _ _ Z (by decide) (Labels_not_isPrefix_Message Z)) _ h2
  · rw [labelsStep_true]
    exact Contains_Message_ReplaceAll LabelsPlaceholder labelsFormat (by decide)
      (fun Z hZ => by rwa [Contains_Labels_append] at hZ)
      (fun Z => ReplaceAll_other _ _ _ Z (by decide) (Labels_not_isPrefix_Message Z)) _ h1

theorem messageStep_of_Contains (s : Str) (b : Bool)
    (h : Contains s MessagePlaceholder = true) :
    messageStep s b = ReplaceAll (labelsStep s b) MessagePlaceholder messageFormat := by
  unfold messageStep
  simp only []
  rw [if_pos (Contains_labelsStep_any s b h)]

/-- C24: for every format `s` that contains `${msg}` and either flag, `s` followed by a
newline compiles to the same value as `s`: the line terminator is not doubled. -/
theorem buildFormat_newline_not_doubled (s : Str) (b : Bool)
    (hm : Contains s MessagePlaceholder = true) :
    (buildFormat (s ++ "\n".toList) b).map (fun f => f.value)
      = (buildFormat s b).map (fun f => f.value) := by
  have hm' : Contains (s ++ ['\n']) MessagePlaceholder = true := by
    rw [Contains_iff] at hm ⊢
    exact hm.trans (List.infix_append' [] s ['\n'] |> fun h => by simpa using h)
  have hstep : messageStep (s ++ ['\n']) b = messageStep s b ++ ['\n'] := by
    rw [messageStep_of_Contains _ b hm', messageStep_of_Contains s b hm,
      labelsStep_append_newline, ReplaceAll_append_newline _ _ (by decide) (by decide)]
  show (buildFormat (s ++ ['\n']) b).map (fun f => f.value) = _
  rw [buildFormat_eq_some, buildFormat_eq_some, hstep,
    TrimSpace_append_newline _ '%' (percent_mem_messageStep s b) (by decide)]
  rfl

/-- Witness for C24: the format of the package's test, with and without the trailing
newline, compiles to `%[1]s: %[2]s %[3]s` and a newline. -/
theorem buildFormat_newline_not_doubled_witness :
    Contains "${level}: ${labels} ${msg}".toList MessagePlaceholder = true ∧
    (buildFormat "${level}: ${labels} ${msg}".toList true).map (fun f => f.value)
      = some "%[1]s: %[2]s %[3]s\n".toList ∧
    (buildFormat ("${level}: ${labels} ${msg}".toList ++ "\n".toList) true).map
      (fun f => f.value) = some "%[1]s: %[2]s %[3]s\n".toList :=
  ⟨by decide, by decide,
    (buildFormat_newline_not_doubled "${level}: ${labels} ${msg}".toList true
      (by decide)).trans (by decide)⟩

/-! ## The level of a logger -/

theorem PackageOpt_MinLevel (o : Opt) (h : PackageOpt o) (opts : Opts)
    (hr : (1 : Int) ≤ opts.MinLevel ∧ opts.MinLevel ≤ (7 : Int)) :
    (1 : Int) ≤ (o opts).MinLevel ∧ (o opts).MinLevel ≤ (7 : Int) := by
  cases h with
  | minLevel level => exact (clamp_int level normalizeLevel (fun _ => rfl)).2.2.2.1
  | traceLevel => exact ⟨(by decide : (1 : Int) ≤ 7), (by decide : (7 : Int) ≤ 7)⟩
  | debugLevel => exact ⟨(by decide : (1 : Int) ≤ 6), (by decide : (6 : Int) ≤ 7)⟩
  | infoLevel => exact ⟨(by decide : (1 : Int) ≤ 5), (by decide : (5 : Int) ≤ 7)⟩
  | warnLevel => exact ⟨(by decide : (1 : Int) ≤ 4), (by decide : (4 : Int) ≤ 7)⟩
  | errorLevel => exact ⟨(by decide : (1 : Int) ≤ 3), (by decide : (3 : Int) ≤ 7)⟩
  | panicLevel => exact ⟨(by decide : (1 : Int) ≤ 2), (by decide : (2 : Int) ≤ 7)⟩
  | fatalLevel => exact ⟨(by decide : (1 : Int) ≤ 3), (by decide : (3 : Int) ≤ 7)⟩
  | _ => exact hr

theorem foldl_MinLevel (opts : List Opt) (h : ∀ o ∈ opts, PackageOpt o) (start : Opts)
    (hr : (1 : Int) ≤ start.MinLevel ∧ start.MinLevel ≤ (7 : Int)) :
    (1 : Int) ≤ (opts.foldl (fun options opt => opt options) start).MinLevel ∧
    (opts.foldl (fun options opt => opt options) start).MinLevel ≤ (7 : Int) := by
  induction opts generalizing start with
  | nil => exact hr
  | cons o os ih =>
    rw [List.foldl_cons]
    exact ih (fun x hx => h x (List.mem_cons_of_mem _ hx)) (o start)
      (PackageOpt_MinLevel o (h o (by simp)) start hr)

theorem applyOpts_MinLevel (opts : List Opt) (h : ∀ o ∈ opts, PackageOpt o) :
    (1 : Int) ≤ (applyOpts opts).MinLevel ∧ (applyOpts opts).MinLevel ≤ (7 : Int) :=
  foldl_MinLevel opts h defaultOpts ⟨(by decide : (1 : Int) ≤ 5), (by decide : (5 : Int) ≤ 7)⟩

theorem mergeOpts_MinLevel (base update : Opts) :
    (mergeOpts base update).MinLevel
      = if update.MinLevel ≠ 0 then normalizeLevel update.MinLevel else base.MinLevel := by
  unfold mergeOpts
  simp only [apply_ite Opts.MinLevel, ite_self]

theorem New_level (lib : Lib) (opts : List Opt) (l : logger) (h : New lib opts = some l) :
    l.level = (applyOpts opts).MinLevel := by
  unfold New at h
  simp only [] at h
  rw [buildFormat_eq_some] at h
  rw [← Option.some.inj h]
  rfl

theorem ByOptions_level (lib : Lib) (o : Opts) (l : logger) (h : ByOptions lib o = some l) :
    l.level = (mergeOpts defaultOpts o).MinLevel := by
  unfold ByOptions at h
  simp only [] at h
  rw [buildFormat_eq_some] at h
  rw [← Option.some.inj h]

theorem buildLevelNames_lookup_none (lib : Lib) (opts : Opts) (L : Level)
    (h : L ∉ allLevels) : (buildLevelNames lib opts).lookup L = none := by
  rw [buildLevelNames_eq, lookup_map_key, if_neg h]

theorem resolveLevel_range (lib : Lib) (order : List Level) (opts : Opts) (name : Str)
    (fallback : Level) (hf : (1 : Int) ≤ fallback ∧ fallback ≤ (7 : Int)) :
    (1 : Int) ≤ resolveLevel order (buildLevelNames lib opts) name fallback ∧
    resolveLevel order (buildLevelNames lib opts) name fallback ≤ (7 : Int) := by
  unfold resolveLevel
  cases hfind : order.find?
      (fun lvl => (buildLevelNames lib opts).lookup lvl == some name) with
  | none => exact hf
  | some lvl =>
    have hp := List.find?_some hfind
    simp only [beq_iff_eq] at hp
    have hm : lvl ∈ allLevels := by
      by_contra hn
      rw [buildLevelNames_lookup_none lib opts lvl hn] at hp
      exact absurd hp (by simp)
    exact (mem_allLevels_iff lvl).mp hm

theorem WithLevel_level (l : logger) (v : Level) :
    (WithLevel l v).level = normalizeLevel v := by
  unfold WithLevel
  simp only []
  split_ifs with h
  · exact h
  · rfl

theorem Reachable_level (lib : Lib) (l : logger) (h : Reachable lib l) :
    (1 : Int) ≤ l.level ∧ l.level ≤ (7 : Int) := by
  induction h with
  | new opts l hopts hl =>
    rw [New_level lib opts l hl]
    exact applyOpts_MinLevel opts hopts
  | byLevelName order name opts l hopts hl =>
    obtain ⟨l', hl', _, hlev⟩ := ByLevelName_eq lib order name opts
    rw [hl] at hl'
    rw [Option.some.inj hl', hlev]
    exact resolveLevel_range lib order _ _ _ (applyOpts_MinLevel opts hopts)
  | byOptions o l hl =>
    rw [ByOptions_level lib o l hl, mergeOpts_MinLevel]
    split_ifs
    · exact (clamp_int o.MinLevel normalizeLevel (fun _ => rfl)).2.2.2.1
    · exact ⟨(by decide : (1 : Int) ≤ 5), (by decide : (5 : Int) ≤ 7)⟩
  | withLevel l v _ _ =>
    rw [WithLevel_level l v]
    exact (clamp_int v normalizeLevel (fun _ => rfl)).2.2.2.1
  | withFormat l f l' _ hl' ih =>
    unfold WithFormat at hl'
    rw [buildFormat_eq_some] at hl'
    rw [← Option.some.inj hl']
    exact ih
  | clearLabels l l' _ hl' ih =>
    unfold ClearLabels format.clearLabels at hl'
    obtain ⟨g, hg, _⟩ := withLabels_eq_some l.format false
    rw [hg] at hl'
    rw [← Option.some.inj hl']
    exact ih
  | withLabels l vs l' _ hl' ih =>
    unfold WithLabels at hl'
    simp only [] at hl'
    obtain ⟨g, hg, _⟩ := withLabels_eq_some l.format (l.labels.add lib.rest vs).notEmpty
    rw [hg] at hl'
    rw [← Option.some.inj hl']
    exact ih
  | withLabelSeparator l sep _ ih => exact ih
  | withLabelsFormat l f _ ih => exact ih

/-- C26: every logger built by `New` or `ByLevelName` from the package's options or by
`ByOptions` from any `Opts` value, and every logger derived from such a logger, has its
level in `[LevelFatal, LevelTrace]`; so `Fatal` and `Fatalf` are never gated out: they
write one line and end the process. -/
theorem level_range_invariant (lib : Lib) (l : logger) (f : Str) (v : List Operand)
    (h : Reachable lib l) :
    LevelFatal ≤ l.level ∧ l.level ≤ LevelTrace ∧
    l.Fatal lib v
      = { written := [⟨l.logger, 3, l.render lib LevelFatal (Sprint v)⟩]
          control := .exited 1 } ∧
    l.Fatalf lib f v
      = { written := [⟨l.logger, 3, l.render lib LevelFatal (lib.sprintf f v)⟩]
          control := .exited 1 } := by
  have hr := Reachable_level lib l h
  have hn : ¬ l.level < LevelFatal := not_lt.mpr hr.1
  refine ⟨hr.1, hr.2, ?_, ?_⟩
  · unfold logger.Fatal logger.fatal
    rw [if_neg hn]
  · unfold logger.Fatalf logger.fatalf
    rw [if_neg hn]

/-- Witness for C26: the logger of `New(MinLevel(100))` brought to level `-5` by
`WithLevel` has level fatal, and its `Fatal("x")` writes and exits. -/
theorem level_range_invariant_witness :
    ∃ l, New noLib [MinLevel 100] = some l ∧
      LevelFatal ≤ (WithLevel l (-5)).level ∧ (WithLevel l (-5)).level ≤ LevelTrace ∧
      ((WithLevel l (-5)).Fatal noLib [Operand.str "x".toList]).control = .exited 1 := by
  have hex : ∃ l, New noLib [MinLevel 100] = some l := by
    unfold New
    simp only []
    rw [buildFormat_eq_some]
    exact ⟨_, rfl⟩
  obtain ⟨l, hl⟩ := hex
  have h := level_range_invariant noLib (WithLevel l (-5)) [] [Operand.str "x".toList]
    (Reachable.withLevel l (-5)
      (Reachable.new [MinLevel 100] l
        (fun o ho => by
          rw [List.mem_singleton] at ho
          rw [ho]
          exact PackageOpt.minLevel 100) hl))
  exact ⟨l, hl, h.1, h.2.1, by rw [h.2.2.1]⟩

/-! ## Well-formed label sets -/

theorem escapeFormats_ne_nil (x : Str) (hx : x ≠ []) : escapeFormats x ≠ [] := by
  cases x with
  | nil => exact absurd rfl hx
  | cons c X =>
    by_cases hc : c = '%'
    · subst hc
      rw [escapeFormats_percent]
      simp
    · rw [escapeFormats_cons_of_ne c X hc]
      simp

theorem copyLabels_ne_nil (ls : List Str) : ∀ v ∈ copyLabels ls, v ≠ [] := by
  intro v hv
  unfold copyLabels at hv
  rw [List.mem_map] at hv
  obtain ⟨x, hx, rfl⟩ := hv
  rw [List.mem_filter] at hx
  exact escapeFormats_ne_nil x (by simpa using hx.2)

theorem Configured_Built (rest : FmtRest) (L : labels) (h : labels.Configured rest L) :
    labels.Built rest L := by
  induction h with
  | build format configured sep => exact labels.Built.build _ _ _
  | add L xs _ ih => exact labels.Built.add L xs ih
  | clear L _ ih => exact labels.Built.clear L ih
  | setSeparator L sep _ ih => exact labels.Built.setSeparator L sep ih
  | setFormat L f _ ih => exact labels.Built.setFormat L f ih

theorem labels_add_values (rest : FmtRest) (L : labels) (xs : List Str) :
    (L.add rest xs).values = L.values ++ xs.filter (fun label => label ≠ []) := by
  by_cases h : xs.filter (fun label => label ≠ []) = []
  · rw [labels_add_of_filter_nil rest L xs h, h, List.append_nil]
  · rw [labels_add_of_filter_ne_nil rest L xs h]
    rfl

theorem Configured_values (rest : FmtRest) (L : labels) (h : labels.Configured rest L) :
    ∀ v ∈ L.values, v ≠ [] := by
  induction h with
  | build format configured sep => exact copyLabels_ne_nil configured
  | add L xs _ ih =>
    intro v hv
    rw [labels_add_values rest L xs, List.mem_append] at hv
    rcases hv with hv | hv
    · exact ih v hv
    · rw [List.mem_filter] at hv
      simpa using hv.2
  | clear L _ ih =>
    intro v hv
    by_cases hf : L.formatted = []
    · rw [(labels_clear_spec L).2.2.2.2 hf] at hv
      exact ih v hv
    · rw [(labels_clear_spec L).2.2.2.1 hf] at hv
      simp at hv
  | setSeparator L sep _ ih =>
    have : (L.setSeparator rest sep).values = L.values := by
      unfold labels.setSeparator
      split_ifs
      · rfl
      · rfl
    rw [this]
    exact ih
  | setFormat L f _ ih =>
    have : (L.setFormat rest f).values = L.values := by
      unfold labels.setFormat
      split_ifs
      · rfl
      · rfl
    rw [this]
    exact ih

/-- C27: every label set reachable from a constructor by `add`, `clear`, `setSeparator`
and `setFormat` holds no empty value, and its pre-rendered string is the rendering of
its fields: empty when there is no value, otherwise `Sprintf(format, join(values,
separator))` when the format contains `%[1]s` and the format itself when it does not. -/
theorem labels_well_formed (rest : FmtRest) (L : labels) (h : labels.Configured rest L) :
    (∀ v ∈ L.values, v ≠ []) ∧
    L.formatted =
      if L.values = [] then []
      else if Contains L.format "%[1]s".toList then
        Sprintf rest L.format [Join L.values L.separator]
      else L.format := by
  refine ⟨Configured_values rest L h, ?_⟩
  have hb := congrArg labels.formatted (labels_Built_eq rest L (Configured_Built rest L h))
  rw [buildLabels_formatted] at hb
  rw [hb]
  by_cases hv : L.values = []
  · rw [hv]
    rfl
  · rw [if_pos (List.length_pos.mpr hv), if_neg hv]
    rfl

/-- Witness for C27: the labels `a`, an empty string and `100%` configured with the
template `(%[1]s)`, then `b` added, the separator set to `-`, and the set cleared. -/
theorem labels_well_formed_witness :
    ((((buildLabels noRest "(%[1]s)".toList (copyLabels ["a".toList, [], "100%".toList])
        " ".toList).add noRest ["b".toList, []]).setSeparator noRest "-".toList).values
      = ["a".toList, "100%%".toList, "b".toList]) ∧
    ((((buildLabels noRest "(%[1]s)".toList (copyLabels ["a".toList, [], "100%".toList])
        " ".toList).add noRest ["b".toList, []]).setSeparator noRest "-".toList).formatted
      = "(a-100%%-b)".toList) ∧
    (∀ v ∈ ((((buildLabels noRest "(%[1]s)".toList
        (copyLabels ["a".toList, [], "100%".toList]) " ".toList).add noRest
        ["b".toList, []]).setSeparator noRest "-".toList).clear).values, v ≠ []) := by
  refine ⟨by decide, by decide, ?_⟩
  exact (labels_well_formed noRest _
    (labels.Configured.clear _
      (labels.Configured.setSeparator _ _
        (labels.Configured.add _ _ (labels.Configured.build _ _ _))))).1

/-! ## Label values with a percent sign -/

/-- C23, at the failing input: the label `100%` configured by `New(Labels("100%"))` is
stored and printed with its `%` doubled, `[info] 100%% m`, while the same label added by
`WithLabels(New(), "100%")` is stored and printed as it is, `[info] 100% m`: the two
label sets differ. -/
theorem configured_label_escaped (lib : Lib) :
    ((New lib [Labels ["100%".toList]]).map fun l =>
      (l.labels.values, l.labels.formatted,
        (l.Info lib [Operand.str "m".toList]).written.map fun w => w.line))
      = some (["100%%".toList], "100%%".toList, ["[info] 100%% m\n".toList]) ∧
    (((New lib []).bind fun l => WithLabels lib l ["100%".toList]).map fun l =>
      (l.labels.values, l.labels.formatted,
        (l.Info lib [Operand.str "m".toList]).written.map fun w => w.line))
      = some (["100%".toList], "100%".toList, ["[info] 100% m\n".toList]) :=
  ⟨rfl, rfl⟩

/-! ## The labels placeholder after its deletion -/

theorem isPrefix_of_append_cons (b : Char) (B : Str) :
    ∀ (w A : Str), b ∉ w → w <+: A ++ b :: B → w <+: A := by
  intro w
  induction w with
  | nil => intro A _ _; simp
  | cons c w ih =>
    intro A hb h
    simp only [List.mem_cons, not_or] at hb
    cases A with
    | nil =>
      rw [List.nil_append, List.cons_prefix_cons] at h
      exact absurd h.1.symm hb.1
    | cons a A =>
      rw [List.cons_append, List.cons_prefix_cons] at h
      rw [List.cons_prefix_cons]
      exact ⟨h.1, ih A hb.2 h.2⟩

/-- An occurrence of `w` in `A ++ b :: B` lies in `A` when `w` does not contain `b` and the
first character of `w` does not occur in `b :: B`. -/
theorem isInfix_of_append_cons (w A B : Str) (b : Char) (hb : b ∉ w)
    (hh : ∀ c, w.head? = some c → c ∉ b :: B) (h : w <:+: A ++ b :: B) : w <:+: A := by
  induction A with
  | nil =>
    cases w with
    | nil => exact List.infix_refl _
    | cons c w => exact absurd (h.subset (List.mem_cons_self c w)) (hh c rfl)
  | cons a A ih =>
    rw [List.cons_append] at h
    rcases List.infix_cons_iff.mp h with h1 | h1
    · exact (isPrefix_of_append_cons b B w (a :: A) hb h1).isInfix
    · exact List.infix_cons (ih h1)

/-- An occurrence of `c :: w` in `A ++ B` lies in `B` when `c` does not occur in `A`. -/
theorem isInfix_of_cons_append (w A B : Str) (c : Char) (hc : c ∉ A)
    (h : c :: w <:+: A ++ B) : c :: w <:+: B := by
  induction A with
  | nil => exact h
  | cons a A ih =>
    simp only [List.mem_cons, not_or] at hc
    rw [List.cons_append] at h
    rcases List.infix_cons_iff.mp h with h1 | h1
    · rw [List.cons_prefix_cons] at h1
      exact absurd h1.1 hc.1
    · exact ih hc.2 h1

/-- A word without the first character of the replacement text that starts the result
of `strings.ReplaceAll` starts the original string. -/
theorem isPrefix_of_ReplaceAll (old n' : Str) (n0 : Char) (ho : old ≠ []) :
    ∀ (w X : Str), n0 ∉ w → w <+: ReplaceAll X old (n0 :: n') → w <+: X := by
  intro w
  induction w with
  | nil => intro X _ _; simp
  | cons c w ih =>
    intro X hn h
    simp only [List.mem_cons, not_or] at hn
    cases X with
    | nil =>
      rw [ReplaceAll_nil _ _ ho] at h
      simp at h
    | cons d X =>
      by_cases hp : old <+: d :: X
      · obtain ⟨t, ht⟩ := hp
        rw [← ht, ReplaceAll_match _ _ _ ho, List.cons_append, List.cons_prefix_cons] at h
        exact absurd h.1.symm hn.1
      · rw [ReplaceAll_cons_of_not _ _ _ _ ho hp, List.cons_prefix_cons] at h
        rw [List.cons_prefix_cons]
        exact ⟨h.1, ih X hn.2 h.2⟩

/-- A replacement by a non-empty text creates no occurrence of a word that does not
contain the first character of that text and does not start with one of its
characters. -/
theorem isInfix_of_ReplaceAll (old n' w : Str) (n0 c : Char) (ho : old ≠ [])
    (hn : n0 ∉ c :: w) (hc : c ∉ n0 :: n') :
    ∀ X : Str, c :: w <:+: ReplaceAll X old (n0 :: n') → c :: w <:+: X := by
  apply pattern_induction [old] (by simpa using ho)
  · intro h
    rw [ReplaceAll_nil _ _ ho] at h
    exact h
  · intro p hp X ih h
    simp only [List.mem_singleton] at hp
    subst hp
    rw [ReplaceAll_match _ _ _ ho] at h
    exact (ih (isInfix_of_cons_append w _ _ c hc h)).trans (List.suffix_append _ _).isInfix
  · intro d X hnp ih h
    have hp : ¬ old <+: d :: X := hnp old (by simp)
    rw [ReplaceAll_cons_of_not _ _ _ _ ho hp] at h
    rcases List.infix_cons_iff.mp h with h1 | h1
    · rw [← ReplaceAll_cons_of_not _ _ _ _ ho hp] at h1
      exact (isPrefix_of_ReplaceAll old n' n0 ho _ _ hn h1).isInfix
    · exact List.infix_cons (ih h1)

/-- A replacement that cannot overlap an occurrence of `w` keeps it. -/
theorem Contains_ReplaceAll_of_Contains (w old new : Str) (ho : old ≠ []) (hw : w ≠ [])
    (h1 : ∀ Z, Contains (old ++ Z) w = true → Contains Z w = true)
    (h2 : ∀ Z, ReplaceAll (w ++ Z) old new = w ++ ReplaceAll Z old new) :
    ∀ X : Str, Contains X w = true → Contains (ReplaceAll X old new) w = true := by
  apply pattern_induction [old] (by simpa using ho)
  · intro h
    rw [Contains_iff] at h
    exact absurd (List.infix_nil.mp h) hw
  · intro p hp X ih h
    simp only [List.mem_singleton] at hp
    subst hp
    rw [ReplaceAll_match _ _ _ ho]
    exact Contains_append_left _ _ _ (ih (h1 X h))
  · intro c X hnp ih h
    have hn : ¬ old <+: c :: X := hnp old (by simp)
    by_cases hm : w <+: c :: X
    · obtain ⟨Z, hZ⟩ := hm
      rw [← hZ, h2]
      exact Contains_of_isPrefix _ _ (List.prefix_append _ _)
    · rw [Contains_cons_of_not _ _ _ hm] at h
      rw [ReplaceAll_cons_of_not _ _ _ _ ho hn]
      exact Contains_append_left [c] _ _ (ih h)

theorem Contains_Labels_slot (X : Str) (h : Contains X LabelsPlaceholder = true) :
    Contains (ReplaceAll X MessagePlaceholder messageFormat) LabelsPlaceholder = true :=
  Contains_ReplaceAll_of_Contains LabelsPlaceholder MessagePlaceholder messageFormat
    (by decide) (by decide)
    (fun Z hZ => by
      simpa [LabelsPlaceholder_eq, MessagePlaceholder_eq, Contains, List.cons_prefix_cons]
        using hZ)
    (fun Z => by
      rw [LabelsPlaceholder_eq, MessagePlaceholder_eq]
      exact ReplaceAll_other _ _ _ _ (by decide) (by simp [List.cons_prefix_cons])) X h

theorem mem_labelsPrefixes (p : Str) :
    p ∈ labelsPrefixes ↔ p ≠ [] ∧ ∃ r, r ≠ [] ∧ p ++ r = LabelsPlaceholder := by
  have hl : LabelsPlaceholder.length = 9 := rfl
  unfold labelsPrefixes
  rw [hl, List.mem_map]
  constructor
  · rintro ⟨k, hk, rfl⟩
    rw [List.mem_range] at hk
    refine ⟨?_, LabelsPlaceholder.drop (k + 1), ?_, List.take_append_drop _ _⟩
    · rw [LabelsPlaceholder_eq, List.take_succ_cons]
      exact List.cons_ne_nil _ _
    · intro h
      have := congrArg List.length h
      simp only [List.length_drop, hl, List.length_nil] at this
      omega
  · rintro ⟨hp, r, hr, hpr⟩
    have h1 : 0 < p.length := List.length_pos.mpr hp
    have h2 : 0 < r.length := List.length_pos.mpr hr
    have h3 : p.length + r.length = 9 := by
      rw [← hl, ← hpr, List.length_append]
    refine ⟨p.length - 1, List.mem_range.mpr (by omega), ?_⟩
    have h4 : p.length - 1 + 1 = p.length := by omega
    rw [h4, ← hpr]
    simp

theorem noLabelsJoin_iff (X : Str) :
    noLabelsJoin X = true ↔
      ∀ p r : Str, p ≠ [] → r ≠ [] → p ++ r = LabelsPlaceholder →
        ¬ (p ++ LabelsPlaceholder) <:+: X := by
  unfold noLabelsJoin
  rw [List.all_eq_true]
  constructor
  · intro h p r hp hr hpr hin
    have h1 := h p ((mem_labelsPrefixes p).mpr ⟨hp, r, hr, hpr⟩)
    rw [← Contains_iff] at hin
    rw [hin] at h1
    exact absurd h1 (by decide)
  · intro h p hp
    obtain ⟨hp0, r, hr, hpr⟩ := (mem_labelsPrefixes p).mp hp
    have h1 := h p r hp0 hr hpr
    rw [← Contains_iff] at h1
    simpa using h1

theorem noLabelsJoin_of_isInfix (X Y : Str) (hXY : Y <:+: X) (h : noLabelsJoin X = true) :
    noLabelsJoin Y = true := by
  rw [noLabelsJoin_iff] at h ⊢
  intro p r hp hr hpr hin
  exact h p r hp hr hpr (hin.trans hXY)

/-- A replacement by a non-empty text that does not start with a character of
`${labels}` and contains no `$` puts no `${labels}` directly after a prefix of the
placeholder. -/
theorem noLabelsJoin_ReplaceAll (X old n' : Str) (n0 : Char) (ho : old ≠ [])
    (h0 : n0 ∉ LabelsPlaceholder) (h1 : '$' ∉ n0 :: n') (h : noLabelsJoin X = true) :
    noLabelsJoin (ReplaceAll X old (n0 :: n')) = true := by
  rw [noLabelsJoin_iff] at h ⊢
  intro p r hp hr hpr hin
  apply h p r hp hr hpr
  cases p with
  | nil => exact absurd rfl hp
  | cons c p =>
    have hc : c = '$' := by
      rw [LabelsPlaceholder_eq, List.cons_append, List.cons.injEq] at hpr
      exact hpr.1
    subst hc
    have hn : n0 ∉ '$' :: (p ++ LabelsPlaceholder) := by
      intro hm
      rw [← List.cons_append, List.mem_append] at hm
      rcases hm with hm | hm
      · exact h0 (by rw [← hpr]; exact List.mem_append_left _ hm)
      · exact h0 hm
    exact isInfix_of_ReplaceAll old n' (p ++ LabelsPlaceholder) n0 '$' ho hn h1 X hin

/-- When the deletion pass stands after a copied prefix `p` of the placeholder, what it
produces next does not complete the placeholder. -/
theorem not_isPrefix_removeLabels :
    ∀ (r p Z : Str), r ≠ [] → p ++ r = LabelsPlaceholder → noLabelsJoin (p ++ Z) = true →
      ¬ LabelsPlaceholder <+: p ++ Z → ¬ r <+: ReplaceAll Z LabelsPlaceholder [] := by
  intro r
  induction r with
  | nil => intro p Z hr; exact absurd rfl hr
  | cons r0 r ih =>
    intro p Z _ hpr hs hn h
    cases Z with
    | nil =>
      rw [ReplaceAll_nil _ _ (by decide)] at h
      simp at h
    | cons z Z =>
      by_cases hL : LabelsPlaceholder <+: z :: Z
      · obtain ⟨t, ht⟩ := hL
        cases p with
        | nil => exact hn ⟨t, ht⟩
        | cons c p =>
          rw [noLabelsJoin_iff] at hs
          apply hs (c :: p) (r0 :: r) (by simp) (by simp) hpr
          rw [← ht]
          exact ⟨[], t, by simp⟩
      · rw [ReplaceAll_cons_of_not _ _ _ _ (by decide) hL, List.cons_prefix_cons] at h
        obtain ⟨h0, h1⟩ := h
        subst h0
        have e : (p ++ [r0]) ++ Z = p ++ r0 :: Z := by simp
        cases r with
        | nil =>
          apply hn
          rw [← hpr]
          exact ⟨Z, e⟩
        | cons r1 r =>
          exact ih (p ++ [r0]) Z (by simp) (by simpa using hpr) (by rw [e]; exact hs)
            (by rw [e]; exact hn) h1

/-- The deletion pass leaves no `${labels}` in a string in which no `${labels}` directly
follows a prefix of the placeholder. -/
theorem not_Contains_removeLabels :
    ∀ X : Str, noLabelsJoin X = true →
      Contains (ReplaceAll X LabelsPlaceholder []) LabelsPlaceholder = false := by
  apply pattern_induction [LabelsPlaceholder]
    (by intro p hp; rw [List.mem_singleton.mp hp]; decide)
  · intro _
    rfl
  · intro p hp X ih h
    simp only [List.mem_singleton] at hp
    subst hp
    rw [ReplaceAll_match _ _ _ (by decide), List.nil_append]
    exact ih (noLabelsJoin_of_isInfix _ _ (List.suffix_append _ _).isInfix h)
  · intro c X hnp ih h
    have hp : ¬ LabelsPlaceholder <+: c :: X := hnp _ (by simp)
    rw [ReplaceAll_cons_of_not _ _ _ _ (by decide) hp, Contains_cons_of_not]
    · exact ih (noLabelsJoin_of_isInfix _ _ (List.suffix_cons _ _).isInfix h)
    · rw [← ReplaceAll_cons_of_not _ _ _ _ (by decide) hp]
      exact not_isPrefix_removeLabels LabelsPlaceholder [] (c :: X) (by decide) rfl h hp

theorem noLabelsJoin_levelStep (s : Str) (h : noLabelsJoin s = true) :
    noLabelsJoin (levelStep s) = true :=
  noLabelsJoin_ReplaceAll _ _ ['[', '1', ']', 's'] '%' (by decide) (by decide) (by decide)
    (noLabelsJoin_ReplaceAll s ['%'] ['%'] '%' (by decide) (by decide) (by decide) h)

theorem not_Contains_labelsStep (s : Str) (h : noLabelsJoin s = true) :
    Contains (labelsStep s false) LabelsPlaceholder = false := by
  rw [labelsStep_false]
  exact not_Contains_removeLabels _
    (noLabelsJoin_ReplaceAll _ _ [] ' ' (by decide) (by decide) (by decide)
      (noLabelsJoin_levelStep s h))

theorem Contains_Labels_append_cons (A B : Str) (b : Char) (hb : b ∉ LabelsPlaceholder)
    (hB : '$' ∉ b :: B) :
    Contains (A ++ b :: B) LabelsPlaceholder = Contains A LabelsPlaceholder := by
  rw [Bool.eq_iff_iff, Contains_iff, Contains_iff]
  constructor
  · intro h
    refine isInfix_of_append_cons _ A B b hb ?_ h
    intro c hc
    rw [LabelsPlaceholder_eq, List.head?_cons, Option.some.injEq] at hc
    rw [← hc]
    exact hB
  · intro h
    exact h.trans (List.prefix_append _ _).isInfix

theorem Contains_Labels_TrimSpace (X : Str) :
    Contains (TrimSpace X) LabelsPlaceholder = Contains X LabelsPlaceholder := by
  rw [Bool.eq_iff_iff]
  constructor
  · intro h
    rw [Contains_iff] at h ⊢
    unfold TrimSpace at h
    exact (h.trans (List.rdropWhile_prefix isSpace _).isInfix).trans
      (List.dropWhile_suffix isSpace).isInfix
  · exact Contains_TrimSpace LabelsPlaceholder X '$' '}' rfl rfl (by decide) (by decide)

/-- The steps of `buildFormat` after the labels step neither create nor remove an
occurrence of `${labels}`. -/
theorem Contains_Labels_messageStep (s : Str) (b : Bool) :
    Contains (messageStep s b) LabelsPlaceholder
      = Contains (labelsStep s b) LabelsPlaceholder := by
  unfold messageStep
  simp only []
  split_ifs with hc
  · rw [Bool.eq_iff_iff]
    constructor
    · intro h
      rw [Contains_iff] at h ⊢
      rw [messageFormat_eq] at h
      rw [LabelsPlaceholder_eq] at h ⊢
      exact isInfix_of_ReplaceAll _ _ _ '%' '$' (by decide) (by decide) (by decide) _ h
    · exact Contains_Labels_slot _
  · split
    · exact Contains_Labels_append_cons _ _ '%' (by decide) (by decide)
    · split_ifs
      · rw [List.append_assoc]
        exact Contains_Labels_append_cons _ _ ' ' (by decide) (by decide)
      · exact Contains_Labels_append_cons _ _ '%' (by decide) (by decide)

/-- C5, amended: the template compiled with labels absent contains `${labels}` exactly
when the string left by the deletion pass of `buildFormat` contains it, that is, when
the text around deleted occurrences joins into a new placeholder; it contains none
whenever no `${labels}` of the format string directly follows a non-empty proper prefix
`$`, `${`, ..., `${labels` of the placeholder. -/
theorem buildFormat_removes_labels (s : Str) :
    ∃ f, buildFormat s false = some f ∧
      Contains f.value LabelsPlaceholder
        = Contains (labelsStep s false) LabelsPlaceholder ∧
      (noLabelsJoin s = true → Contains f.value LabelsPlaceholder = false) := by
  refine ⟨_, buildFormat_eq_some s false, ?_⟩
  have hv : Contains (TrimSpace (messageStep s false) ++ newLine) LabelsPlaceholder
      = Contains (labelsStep s false) LabelsPlaceholder :=
    (Contains_Labels_append_cons (TrimSpace (messageStep s false)) [] '\n' (by decide)
      (by decide)).trans
      ((Contains_Labels_TrimSpace _).trans (Contains_Labels_messageStep s false))
  exact ⟨hv, fun h => hv.trans (not_Contains_labelsStep s h)⟩

/-- Witness for C5: in `$5 ${labels} ${msg}` the `$` of `$5` begins no placeholder, and
the compiled template `$5 %[3]s` has no `${labels}`. -/
theorem buildFormat_removes_labels_witness :
    noLabelsJoin "$5 ${labels} ${msg}".toList = true ∧
    ∃ f, buildFormat "$5 ${labels} ${msg}".toList false = some f ∧
      f.value = "$5 %[3]s\n".toList ∧ Contains f.value LabelsPlaceholder = false := by
  obtain ⟨f, hf, _, h⟩ := buildFormat_removes_labels "$5 ${labels} ${msg}".toList
  refine ⟨by decide, f, hf, ?_, h (by decide)⟩
  have e : buildFormat "$5 ${labels} ${msg}".toList false
      = some ⟨"$5 ${labels} ${msg}".toList, "$5 %[3]s\n".toList, false⟩ := by decide
  rw [e, Option.some.injEq] at hf
  rw [← hf]

end LogGo
